import Mathlib

/-!
# zcalc: a line calculator

Shallow embedding of `zcalc.h` (the `Lexer` and the recursive-descent `Calc`)
and theorems about it.

* `double` is a carrier type `α` with the operations the program uses
  (`Arith α`); the theorems hold for every carrier.  Concrete examples are run
  on `ℚ` (`ratArith`), where the arithmetic is exact.
* The input is a list of bytes, each written as the character of its number
  (`Char.ofNat b`; a character of a larger number stands for its lowest byte);
  `get()` stores a byte in the signed `char ch`, so the bytes 128 to 255 are the
  values -128 to -1 (`code`), and the byte 255 is equal to `EOF`, which is `-1`.
* `int` is 32 bit with wrap-around (`wrapInt`), `unsigned` is modulo `2^32`,
  `size_t` is modulo `2^64`.
* `std::cout` is the list `cout` of output events carried by the lexer state.
* A caret line is built by `std::string(index, ' ')`.  When `index` is above
  `stringMax` the constructor throws `std::length_error`; nothing catches it,
  so it leaves `get_token` (the flag `Lexer.raised`, set by every call), every
  method of `Calc` (the result `Res.raise`) and the program, which
  `std::terminate` ends.  Memory is not bounded: a string of at most `stringMax`
  characters is always built.
* `Calc::token` and `Lexer::token` are one pointer: every assignment to
  `Calc::token` is `token = lexer.get_token()` or `token = lexer.abort()`, which
  return `Lexer::token`.  The embedding keeps the single field `Lexer.token`.
* The recursive descent is defined with a fuel argument; `none` means that the
  fuel ran out.  `Calc.fuel_succ` shows that more fuel never changes a result.
* The three loops of the lexer get the number of unread characters plus one as
  fuel, which they never use up (`Lexer.skip_space_fuel`,
  `Lexer.read_int_loop_fuel`, `Lexer.abort_loop_fuel`).
-/

namespace ZCalc

/-! ## Tokens -/

/-- The enum `TokenType`. -/
inductive TokenType where
  | END | NUM | ADD | SUB | MUL | DIV | LPAREN | RPAREN
  deriving DecidableEq, Repr

/-- The table `token_type[]`. -/
def token_type : TokenType → String
  | .END => "end"
  | .NUM => "num"
  | .ADD => "+"
  | .SUB => "-"
  | .MUL => "*"
  | .DIV => "/"
  | .LPAREN => "("
  | .RPAREN => ")"

/-- The operations on `double` that the program uses. -/
structure Arith (α : Type) where
  /-- Conversion of an `int` or `unsigned` to `double`. -/
  ofInt : Int → α
  /-- The literal `0.1`. -/
  tenth : α
  add : α → α → α
  sub : α → α → α
  mul : α → α → α
  div : α → α → α
  /-- The function `pow` of `<cmath>`, at an integral exponent. -/
  pow : α → Int → α
  /-- The text `operator<<` prints for a `double`. -/
  fmt : α → String

/-- A `Token` (base class, built by `new Token(t)`) or a `Num`. -/
inductive Token (α : Type) where
  | tok (t : TokenType)
  | num (value : α)
  deriving DecidableEq, Repr

/-- The field `type`; the constructor of `Num` sets it to `NUM`. -/
def Token.type {α : Type} : Token α → TokenType
  | .tok t => t
  | .num _ => .NUM

/-- The virtual `val()`: `0` for a plain token, the value for a `Num`. -/
def Token.val {α : Type} (A : Arith α) : Token α → α
  | .tok _ => A.ofInt 0
  | .num v => v

/-- The virtual `to_str()`. -/
def Token.to_str {α : Type} (A : Arith α) : Token α → String
  | .tok t => token_type t
  | .num v => A.fmt v

/-! ## Errors and output -/

/-- The three `LexError`s thrown by `Lexer::match`. -/
inductive LexError where
  | missingDecimal
  | missingExponent
  | invalidToken (ch : Int)
  deriving DecidableEq, Repr

/-- The `detail` string of a `LexError`. -/
def LexError.detail : LexError → String
  | .missingDecimal => "missing value after decimal dot"
  | .missingExponent => "missing value after scientificnotation E"
  | .invalidToken ch =>
      "invalid token '" ++ String.singleton (Char.ofNat (ch % 256).toNat) ++ "' (ascii "
        ++ toString ch ++ " )"

/-- The `SyntaxError`s thrown by `Calc`. -/
inductive SyntaxError where
  | missingOperand
  | redundantOperator (tok : String)
  | missingOperator
  | missingRParen
  | missingExpr
  deriving DecidableEq, Repr

/-- The `detail` string of a `SyntaxError`. -/
def SyntaxError.detail : SyntaxError → String
  | .missingOperand => "missing operand"
  | .redundantOperator t => "redudant operator '" ++ t ++ "'"
  | .missingOperator => "missing operator"
  | .missingRParen => "missing ')'"
  | .missingExpr => "missing expr"

/-- One event of a run.  A write to `std::cout`: a value line, or a caret line
(`index` spaces and `^`) followed by an error line.  Or the end of the process
by `std::terminate`, after a `std::length_error` that nothing catches. -/
inductive Output (α : Type) where
  | value (v : α)
  | lexical (index : Nat) (e : LexError)
  | syntactic (index : Nat) (e : SyntaxError)
  | terminate
  deriving DecidableEq, Repr

/-- The lines written for an output event. -/
def Output.lines {α : Type} (A : Arith α) : Output α → List String
  | .value v => [A.fmt v]
  | .lexical i e => [String.mk (List.replicate i ' ') ++ "^", "lexical error: " ++ e.detail]
  | .syntactic i e => [String.mk (List.replicate i ' ') ++ "^", "syntax error: " ++ e.detail]
  | .terminate => []

/-! ## Machine arithmetic and `<cctype>` -/

/-- The value `EOF`. -/
def EOF : Int := -1

/-- A 32 bit `int`, two's complement. -/
def wrapInt (z : Int) : Int := (z + 2147483648) % 4294967296 - 2147483648

/-- A `size_t` after `++`. -/
def sizeInc (n : Nat) : Nat := (n + 1) % 18446744073709551616

/-- A `size_t` after `--`. -/
def sizeDec (n : Nat) : Nat := (n + 18446744073709551615) % 18446744073709551616

/-- The value `size_t(-1)`. -/
def sizeMax : Nat := 18446744073709551615

/-- The value `max_size()` of a `std::string`, `2^62 - 1` in libstdc++ on a 64 bit
target: `std::string(n, ' ')` throws `std::length_error` when `n` is larger. -/
def stringMax : Nat := 4611686018427387903

/-- The function `isdigit`. -/
def isdigit (ch : Int) : Bool := decide (48 ≤ ch) && decide (ch ≤ 57)

/-- The function `isspace` in the C locale: space, `\t`, `\n`, `\v`, `\f`, `\r`,
and none of the negative values of a `char`. -/
def isspace (ch : Int) : Bool := ch == 32 || (decide (9 ≤ ch) && decide (ch ≤ 13))

/-! ## Lexer -/

/-- The state of a `Lexer`, with the stream `is` and `std::cout`. -/
structure Lexer (α : Type) where
  /-- The unread characters of `is`. -/
  input : List Char
  /-- The state of `is`: `false` once a `get()` has met the end of the input. -/
  good : Bool
  ch : Int
  index : Nat
  token : Token α
  /-- Everything written to `std::cout` so far, oldest first. -/
  cout : List (Output α)
  /-- Whether the last call of `get_token` was left by a `std::length_error`:
  then it did not return, and no statement behind the call is executed. -/
  raised : Bool
  deriving DecidableEq

variable {α : Type}

/-- The value that `ch = is.get()` stores for a byte of the stream: `char` is
signed, so the bytes 128 to 255 give -128 to -1. -/
def code (c : Char) : Int := ((c.toNat + 128) % 256 : Nat) - 128

/-- The method `get_char`: `ch = is.get(); ++index;`. -/
def Lexer.get_char (l : Lexer α) : Lexer α :=
  match l.good, l.input with
  | true, c :: rest => { l with input := rest, ch := code c, index := sizeInc l.index }
  | _, _ => { l with good := false, ch := EOF, index := sizeInc l.index }

/-- The loop of `read_int`; every turn reads a character, so `fuel` above the
number of unread characters is never used up. -/
def Lexer.read_int_loop : Nat → Lexer α → Int → Nat → Lexer α × Int × Nat
  | 0, l, val, cnt => (l, val, cnt)
  | fuel + 1, l, val, cnt =>
    if isdigit l.ch then
      Lexer.read_int_loop fuel l.get_char (wrapInt (10 * val + (l.ch - 48)))
        ((cnt + 1) % 4294967296)
    else (l, val, cnt)

/-- The method `read_int(val)`: the new state, the new `val` and the count. -/
def Lexer.read_int (l : Lexer α) (val : Int) : Lexer α × Int × Nat :=
  Lexer.read_int_loop (l.input.length + 1) l val 0

/-- The loop `while (isspace(ch)) get_char();`. -/
def Lexer.skip_space : Nat → Lexer α → Lexer α
  | 0, l => l
  | fuel + 1, l => if isspace l.ch then Lexer.skip_space fuel l.get_char else l

/-- The number branch of `match`, after `read_int(val1)` and the fraction:
the exponent and the value of the literal. -/
def Lexer.match_exponent (A : Arith α) (l : Lexer α) (val1 val2 : Int) (val2_cnt : Nat) :
    Except LexError (Token α) × Lexer α :=
  let value (val3 : Int) : Token α :=
    .num (A.mul (A.add (A.ofInt val1) (A.mul (A.ofInt val2) (A.pow A.tenth val2_cnt)))
      (A.pow (A.ofInt 10) val3))
  if l.ch == 101 || l.ch == 69 then
    let l1 := l.get_char
    let neg := l1.ch == 45
    let l2 := if l1.ch == 43 then l1.get_char else if l1.ch == 45 then l1.get_char else l1
    if !isdigit l2.ch then (.error .missingExponent, l2)
    else
      let r := l2.read_int 0
      (.ok (value (if neg then wrapInt (-r.2.1) else r.2.1)), r.1)
  else (.ok (value 0), l)

/-- The number branch of `match`. -/
def Lexer.match_number (A : Arith α) (l : Lexer α) : Except LexError (Token α) × Lexer α :=
  let r1 := l.read_int 0
  if r1.1.ch == 46 then
    let l1 := r1.1.get_char
    if !isdigit l1.ch then (.error .missingDecimal, l1)
    else
      let r2 := l1.read_int 0
      Lexer.match_exponent A r2.1 r1.2.1 r2.2.1 (if r2.2.1 == 0 then 0 else r2.2.2)
  else Lexer.match_exponent A r1.1 r1.2.1 0 0

/-- The method `match`: the token or the `LexError` thrown, and the state left. -/
def Lexer.match_ (A : Arith α) (l : Lexer α) : Except LexError (Token α) × Lexer α :=
  if l.ch == 10 then (.ok (.tok .END), { l with ch := 32 })
  else
    let l := Lexer.skip_space (l.input.length + 1) l
    if isdigit l.ch || l.ch == 46 then Lexer.match_number A l
    else if l.ch == 43 then (.ok (.tok .ADD), l.get_char)
    else if l.ch == 45 then (.ok (.tok .SUB), l.get_char)
    else if l.ch == 42 then (.ok (.tok .MUL), l.get_char)
    else if l.ch == 47 then (.ok (.tok .DIV), l.get_char)
    else if l.ch == 40 then (.ok (.tok .LPAREN), l.get_char)
    else if l.ch == 41 then (.ok (.tok .RPAREN), l.get_char)
    else if l.ch == EOF || l.ch == 0 then (.ok (.tok .END), l)
    else (.error (.invalidToken l.ch), l)

/-- The loop of `abort`: `while (ch != '\n' && ch != EOF) ch = is.get();`. -/
def Lexer.abort_loop : Nat → Lexer α → Lexer α
  | 0, l => l
  | fuel + 1, l =>
    if l.ch != 10 && l.ch != EOF then
      match l.good, l.input with
      | true, c :: rest => Lexer.abort_loop fuel { l with input := rest, ch := code c }
      | _, _ => Lexer.abort_loop fuel { l with good := false, ch := EOF }
    else l

/-- The method `abort(goback)`; the token it returns is the field `token`. -/
def Lexer.abort (l : Lexer α) (goback : Bool) : Lexer α :=
  let l1 := Lexer.abort_loop (l.input.length + 1) l
  { l1 with token := .tok .END, index := if goback then sizeDec l1.index else l1.index }

/-- The method `get_token`; the token it returns is the field `token`.  In the
handler of a `LexError` the caret line is `std::string(index, ' ')`, which
throws `std::length_error` when `index` is above `stringMax`: then nothing is
written and no token is set.  The flag `raised` tells whether the call was left
in this way or returned. -/
def Lexer.get_token (A : Arith α) (l : Lexer α) : Lexer α :=
  if l.good then
    match l.match_ A with
    | (.ok t, l1) => { l1 with token := t, raised := false }
    | (.error e, l1) =>
      if stringMax < l1.index then { l1 with raised := true }
      else
        Lexer.abort { l1 with cout := l1.cout ++ [.lexical l1.index e], raised := false } false
  else { l with token := .tok .END, raised := false }

/-- The constructor `Lexer(is)`: `ch(is.get()), index(), token(NULL)`.  The
token is a placeholder until the first `get_token`. -/
def Lexer.init (input : List Char) : Lexer α :=
  match input with
  | [] =>
    { input := [], good := false, ch := EOF, index := 0, token := .tok .END, cout := [],
      raised := false }
  | c :: rest =>
    { input := rest, good := true, ch := code c, index := 0, token := .tok .END, cout := [],
      raised := false }

/-! ## Calc -/

/-- The state of a `Calc`: the lexer (with the current token) and the stack
`nums`, top first. -/
structure Calc (α : Type) where
  lexer : Lexer α
  nums : List α
  deriving DecidableEq

/-- How a method of `Calc` ends: it returns `b`, it throws a `SyntaxError`, it
calls `top()` or `pop()` on an empty stack, or a `std::length_error` passes
through it. -/
inductive Res (α β : Type) where
  | ok (b : β) (c : Calc α)
  | throw (e : SyntaxError) (c : Calc α)
  | undefined
  | raise (c : Calc α)
  deriving DecidableEq

/-- The type of the current token, `token->type`. -/
def Calc.type (c : Calc α) : TokenType := c.lexer.token.type

/-- The statement `token = lexer.get_token();`. -/
def Calc.next (A : Arith α) (c : Calc α) : Calc α := { c with lexer := c.lexer.get_token A }

/-- The statement `token = lexer.abort();`. -/
def Calc.abort (c : Calc α) : Calc α := { c with lexer := c.lexer.abort true }

mutual

/-- The method `match_expr`. -/
def Calc.match_expr (A : Arith α) : Nat → Calc α → Option (Res α Unit)
  | 0, _ => none
  | n + 1, c =>
    match Calc.match_firstitem A n c with
    | some (.ok _ c1) => Calc.match_exprtail A n c1
    | r => r

/-- The method `match_exprtail`; a turn of its `while` loop is a recursive call. -/
def Calc.match_exprtail (A : Arith α) : Nat → Calc α → Option (Res α Unit)
  | 0, _ => none
  | n + 1, c =>
    if c.type = .ADD ∨ c.type = .SUB then
      let op := c.type
      let c1 := c.next A
      if c1.lexer.raised then some (.raise c1)
      else if c1.type = .END then some (.throw .missingOperand c1)
      else
        match Calc.match_item A n c1 with
        | none => none
        | some .undefined => some .undefined
        | some (.raise c2) => some (.raise c2)
        | some (.throw e c2) => some (.throw e c2)
        | some (.ok false c2) =>
          some (.throw (.redundantOperator (c2.lexer.token.to_str A)) c2.abort)
        | some (.ok true c2) =>
          match c2.nums with
          | tmp :: top :: rest =>
            Calc.match_exprtail A n
              { c2 with nums := (if op = .ADD then A.add top tmp else A.sub top tmp) :: rest }
          | _ => some .undefined
    else if c.type ≠ .RPAREN ∧ c.type ≠ .END then some (.throw .missingOperator c)
    else some (.ok () c)

/-- The method `match_firstitem`. -/
def Calc.match_firstitem (A : Arith α) : Nat → Calc α → Option (Res α Unit)
  | 0, _ => none
  | n + 1, c =>
    match Calc.match_item A n c with
    | none => none
    | some .undefined => some .undefined
    | some (.raise c1) => some (.raise c1)
    | some (.throw e c1) => some (.throw e c1)
    | some (.ok true c1) => some (.ok () c1)
    | some (.ok false c1) =>
      if c1.type = .ADD ∨ c1.type = .SUB then
        some (.ok () { c1 with nums := A.ofInt 0 :: c1.nums })
      else if c1.type = .END then some (.ok () c1)
      else some (.throw .missingExpr c1.abort)

/-- The method `match_item`. -/
def Calc.match_item (A : Arith α) : Nat → Calc α → Option (Res α Bool)
  | 0, _ => none
  | n + 1, c =>
    match Calc.match_factor A n c with
    | some (.ok true c1) =>
      match Calc.match_itemtail A n c1 with
      | none => none
      | some .undefined => some .undefined
      | some (.raise c2) => some (.raise c2)
      | some (.throw e c2) => some (.throw e c2)
      | some (.ok _ c2) => some (.ok true c2)
    | r => r

/-- The method `match_itemtail`; a turn of its `while` loop is a recursive call. -/
def Calc.match_itemtail (A : Arith α) : Nat → Calc α → Option (Res α Unit)
  | 0, _ => none
  | n + 1, c =>
    if c.type = .MUL ∨ c.type = .DIV then
      let op := c.type
      let c1 := c.next A
      if c1.lexer.raised then some (.raise c1)
      else if c1.type = .END then some (.throw .missingOperand c1)
      else
        match Calc.match_factor A n c1 with
        | none => none
        | some .undefined => some .undefined
        | some (.raise c2) => some (.raise c2)
        | some (.throw e c2) => some (.throw e c2)
        | some (.ok false c2) =>
          some (.throw (.redundantOperator (c2.lexer.token.to_str A)) c2.abort)
        | some (.ok true c2) =>
          match c2.nums with
          | tmp :: top :: rest =>
            Calc.match_itemtail A n
              { c2 with nums := (if op = .MUL then A.mul top tmp else A.div top tmp) :: rest }
          | _ => some .undefined
    else if c.type ≠ .ADD ∧ c.type ≠ .SUB ∧ c.type ≠ .RPAREN ∧ c.type ≠ .END then
      some (.throw .missingOperator c)
    else some (.ok () c)

/-- The method `match_factor`. -/
def Calc.match_factor (A : Arith α) : Nat → Calc α → Option (Res α Bool)
  | 0, _ => none
  | n + 1, c =>
    if c.type = .LPAREN then
      let c1 := c.next A
      if c1.lexer.raised then some (.raise c1)
      else if c1.type = .END then some (.throw .missingRParen c1)
      else
        match Calc.match_expr A n c1 with
        | none => none
        | some .undefined => some .undefined
        | some (.raise c2) => some (.raise c2)
        | some (.throw e c2) => some (.throw e c2)
        | some (.ok _ c2) =>
          if c2.type = .END then some (.throw .missingRParen c2)
          else if c2.type = .RPAREN then
            let c3 := c2.next A
            if c3.lexer.raised then some (.raise c3) else some (.ok true c3)
          else
            let c3 := c2.next A
            if c3.lexer.raised then some (.raise c3) else some (.throw .missingRParen c3)
    else if c.type = .NUM then
      let c1 := Calc.next A { c with nums := c.lexer.token.val A :: c.nums }
      if c1.lexer.raised then some (.raise c1) else some (.ok true c1)
    else some (.ok false c)

end

/-- The constructor `Calc(is)`: `lexer(is), token(lexer.get_token())`. -/
def Calc.init (A : Arith α) (input : List Char) : Calc α :=
  { lexer := (Lexer.init input).get_token A, nums := [] }

/-- The statement `std::cout << ... << std::endl;` for one output event. -/
def Calc.print (c : Calc α) (o : Output α) : Calc α :=
  { c with lexer := { c.lexer with cout := c.lexer.cout ++ [o] } }

/-- The statement `lexer.index = -1;`. -/
def Calc.reset_index (c : Calc α) : Calc α :=
  { c with lexer := { c.lexer with index := sizeMax } }

/-- The method `eval`.  It catches every `SyntaxError`, so the result is `ok`,
`undefined` or `raise`.  The caret line of its handler is
`std::string(lexer.index, ' ')`, which throws `std::length_error` when the
index is above `stringMax`; then nothing is written and the index is not
reset. -/
def Calc.eval (A : Arith α) (fuel : Nat) (c : Calc α) : Option (Res α Unit) :=
  let c0 : Calc α := { c with nums := [] }
  if c0.type = .END ∧ (c0.next A).lexer.raised = true then some (.raise (c0.next A))
  else
    let c1 := if c0.type = .END then c0.next A else c0
    match Calc.match_expr A fuel c1 with
    | none => none
    | some .undefined => some .undefined
    | some (.raise c2) => some (.raise c2)
    | some (.ok _ c2) =>
      match c2.nums with
      | [] => some (.ok () c2.reset_index)
      | top :: _ => some (.ok () (c2.print (.value top)).reset_index)
    | some (.throw e c2) =>
      if stringMax < c2.lexer.index then some (.raise c2)
      else some (.ok () (c2.print (.syntactic c2.lexer.index e)).reset_index)

/-- The method `run`: `while (lexer.is) eval();`. -/
def Calc.run (A : Arith α) : Nat → Calc α → Option (Res α Unit)
  | 0, _ => none
  | n + 1, c =>
    if c.lexer.good then
      match Calc.eval A n c with
      | some (.ok _ c1) => Calc.run A n c1
      | r => r
    else some (.ok () c)

/-- The events of the program on the input `text`, when `fuel` is enough: what
it writes and, when a `std::length_error` leaves `run` or the constructor of
`Calc`, the end by `std::terminate`. -/
def output (A : Arith α) (fuel : Nat) (text : String) : Option (List (Output α)) :=
  if (Calc.init A text.toList).lexer.raised then
    some ((Calc.init A text.toList).lexer.cout ++ [.terminate])
  else
    match Calc.run A fuel (Calc.init A text.toList) with
    | some (.ok _ c) => some c.lexer.cout
    | some (.raise c) => some (c.lexer.cout ++ [.terminate])
    | _ => none

/-! ## Token streams and results -/

/-- The method `f` returns `r` from the state `c`, given enough fuel. -/
def Returns {β : Type} (f : Nat → Calc α → Option (Res α β)) (c : Calc α) (r : Res α β) :
    Prop :=
  ∃ n, f n c = some r

/-- The result of `match_item` when `match_factor` returned `true` and
`match_itemtail` ended as `r`. -/
def Res.asTrue : Res α Unit → Res α Bool
  | .ok _ c => .ok true c
  | .throw e c => .throw e c
  | .undefined => .undefined
  | .raise c => .raise c

/-- The lexer state after `k` calls of `get_token`. -/
def Lexer.skip (A : Arith α) (k : Nat) (l : Lexer α) : Lexer α := (Lexer.get_token A)^[k] l

/-- The current token and the tokens that the next calls of `get_token` return
are `ts`, in this order; each of these calls returns, none is left by a
`std::length_error`. -/
def Lexer.reads (A : Arith α) : Lexer α → List (Token α) → Prop
  | _, [] => True
  | l, t :: ts => (l.token = t ∧ l.raised = false) ∧ Lexer.reads A (l.get_token A) ts

/-- Whether a lexer reads a given token list can be computed. -/
def Lexer.decReads [DecidableEq α] (A : Arith α) :
    (l : Lexer α) → (ts : List (Token α)) → Decidable (Lexer.reads A l ts)
  | _, [] => isTrue trivial
  | l, t :: ts =>
    match decEq l.token t, decEq l.raised false, Lexer.decReads A (l.get_token A) ts with
    | isTrue h1, isTrue h2, isTrue h3 => isTrue ⟨⟨h1, h2⟩, h3⟩
    | isFalse h1, _, _ => isFalse (fun h => h1 h.1.1)
    | _, isFalse h2, _ => isFalse (fun h => h2 h.1.2)
    | _, _, isFalse h3 => isFalse (fun h => h3 h.2)

instance [DecidableEq α] (A : Arith α) (l : Lexer α) (ts : List (Token α)) :
    Decidable (Lexer.reads A l ts) :=
  Lexer.decReads A l ts

/-! ## The reference evaluator

A tree over numbers, the four operators and parentheses, its value, and the
token sequence it is written as.  `Expr.wf` says that the tree is the one the
rules of precedence give to its tokens. -/

/-- The four binary operators. -/
inductive BinOp where
  | add | sub | mul | div
  deriving DecidableEq, Repr

/-- The token type of an operator. -/
def BinOp.type : BinOp → TokenType
  | .add => .ADD
  | .sub => .SUB
  | .mul => .MUL
  | .div => .DIV

/-- Whether the operator is `*` or `/`. -/
def BinOp.multiplicative : BinOp → Bool
  | .mul => true
  | .div => true
  | _ => false

/-- The arithmetic of an operator. -/
def BinOp.apply (A : Arith α) : BinOp → α → α → α
  | .add => A.add
  | .sub => A.sub
  | .mul => A.mul
  | .div => A.div

/-- An expression tree.  `zero` is the `0` that is understood in front of a
leading sign; it has no token. -/
inductive Expr (α : Type) where
  | zero
  | num (v : α)
  | paren (e : Expr α)
  | bin (op : BinOp) (l r : Expr α)

/-- The reference evaluator: the value of a tree, by recursion on the tree. -/
def Expr.value (A : Arith α) : Expr α → α
  | .zero => A.ofInt 0
  | .num v => v
  | .paren e => e.value A
  | .bin op l r => op.apply A (l.value A) (r.value A)

/-- The tokens of a tree, left to right. -/
def Expr.tokens : Expr α → List (Token α)
  | .zero => []
  | .num v => [.num v]
  | .paren e => [.tok .LPAREN] ++ e.tokens ++ [.tok .RPAREN]
  | .bin op l r => l.tokens ++ [.tok op.type] ++ r.tokens

/-- The rank of a tree: 0 for a number or a parenthesis, 1 for a product or
quotient, 2 for a sum or difference, 3 for the implicit zero. -/
def Expr.rank : Expr α → Nat
  | .zero => 3
  | .num _ => 0
  | .paren _ => 0
  | .bin op _ _ => if op.multiplicative then 1 else 2

/-- The tree is the reading of its tokens in which `*` and `/` bind tighter
than `+` and `-`, operators of the same precedence associate to the left, and
parentheses override both: an operand of `*` or `/` is never a bare sum, the
right operand of `*` or `/` is a number or a parenthesis, the right operand of
`+` or `-` is never a bare sum, and the implicit zero stands only to the left
of a leading sign. -/
def Expr.wf : Expr α → Bool
  | .zero => false
  | .num _ => true
  | .paren e => e.wf
  | .bin op l r =>
    if op.multiplicative then l.wf && decide (l.rank ≤ 1) && (r.wf && decide (r.rank = 0))
    else
      (match l with
        | .zero => true
        | _ => l.wf) && (r.wf && decide (r.rank ≤ 1))

/-- What `match_factor` does on the tokens of `e`, when the call of `get_token`
behind `e` returns. -/
def FactorSpec (A : Arith α) (e : Expr α) : Prop :=
  ∀ (l : Lexer α) (ns : List α), l.reads A e.tokens →
    (l.skip A e.tokens.length).raised = false →
    Returns (Calc.match_factor A) ⟨l, ns⟩
      (.ok true ⟨l.skip A e.tokens.length, e.value A :: ns⟩)

/-- What `match_item` does on the tokens of `e`: it leaves the value of `e` on
the stack and goes on as `match_itemtail` does behind `e`. -/
def ItemSpec (A : Arith α) (e : Expr α) : Prop :=
  ∀ (l : Lexer α) (ns : List α) (R : Res α Unit), l.reads A e.tokens →
    (l.skip A e.tokens.length).raised = false →
    Returns (Calc.match_itemtail A) ⟨l.skip A e.tokens.length, e.value A :: ns⟩ R →
    Returns (Calc.match_item A) ⟨l, ns⟩ R.asTrue

/-- What `match_expr` does on the tokens of `e`, when the token behind `e` ends
a product: it leaves the value of `e` on the stack and goes on as
`match_exprtail` does behind `e`. -/
def ExprSpec (A : Arith α) (e : Expr α) : Prop :=
  ∀ (l : Lexer α) (ns : List α) (R : Res α Unit), l.reads A e.tokens →
    (l.skip A e.tokens.length).raised = false →
    ((l.skip A e.tokens.length).token.type = .ADD ∨
      (l.skip A e.tokens.length).token.type = .SUB ∨
      (l.skip A e.tokens.length).token.type = .RPAREN ∨
      (l.skip A e.tokens.length).token.type = .END) →
    Returns (Calc.match_exprtail A) ⟨l.skip A e.tokens.length, e.value A :: ns⟩ R →
    Returns (Calc.match_expr A) ⟨l, ns⟩ R

/-- The tokens of a chain `n0 op1 n1 ... opk nk` of numbers. -/
def chainTokens (n0 : α) (ops : List (BinOp × α)) : List (Token α) :=
  .num n0 :: ops.flatMap (fun p => [.tok p.1.type, .num p.2])

/-- The left-to-right fold `((n0 op1 n1) op2 n2) ... opk nk` of a chain. -/
def chainFold (A : Arith α) (n0 : α) (ops : List (BinOp × α)) : α :=
  ops.foldl (fun acc p => p.1.apply A acc p.2) n0

/-- The tree of a chain, nested to the left. -/
def chainTree (t : Expr α) (ops : List (BinOp × α)) : Expr α :=
  ops.foldl (fun acc p => .bin p.1 acc (.num p.2)) t

/-! ## Numeric literals -/

/-- The lexer state after `k` calls of `get_char`. -/
def Lexer.adv (k : Nat) (l : Lexer α) : Lexer α := Lexer.get_char^[k] l

/-- The current character and the characters that the next calls of `get_char`
read are `cs`, in this order. -/
def Lexer.sees : Lexer α → List Char → Prop
  | _, [] => True
  | l, c :: cs => l.ch = code c ∧ Lexer.sees l.get_char cs

/-- Whether a lexer sees a given text can be computed. -/
def Lexer.decSees : (l : Lexer α) → (cs : List Char) → Decidable (Lexer.sees l cs)
  | _, [] => isTrue trivial
  | l, c :: cs =>
    match Int.decEq l.ch (code c), Lexer.decSees l.get_char cs with
    | isTrue h1, isTrue h2 => isTrue ⟨h1, h2⟩
    | isFalse h1, _ => isFalse (fun h => h1 h.1)
    | _, isFalse h2 => isFalse (fun h => h2 h.2)

instance (l : Lexer α) (cs : List Char) : Decidable (Lexer.sees l cs) := Lexer.decSees l cs

/-- The decimal value of a run of digits. -/
def decimal (ds : List Char) : Int := ds.foldl (fun v c => 10 * v + (code c - 48)) 0

/-- A numeric literal `[digits]['.' digits][('e'|'E') ['+'|'-'] digits]`: the
integer digits, the fractional digits when there is a dot, and the marker, the
sign characters and the digits of the exponent when there is one. -/
structure Literal where
  intPart : List Char
  fracPart : Option (List Char)
  expPart : Option (Char × List Char × List Char)

/-- The characters of the exponent part. -/
def Literal.expText : Option (Char × List Char × List Char) → List Char
  | none => []
  | some (m, s, d) => m :: (s ++ d)

/-- The characters of the fractional part. -/
def Literal.fracText : Option (List Char) → List Char
  | none => []
  | some f => '.' :: f

/-- The characters of the literal. -/
def Literal.text (t : Literal) : List Char :=
  t.intPart ++ (Literal.fracText t.fracPart ++ Literal.expText t.expPart)

/-- The exponent part has the form `('e'|'E') ['+'|'-'] digits`, with at least
one digit. -/
def Literal.expOK : Option (Char × List Char × List Char) → Bool
  | none => true
  | some (m, s, d) =>
    (m == 'e' || m == 'E') && (s == [] || s == ['+'] || s == ['-']) &&
      (!d.isEmpty && d.all (fun c => isdigit (code c)))

/-- The fractional part has the form `'.' digits`, with at least one digit. -/
def Literal.fracOK : Option (List Char) → Bool
  | none => true
  | some f => !f.isEmpty && f.all (fun c => isdigit (code c))

/-- The literal has the form above: every run is made of digits, the runs behind
a dot and behind an exponent marker are not empty, the marker is `e` or `E`, the
sign is absent, `+` or `-`, and the literal starts with a digit or a dot. -/
def Literal.wellFormed (t : Literal) : Bool :=
  t.intPart.all (fun c => isdigit (code c)) && Literal.fracOK t.fracPart &&
    Literal.expOK t.expPart && (!t.intPart.isEmpty || t.fracPart.isSome)

/-- The decimal value of the fractional digits. -/
def Literal.fracValue (t : Literal) : Int :=
  match t.fracPart with
  | none => 0
  | some f => decimal f

/-- The number of fractional digits. -/
def Literal.fracDigits (t : Literal) : Nat :=
  match t.fracPart with
  | none => 0
  | some f => f.length

/-- The digits of the exponent. -/
def Literal.expDigits : Option (Char × List Char × List Char) → List Char
  | none => []
  | some (_, _, d) => d

/-- The signed exponent of an exponent part. -/
def Literal.exponentOf : Option (Char × List Char × List Char) → Int
  | none => 0
  | some (_, s, d) => if s = ['-'] then -decimal d else decimal d

/-- The signed exponent. -/
def Literal.exponent (t : Literal) : Int := Literal.exponentOf t.expPart

/-- The value `(intPart + fracPart * 10^-fracDigits) * 10^exponent` of a
literal, with the power `10^-fracDigits` taken as `pow(0.1, fracDigits)`. -/
def Literal.value (A : Arith α) (t : Literal) : α :=
  A.mul (A.add (A.ofInt (decimal t.intPart))
      (A.mul (A.ofInt t.fracValue) (A.pow A.tenth t.fracDigits)))
    (A.pow (A.ofInt 10) t.exponent)

/-- The carrier `ℚ`: exact arithmetic, used for the examples. -/
def ratArith : Arith ℚ where
  ofInt := fun z => (z : ℚ)
  tenth := 1 / 10
  add := fun a b => a + b
  sub := fun a b => a - b
  mul := fun a b => a * b
  div := fun a b => a / b
  pow := fun a z => a ^ z
  fmt := fun _ => ""


/-- The tree of `2 + 3 * 4`. -/
def treeSumProduct : Expr ℚ := .bin .add (.num 2) (.bin .mul (.num 3) (.num 4))

/-- The tree of `(2 + 3) * 4`. -/
def treeParenProduct : Expr ℚ := .bin .mul (.paren (.bin .add (.num 2) (.num 3))) (.num 4)

/-- From `c` to `c2` at most one lexical diagnostic was written, after which
the current token is `End`; and nothing was written if the token of `c` is
`End`. -/
def Quiet (c c2 : Calc α) : Prop :=
  (c.type = .END → c2.lexer.cout = c.lexer.cout ∧ c2.type = .END) ∧
    (c2.lexer.cout = c.lexer.cout ∨
      ∃ i e, c2.lexer.cout = c.lexer.cout ++ [.lexical i e] ∧ c2.type = .END)

/-- The state in which a method of `Calc` returned or threw. -/
def Res.state {β : Type} : Res α β → Option (Calc α)
  | .ok _ c => some c
  | .throw _ c => some c
  | .undefined => none
  | .raise _ => none

/-- The state in which a method ended is `Quiet` with respect to `c`. -/
def ResQuiet {β : Type} (c : Calc α) (r : Res α β) : Prop :=
  ∀ c2, r.state = some c2 → Quiet c c2

/-- The state in which `eval` returns, or `c` when it does not. -/
def evalState (A : Arith α) (n : Nat) (c : Calc α) : Calc α :=
  match Calc.eval A n c with
  | some (.ok _ c2) => c2
  | _ => c

/-- The calculator on an input that is one NUL character, after one `eval`. -/
def nulState : Calc ℚ := (Calc.init ratArith [Char.ofNat 0]).reset_index

/-- The literal `4294967296`. -/
def literalTwoPow32 : Literal := ⟨"4294967296".toList, none, none⟩

/-- The literal `3.14159265358979`. -/
def literalPi : Literal := ⟨"3".toList, some "14159265358979".toList, none⟩

/-- The literal `1.5e2`. -/
def literalExample : Literal := ⟨"1".toList, some "5".toList, some ('e', [], "2".toList)⟩

/-! ## The stack and the token at the end of a method -/

/-- A `missing ')'` is thrown only when the current token is `End`. -/
def Res.rparenAtEnd {β : Type} (r : Res α β) : Prop :=
  ∀ c2, r = .throw .missingRParen c2 → c2.type = .END

/-- What `match_factor` and `match_item` do to the stack: they do not touch an
empty stack; when they return `true` the token they started at is no `End` and
one value is pushed; when they return `false` nothing has changed. -/
def Res.pushes (c : Calc α) (r : Res α Bool) : Prop :=
  r ≠ .undefined ∧ r.rparenAtEnd ∧
    (∀ c2, r = .ok true c2 → c.type ≠ .END ∧ ∃ v, c2.nums = v :: c.nums) ∧
    (∀ c2, r = .ok false c2 → c2 = c)

/-- What the loops of `match_itemtail` and `match_exprtail` do to the stack:
they do not touch an empty stack, and when they return the stack has the depth
it had, with the same values below its top. -/
def Res.folds (c : Calc α) (r : Res α Unit) : Prop :=
  r ≠ .undefined ∧ r.rparenAtEnd ∧
    ∀ c2, r = .ok () c2 → c2.nums.length = c.nums.length ∧ c2.nums.tail = c.nums.tail

/-- What `match_firstitem` does to the stack: at `End` nothing, otherwise one
value is pushed. -/
def Res.first (c : Calc α) (r : Res α Unit) : Prop :=
  r ≠ .undefined ∧ r.rparenAtEnd ∧
    ∀ c2, r = .ok () c2 →
      (c.type = .END ∧ c2 = c) ∨ (c.type ≠ .END ∧ ∃ v, c2.nums = v :: c.nums)

/-- What `match_expr` does: it returns only at `)` or `End`, with nothing
pushed when it started at `End` and one value pushed otherwise. -/
def Res.whole (c : Calc α) (r : Res α Unit) : Prop :=
  r ≠ .undefined ∧ r.rparenAtEnd ∧
    ∀ c2, r = .ok () c2 →
      (c2.type = .RPAREN ∨ c2.type = .END) ∧
        ((c.type = .END ∧ c2.nums = c.nums) ∨ (c.type ≠ .END ∧ ∃ v, c2.nums = v :: c.nums))

/-- The state in which `eval` calls `match_expr`: the stack is empty, and a
stale `End` has been replaced by the next token. -/
def Calc.start (A : Arith α) (c : Calc α) : Calc α :=
  if (Calc.mk c.lexer ([] : List α)).type = .END then Calc.next A ⟨c.lexer, []⟩
  else ⟨c.lexer, []⟩

/-- The state in which `match_expr` returns, or `c` when it does not. -/
def exprState (A : Arith α) (n : Nat) (c : Calc α) : Calc α :=
  match Calc.match_expr A n c with
  | some (.ok _ c2) => c2
  | _ => c

/-! ## The form of a numeric literal -/

/-- The codes of the unread characters. -/
def Lexer.ahead (l : Lexer α) : List Int := if l.good then l.input.map code else []

/-- The characters in front of the lexer are `cs`: the current character and
the unread ones, or none at all when the lexer stands at `EOF`. -/
def Lexer.views (l : Lexer α) (cs : List Int) : Prop :=
  cs = l.ch :: l.ahead ∨ (cs = [] ∧ l.ch = EOF ∧ l.ahead = [])

/-- The text behind an optional sign `+` or `-`. -/
def stripSign : List Int → List Int
  | [] => []
  | s :: t => if s = 43 ∨ s = 45 then t else s :: t

/-- The error of an exponent part in a text `r` that follows the digits of a
literal: an exponent marker `e` or `E`, after its optional sign `+` or `-`, is
not followed by a digit. -/
def exponentError : List Int → Option LexError
  | [] => none
  | m :: r1 =>
    if m = 101 ∨ m = 69 then
      if isdigit ((stripSign r1).headD EOF) then none else some .missingExponent
    else none

/-- The error of a numeric literal at the start of the text `cs`, if it has
one: behind the integer digits a `.` is not followed by a digit, or behind the
integer and fractional digits the exponent part is in error. -/
def literalError (cs : List Int) : Option LexError :=
  match cs.dropWhile isdigit with
  | [] => none
  | c :: r2 =>
    if c = 46 then
      if isdigit (r2.headD EOF) then exponentError (r2.dropWhile isdigit)
      else some .missingDecimal
    else exponentError (c :: r2)

/-! ## Juxtaposed factors -/

/-- The text in front of a juxtaposed token: a complete expression, inside any
number of parentheses that are still open.  Before each open parenthesis
stands nothing (`paren`), or an expression and an operator (`operand`; the
expression is `zero` for a leading sign). -/
inductive Nest (α : Type) where
  | expr (e : Expr α)
  | paren (p : Nest α)
  | operand (a : Expr α) (op : BinOp) (p : Nest α)

/-- The tokens of a nest, left to right. -/
def Nest.tokens : Nest α → List (Token α)
  | .expr e => e.tokens
  | .paren p => .tok .LPAREN :: p.tokens
  | .operand a op p => a.tokens ++ (.tok op.type :: .tok .LPAREN :: p.tokens)

/-- Every expression of the nest is well formed; the implicit zero stands only
in front of a sign. -/
def Nest.wf : Nest α → Bool
  | .expr e => e.wf
  | .paren p => p.wf
  | .operand a op p =>
    (match a with
      | .zero => !op.multiplicative
      | _ => a.wf) && p.wf

/-- The nest of `(2 + 3`. -/
def nestOpenSum : Nest ℚ := .paren (.expr (.bin .add (.num 2) (.num 3)))

/-- The nest of `2 * (3`. -/
def nestProduct : Nest ℚ := .operand (.num 2) .mul (.expr (.num 3))

/-! # Theorems -/

/-! ## The loops of the lexer end

Each loop of the lexer reads a character in every turn and stops at `EOF`, so
the fuel given to it, the number of unread characters plus one, is never used
up: more fuel gives the same result. -/

theorem isspace_EOF : isspace EOF = false := by decide

theorem isdigit_EOF : isdigit EOF = false := by decide

/-- What `get_char` does to the input: it takes a character, or meets `EOF`. -/
theorem Lexer.get_char_cases (l : Lexer α) :
    (l.get_char.input.length + 1 = l.input.length) ∨ (l.get_char.ch = EOF) := by
  unfold Lexer.get_char
  cases hg : l.good <;> cases hi : l.input <;> simp

theorem Lexer.skip_space_succ (n : Nat) (l : Lexer α) :
    Lexer.skip_space (n + 1) l = if isspace l.ch then Lexer.skip_space n l.get_char else l := rfl

theorem Lexer.skip_space_stop (n : Nat) (l : Lexer α) (h : isspace l.ch = false) :
    Lexer.skip_space n l = l := by
  cases n with
  | zero => rfl
  | succ k => rw [Lexer.skip_space_succ, h]; rfl

theorem Lexer.skip_space_fuel (n : Nat) : ∀ l : Lexer α, l.input.length + 1 ≤ n →
    Lexer.skip_space (n + 1) l = Lexer.skip_space n l := by
  induction n with
  | zero => intro l h; omega
  | succ m ih =>
    intro l h
    rw [Lexer.skip_space_succ (m + 1) l, Lexer.skip_space_succ m l]
    split
    · rcases Lexer.get_char_cases l with h1 | h1
      · exact ih l.get_char (by omega)
      · have hs : isspace l.get_char.ch = false := by rw [h1]; exact isspace_EOF
        rw [Lexer.skip_space_stop _ _ hs, Lexer.skip_space_stop _ _ hs]
    · rfl

theorem Lexer.read_int_loop_succ (n : Nat) (l : Lexer α) (val : Int) (cnt : Nat) :
    Lexer.read_int_loop (n + 1) l val cnt =
      if isdigit l.ch then
        Lexer.read_int_loop n l.get_char (wrapInt (10 * val + (l.ch - 48)))
          ((cnt + 1) % 4294967296)
      else (l, val, cnt) := rfl

theorem Lexer.read_int_loop_stop (n : Nat) (l : Lexer α) (val : Int) (cnt : Nat)
    (h : isdigit l.ch = false) : Lexer.read_int_loop n l val cnt = (l, val, cnt) := by
  cases n with
  | zero => rfl
  | succ k => rw [Lexer.read_int_loop_succ, h]; rfl

theorem Lexer.read_int_loop_fuel (n : Nat) : ∀ (l : Lexer α) (val : Int) (cnt : Nat),
    l.input.length + 1 ≤ n →
    Lexer.read_int_loop (n + 1) l val cnt = Lexer.read_int_loop n l val cnt := by
  induction n with
  | zero => intro l _ _ h; omega
  | succ m ih =>
    intro l val cnt h
    rw [Lexer.read_int_loop_succ (m + 1) l, Lexer.read_int_loop_succ m l]
    split
    · rcases Lexer.get_char_cases l with h1 | h1
      · exact ih l.get_char _ _ (by omega)
      · have hs : isdigit l.get_char.ch = false := by rw [h1]; exact isdigit_EOF
        rw [Lexer.read_int_loop_stop _ _ _ _ hs, Lexer.read_int_loop_stop _ _ _ _ hs]
    · rfl

theorem Lexer.abort_loop_stop (n : Nat) (l : Lexer α) (h : (l.ch != 10 && l.ch != EOF) = false) :
    Lexer.abort_loop n l = l := by
  cases n with
  | zero => rfl
  | succ k => rw [Lexer.abort_loop, h]; rfl

theorem Lexer.abort_loop_fuel (n : Nat) : ∀ l : Lexer α, l.input.length + 1 ≤ n →
    Lexer.abort_loop (n + 1) l = Lexer.abort_loop n l := by
  induction n with
  | zero => intro l h; omega
  | succ m ih =>
    intro l h
    have hL : Lexer.abort_loop (m + 1 + 1) l =
        if l.ch != 10 && l.ch != EOF then
          match l.good, l.input with
          | true, c :: rest => Lexer.abort_loop (m + 1) { l with input := rest, ch := code c }
          | _, _ => Lexer.abort_loop (m + 1) { l with good := false, ch := EOF }
        else l := rfl
    have hR : Lexer.abort_loop (m + 1) l =
        if l.ch != 10 && l.ch != EOF then
          match l.good, l.input with
          | true, c :: rest => Lexer.abort_loop m { l with input := rest, ch := code c }
          | _, _ => Lexer.abort_loop m { l with good := false, ch := EOF }
        else l := rfl
    rw [hL, hR]
    split
    · split
      · rename_i c rest hg hi
        exact ih _ (by simp only [hi, List.length_cons] at h ⊢; omega)
      · rw [Lexer.abort_loop_stop _ _ (by simp), Lexer.abort_loop_stop _ _ (by simp)]
    · rfl

/-- More fuel does not change a result. -/
theorem Calc.fuel_succ (A : Arith α) : ∀ n : Nat,
    (∀ c r, Calc.match_expr A n c = some r → Calc.match_expr A (n + 1) c = some r) ∧
    (∀ c r, Calc.match_exprtail A n c = some r → Calc.match_exprtail A (n + 1) c = some r) ∧
    (∀ c r, Calc.match_firstitem A n c = some r → Calc.match_firstitem A (n + 1) c = some r) ∧
    (∀ c r, Calc.match_item A n c = some r → Calc.match_item A (n + 1) c = some r) ∧
    (∀ c r, Calc.match_itemtail A n c = some r → Calc.match_itemtail A (n + 1) c = some r) ∧
    (∀ c r, Calc.match_factor A n c = some r → Calc.match_factor A (n + 1) c = some r) := by
  intro n
  induction n with
  | zero =>
    refine ⟨?_, ?_, ?_, ?_, ?_, ?_⟩ <;> intro c r h <;> simp [Calc.match_expr, Calc.match_exprtail,
      Calc.match_firstitem, Calc.match_item, Calc.match_itemtail, Calc.match_factor] at h
  | succ n ih =>
    obtain ⟨ihE, ihET, ihFI, ihI, ihIT, ihF⟩ := ih
    refine ⟨?_, ?_, ?_, ?_, ?_, ?_⟩
    · intro c r h
      rw [Calc.match_expr] at h ⊢
      cases hfi : Calc.match_firstitem A n c with
      | none => simp [hfi] at h
      | some x =>
        rw [ihFI c x hfi]
        rw [hfi] at h
        cases x with
        | ok b c1 => exact ihET c1 r h
        | throw e c1 => exact h
        | undefined => exact h
        | raise c1 => exact h
    · intro c r h
      rw [Calc.match_exprtail] at h ⊢
      dsimp only at h ⊢
      by_cases h1 : c.type = .ADD ∨ c.type = .SUB
      · rw [if_pos h1] at h ⊢
        by_cases hq : (c.next A).lexer.raised = true
        · rw [if_pos hq] at h ⊢; exact h
        · rw [if_neg hq] at h ⊢
          by_cases h2 : (c.next A).type = .END
          · rw [if_pos h2] at h ⊢; exact h
          · rw [if_neg h2] at h ⊢
            cases hi : Calc.match_item A n (c.next A) with
            | none => simp [hi] at h
            | some x =>
              rw [ihI _ x hi]
              rw [hi] at h
              cases x with
              | ok b c2 =>
                cases b with
                | false => exact h
                | true =>
                  dsimp only at h ⊢
                  split at h
                  · exact ihET _ r h
                  · exact h
              | throw e c2 => exact h
              | undefined => exact h
              | raise c2 => exact h
      · rw [if_neg h1] at h ⊢; exact h
    · intro c r h
      rw [Calc.match_firstitem] at h ⊢
      cases hi : Calc.match_item A n c with
      | none => simp [hi] at h
      | some x => rw [ihI _ x hi]; rw [hi] at h; exact h
    · intro c r h
      rw [Calc.match_item] at h ⊢
      cases hf : Calc.match_factor A n c with
      | none => simp [hf] at h
      | some x =>
        rw [ihF _ x hf]
        rw [hf] at h
        cases x with
        | ok b c1 =>
          cases b with
          | false => exact h
          | true =>
            dsimp only at h ⊢
            cases hit : Calc.match_itemtail A n c1 with
            | none => simp [hit] at h
            | some y => rw [ihIT _ y hit]; rw [hit] at h; exact h
        | throw e c1 => exact h
        | undefined => exact h
        | raise c1 => exact h
    · intro c r h
      rw [Calc.match_itemtail] at h ⊢
      dsimp only at h ⊢
      by_cases h1 : c.type = .MUL ∨ c.type = .DIV
      · rw [if_pos h1] at h ⊢
        by_cases hq : (c.next A).lexer.raised = true
        · rw [if_pos hq] at h ⊢; exact h
        · rw [if_neg hq] at h ⊢
          by_cases h2 : (c.next A).type = .END
          · rw [if_pos h2] at h ⊢; exact h
          · rw [if_neg h2] at h ⊢
            cases hi : Calc.match_factor A n (c.next A) with
            | none => simp [hi] at h
            | some x =>
              rw [ihF _ x hi]
              rw [hi] at h
              cases x with
              | ok b c2 =>
                cases b with
                | false => exact h
                | true =>
                  dsimp only at h ⊢
                  split at h
                  · exact ihIT _ r h
                  · exact h
              | throw e c2 => exact h
              | undefined => exact h
              | raise c2 => exact h
      · rw [if_neg h1] at h ⊢; exact h
    · intro c r h
      rw [Calc.match_factor] at h ⊢
      dsimp only at h ⊢
      by_cases h1 : c.type = .LPAREN
      · rw [if_pos h1] at h ⊢
        by_cases hq : (c.next A).lexer.raised = true
        · rw [if_pos hq] at h ⊢; exact h
        · rw [if_neg hq] at h ⊢
          by_cases h2 : (c.next A).type = .END
          · rw [if_pos h2] at h ⊢; exact h
          · rw [if_neg h2] at h ⊢
            cases he : Calc.match_expr A n (c.next A) with
            | none => simp [he] at h
            | some x => rw [ihE _ x he]; rw [he] at h; exact h
      · rw [if_neg h1] at h ⊢; exact h

/-- A result is stable under any larger fuel. -/
theorem stable_of_succ {β : Type} (f : Nat → Calc α → Option (Res α β))
    (h : ∀ n c r, f n c = some r → f (n + 1) c = some r) :
    ∀ (m n : Nat) (c : Calc α) (r : Res α β), n ≤ m → f n c = some r → f m c = some r := by
  intro m
  induction m with
  | zero =>
    intro n c r hn hr
    obtain rfl : n = 0 := by omega
    exact hr
  | succ m ih =>
    intro n c r hn hr
    rcases Nat.eq_or_lt_of_le hn with h1 | h1
    · subst h1; exact hr
    · exact h m c r (ih n c r (by omega) hr)

theorem Calc.expr_le (A : Arith α) {n m : Nat} {c : Calc α} {r : Res α Unit} (h : n ≤ m)
    (hr : Calc.match_expr A n c = some r) : Calc.match_expr A m c = some r :=
  stable_of_succ _ (fun k => (Calc.fuel_succ A k).1) m n c r h hr

theorem Calc.exprtail_le (A : Arith α) {n m : Nat} {c : Calc α} {r : Res α Unit} (h : n ≤ m)
    (hr : Calc.match_exprtail A n c = some r) : Calc.match_exprtail A m c = some r :=
  stable_of_succ _ (fun k => (Calc.fuel_succ A k).2.1) m n c r h hr

theorem Calc.firstitem_le (A : Arith α) {n m : Nat} {c : Calc α} {r : Res α Unit} (h : n ≤ m)
    (hr : Calc.match_firstitem A n c = some r) : Calc.match_firstitem A m c = some r :=
  stable_of_succ _ (fun k => (Calc.fuel_succ A k).2.2.1) m n c r h hr

theorem Calc.item_le (A : Arith α) {n m : Nat} {c : Calc α} {r : Res α Bool} (h : n ≤ m)
    (hr : Calc.match_item A n c = some r) : Calc.match_item A m c = some r :=
  stable_of_succ _ (fun k => (Calc.fuel_succ A k).2.2.2.1) m n c r h hr

theorem Calc.itemtail_le (A : Arith α) {n m : Nat} {c : Calc α} {r : Res α Unit} (h : n ≤ m)
    (hr : Calc.match_itemtail A n c = some r) : Calc.match_itemtail A m c = some r :=
  stable_of_succ _ (fun k => (Calc.fuel_succ A k).2.2.2.2.1) m n c r h hr

theorem Calc.factor_le (A : Arith α) {n m : Nat} {c : Calc α} {r : Res α Bool} (h : n ≤ m)
    (hr : Calc.match_factor A n c = some r) : Calc.match_factor A m c = some r :=
  stable_of_succ _ (fun k => (Calc.fuel_succ A k).2.2.2.2.2) m n c r h hr

/-! ## How the methods compose -/

/-- A number is a factor: it is pushed and the next token is fetched. -/
theorem factor_num (A : Arith α) (c : Calc α) (h : c.type = .NUM)
    (hq : (c.lexer.get_token A).raised = false) :
    Returns (Calc.match_factor A) c
      (.ok true (Calc.next A { c with nums := c.lexer.token.val A :: c.nums })) := by
  have hq1 : (Calc.next A { c with nums := c.lexer.token.val A :: c.nums }).lexer.raised =
      false := hq
  refine ⟨1, ?_⟩
  rw [Calc.match_factor]
  simp [h, hq1]

/-- A token that is neither `(` nor a number is no factor. -/
theorem factor_none (A : Arith α) (c : Calc α) (h1 : c.type ≠ .LPAREN) (h2 : c.type ≠ .NUM) :
    Returns (Calc.match_factor A) c (.ok false c) := by
  refine ⟨1, ?_⟩
  rw [Calc.match_factor]
  simp [h1, h2]

/-- A parenthesis is a factor when the expression inside ends at `)`. -/
theorem factor_paren (A : Arith α) (c c2 : Calc α) (h : c.type = .LPAREN)
    (hq : (c.lexer.get_token A).raised = false) (h1 : (c.next A).type ≠ .END)
    (he : Returns (Calc.match_expr A) (c.next A) (.ok () c2)) (h2 : c2.type = .RPAREN)
    (hq2 : (c2.lexer.get_token A).raised = false) :
    Returns (Calc.match_factor A) c (.ok true (c2.next A)) := by
  have hq1 : (c.next A).lexer.raised = false := hq
  have hq3 : (c2.next A).lexer.raised = false := hq2
  obtain ⟨n, hn⟩ := he
  refine ⟨n + 1, ?_⟩
  rw [Calc.match_factor]
  simp [h, hq1, h1, hn, h2, hq3]

/-- The method `match_item` is `match_factor` followed by `match_itemtail`. -/
theorem item_of_factor (A : Arith α) (c c1 : Calc α) (r : Res α Unit)
    (hf : Returns (Calc.match_factor A) c (.ok true c1))
    (ht : Returns (Calc.match_itemtail A) c1 r) :
    Returns (Calc.match_item A) c r.asTrue := by
  obtain ⟨n, hn⟩ := hf
  obtain ⟨m, hm⟩ := ht
  refine ⟨max n m + 1, ?_⟩
  rw [Calc.match_item, Calc.factor_le A (le_max_left n m) hn]
  dsimp only
  rw [Calc.itemtail_le A (le_max_right n m) hm]
  cases r <;> rfl

/-- The method `match_item` returns `false` when `match_factor` does. -/
theorem item_none (A : Arith α) (c : Calc α) (h1 : c.type ≠ .LPAREN) (h2 : c.type ≠ .NUM) :
    Returns (Calc.match_item A) c (.ok false c) := by
  obtain ⟨n, hn⟩ := factor_none A c h1 h2
  refine ⟨n + 1, ?_⟩
  rw [Calc.match_item, hn]

/-- The loop of `match_itemtail` ends at `+`, `-`, `)` and `End`. -/
theorem itemtail_stop (A : Arith α) (c : Calc α)
    (h : c.type = .ADD ∨ c.type = .SUB ∨ c.type = .RPAREN ∨ c.type = .END) :
    Returns (Calc.match_itemtail A) c (.ok () c) := by
  refine ⟨1, ?_⟩
  rw [Calc.match_itemtail]
  rcases h with h | h | h | h <;> simp [h]

/-- One turn of the loop of `match_itemtail`: the operator, a factor, the fold
of the two topmost values, and the rest of the loop. -/
theorem itemtail_step (A : Arith α) (c c2 : Calc α) (tmp top : α) (rest : List α)
    (r : Res α Unit) (h : c.type = .MUL ∨ c.type = .DIV)
    (hq : (c.lexer.get_token A).raised = false) (h1 : (c.next A).type ≠ .END)
    (hf : Returns (Calc.match_factor A) (c.next A) (.ok true c2))
    (hs : c2.nums = tmp :: top :: rest)
    (ht : Returns (Calc.match_itemtail A)
      { c2 with nums := (if c.type = .MUL then A.mul top tmp else A.div top tmp) :: rest } r) :
    Returns (Calc.match_itemtail A) c r := by
  obtain ⟨n, hn⟩ := hf
  obtain ⟨m, hm⟩ := ht
  refine ⟨max n m + 1, ?_⟩
  have hq1 : ¬ (c.next A).lexer.raised = true := by
    rw [show (c.next A).lexer.raised = false from hq]; simp
  rw [Calc.match_itemtail]
  dsimp only
  rw [if_pos h, if_neg hq1, if_neg h1, Calc.factor_le A (le_max_left n m) hn]
  dsimp only
  rw [hs]
  exact Calc.itemtail_le A (le_max_right n m) hm

/-- An operator `*` or `/` followed by `End` has no operand. -/
theorem itemtail_operand (A : Arith α) (c : Calc α) (h : c.type = .MUL ∨ c.type = .DIV)
    (hq : (c.lexer.get_token A).raised = false) (h1 : (c.next A).type = .END) :
    Returns (Calc.match_itemtail A) c (.throw .missingOperand (c.next A)) := by
  have hq1 : ¬ (c.next A).lexer.raised = true := by
    rw [show (c.next A).lexer.raised = false from hq]; simp
  refine ⟨1, ?_⟩
  rw [Calc.match_itemtail]
  dsimp only
  rw [if_pos h, if_neg hq1, if_pos h1]

/-- The loop of `match_exprtail` ends at `)` and `End`. -/
theorem exprtail_stop (A : Arith α) (c : Calc α) (h : c.type = .RPAREN ∨ c.type = .END) :
    Returns (Calc.match_exprtail A) c (.ok () c) := by
  refine ⟨1, ?_⟩
  rw [Calc.match_exprtail]
  rcases h with h | h <;> simp [h]

/-- One turn of the loop of `match_exprtail`. -/
theorem exprtail_step (A : Arith α) (c c2 : Calc α) (tmp top : α) (rest : List α)
    (r : Res α Unit) (h : c.type = .ADD ∨ c.type = .SUB)
    (hq : (c.lexer.get_token A).raised = false) (h1 : (c.next A).type ≠ .END)
    (hf : Returns (Calc.match_item A) (c.next A) (.ok true c2))
    (hs : c2.nums = tmp :: top :: rest)
    (ht : Returns (Calc.match_exprtail A)
      { c2 with nums := (if c.type = .ADD then A.add top tmp else A.sub top tmp) :: rest } r) :
    Returns (Calc.match_exprtail A) c r := by
  obtain ⟨n, hn⟩ := hf
  obtain ⟨m, hm⟩ := ht
  refine ⟨max n m + 1, ?_⟩
  have hq1 : ¬ (c.next A).lexer.raised = true := by
    rw [show (c.next A).lexer.raised = false from hq]; simp
  rw [Calc.match_exprtail]
  dsimp only
  rw [if_pos h, if_neg hq1, if_neg h1, Calc.item_le A (le_max_left n m) hn]
  dsimp only
  rw [hs]
  exact Calc.exprtail_le A (le_max_right n m) hm

/-- A `SyntaxError` thrown by the operand of `+` or `-` leaves `match_exprtail`. -/
theorem exprtail_throw (A : Arith α) (c c2 : Calc α) (e : SyntaxError)
    (h : c.type = .ADD ∨ c.type = .SUB) (hq : (c.lexer.get_token A).raised = false)
    (h1 : (c.next A).type ≠ .END)
    (hf : Returns (Calc.match_item A) (c.next A) (.throw e c2)) :
    Returns (Calc.match_exprtail A) c (.throw e c2) := by
  have hq1 : ¬ (c.next A).lexer.raised = true := by
    rw [show (c.next A).lexer.raised = false from hq]; simp
  obtain ⟨n, hn⟩ := hf
  refine ⟨n + 1, ?_⟩
  rw [Calc.match_exprtail]
  dsimp only
  rw [if_pos h, if_neg hq1, if_neg h1, hn]

/-- An operator `+` or `-` followed by `End` has no operand. -/
theorem exprtail_operand (A : Arith α) (c : Calc α) (h : c.type = .ADD ∨ c.type = .SUB)
    (hq : (c.lexer.get_token A).raised = false) (h1 : (c.next A).type = .END) :
    Returns (Calc.match_exprtail A) c (.throw .missingOperand (c.next A)) := by
  have hq1 : ¬ (c.next A).lexer.raised = true := by
    rw [show (c.next A).lexer.raised = false from hq]; simp
  refine ⟨1, ?_⟩
  rw [Calc.match_exprtail]
  dsimp only
  rw [if_pos h, if_neg hq1, if_pos h1]

/-- The method `match_firstitem` returns when `match_item` returns `true`. -/
theorem firstitem_of_item (A : Arith α) (c c1 : Calc α)
    (h : Returns (Calc.match_item A) c (.ok true c1)) :
    Returns (Calc.match_firstitem A) c (.ok () c1) := by
  obtain ⟨n, hn⟩ := h
  refine ⟨n + 1, ?_⟩
  rw [Calc.match_firstitem, hn]

/-- A `SyntaxError` thrown by `match_item` leaves `match_firstitem`. -/
theorem firstitem_throw (A : Arith α) (c c1 : Calc α) (e : SyntaxError)
    (h : Returns (Calc.match_item A) c (.throw e c1)) :
    Returns (Calc.match_firstitem A) c (.throw e c1) := by
  obtain ⟨n, hn⟩ := h
  refine ⟨n + 1, ?_⟩
  rw [Calc.match_firstitem, hn]

/-- At a leading sign `match_firstitem` pushes `0` and keeps the token. -/
theorem firstitem_sign (A : Arith α) (c : Calc α) (h : c.type = .ADD ∨ c.type = .SUB) :
    Returns (Calc.match_firstitem A) c (.ok () { c with nums := A.ofInt 0 :: c.nums }) := by
  have h1 : c.type ≠ .LPAREN := by rcases h with h | h <;> simp [h]
  have h2 : c.type ≠ .NUM := by rcases h with h | h <;> simp [h]
  obtain ⟨n, hn⟩ := item_none A c h1 h2
  refine ⟨n + 1, ?_⟩
  rw [Calc.match_firstitem, hn]
  simp [h]

/-- The method `match_expr` is `match_firstitem` followed by `match_exprtail`. -/
theorem expr_of_firstitem (A : Arith α) (c c1 : Calc α) (r : Res α Unit)
    (hf : Returns (Calc.match_firstitem A) c (.ok () c1))
    (ht : Returns (Calc.match_exprtail A) c1 r) :
    Returns (Calc.match_expr A) c r := by
  obtain ⟨n, hn⟩ := hf
  obtain ⟨m, hm⟩ := ht
  refine ⟨max n m + 1, ?_⟩
  rw [Calc.match_expr, Calc.firstitem_le A (le_max_left n m) hn]
  exact Calc.exprtail_le A (le_max_right n m) hm

/-- A `SyntaxError` thrown by `match_firstitem` leaves `match_expr`. -/
theorem expr_throw (A : Arith α) (c c1 : Calc α) (e : SyntaxError)
    (hf : Returns (Calc.match_firstitem A) c (.throw e c1)) :
    Returns (Calc.match_expr A) c (.throw e c1) := by
  obtain ⟨n, hn⟩ := hf
  refine ⟨n + 1, ?_⟩
  rw [Calc.match_expr, hn]

/-! ## Token streams -/

theorem Lexer.skip_zero (A : Arith α) (l : Lexer α) : l.skip A 0 = l := rfl

theorem Lexer.skip_succ (A : Arith α) (k : Nat) (l : Lexer α) :
    l.skip A (k + 1) = (l.get_token A).skip A k := by
  unfold Lexer.skip
  exact Function.iterate_succ_apply _ _ _

theorem Lexer.skip_succ_last (A : Arith α) (k : Nat) (l : Lexer α) :
    l.skip A (k + 1) = (l.skip A k).get_token A := by
  unfold Lexer.skip
  exact Function.iterate_succ_apply' _ _ _

theorem Lexer.skip_add (A : Arith α) (a b : Nat) (l : Lexer α) :
    l.skip A (a + b) = (l.skip A a).skip A b := by
  unfold Lexer.skip
  rw [Nat.add_comm]
  exact Function.iterate_add_apply _ _ _ _

/-- Reading `a ++ b` is reading `a` and then reading `b`. -/
theorem Lexer.reads_append (A : Arith α) (a b : List (Token α)) :
    ∀ l : Lexer α, l.reads A (a ++ b) ↔ l.reads A a ∧ (l.skip A a.length).reads A b := by
  induction a with
  | nil => intro l; simp [Lexer.reads, Lexer.skip_zero]
  | cons t ts ih =>
    intro l
    show ((l.token = t ∧ l.raised = false) ∧ (l.get_token A).reads A (ts ++ b)) ↔
      ((l.token = t ∧ l.raised = false) ∧ (l.get_token A).reads A ts) ∧
        (l.skip A (ts.length + 1)).reads A b
    rw [ih, Lexer.skip_succ]
    tauto

theorem Lexer.reads_cons (A : Arith α) (l : Lexer α) (t : Token α) (ts : List (Token α)) :
    l.reads A (t :: ts) ↔ (l.token = t ∧ l.raised = false) ∧ (l.get_token A).reads A ts :=
  Iff.rfl

/-- No `std::length_error` is in flight at the first of the tokens read. -/
theorem Lexer.reads_raised (A : Arith α) {l : Lexer α} {t : Token α} {ts : List (Token α)}
    (h : l.reads A (t :: ts)) : l.raised = false := h.1.2

theorem Lexer.get_char_token (l : Lexer α) : l.get_char.token = l.token := by
  unfold Lexer.get_char
  split <;> rfl

theorem Lexer.skip_space_token (n : Nat) :
    ∀ l : Lexer α, (Lexer.skip_space n l).token = l.token := by
  induction n with
  | zero => intro l; rfl
  | succ n ih =>
    intro l
    rw [Lexer.skip_space]
    split
    · rw [ih, Lexer.get_char_token]
    · rfl

theorem Lexer.read_int_loop_token (n : Nat) : ∀ (l : Lexer α) (val : Int) (cnt : Nat),
    (Lexer.read_int_loop n l val cnt).1.token = l.token := by
  induction n with
  | zero => intro l val cnt; rfl
  | succ n ih =>
    intro l val cnt
    rw [Lexer.read_int_loop]
    split
    · rw [ih, Lexer.get_char_token]
    · rfl

theorem Lexer.read_int_token (l : Lexer α) (val : Int) : (l.read_int val).1.token = l.token :=
  Lexer.read_int_loop_token _ l val 0

theorem Lexer.match_exponent_token (A : Arith α) (l : Lexer α) (val1 val2 : Int) (cnt : Nat) :
    (Lexer.match_exponent A l val1 val2 cnt).2.token = l.token := by
  unfold Lexer.match_exponent
  dsimp only
  split_ifs <;> simp [Lexer.get_char_token, Lexer.read_int_token]

theorem Lexer.match_number_token (A : Arith α) (l : Lexer α) :
    (Lexer.match_number A l).2.token = l.token := by
  unfold Lexer.match_number
  dsimp only
  split_ifs <;> simp [Lexer.match_exponent_token, Lexer.get_char_token, Lexer.read_int_token]

/-- The method `match` does not set the token. -/
theorem Lexer.match_token (A : Arith α) (l : Lexer α) : (l.match_ A).2.token = l.token := by
  unfold Lexer.match_
  dsimp only
  split
  · rfl
  · split_ifs <;> simp [Lexer.match_number_token, Lexer.get_char_token, Lexer.skip_space_token]

theorem Lexer.abort_loop_raised (n : Nat) :
    ∀ l : Lexer α, (Lexer.abort_loop n l).raised = l.raised := by
  induction n with
  | zero => intro l; rfl
  | succ n ih =>
    intro l
    rw [Lexer.abort_loop]
    split
    · split <;> rw [ih]
    · rfl

theorem Lexer.abort_raised (l : Lexer α) (b : Bool) : (l.abort b).raised = l.raised := by
  unfold Lexer.abort
  exact Lexer.abort_loop_raised _ l

/-- A call of `get_token` that is left by `std::length_error` has set no token. -/
theorem Lexer.get_token_raised (A : Arith α) (l : Lexer α)
    (h : (l.get_token A).raised = true) : (l.get_token A).token = l.token := by
  have ht := Lexer.match_token A l
  unfold Lexer.get_token at h ⊢
  cases hg : l.good with
  | false => rw [hg] at h; simp at h
  | true =>
    rw [hg] at h
    simp only [if_true] at h ⊢
    cases hm : l.match_ A with
    | mk r l1 =>
      rw [hm] at h ht
      cases r with
      | ok t => simp at h
      | error e =>
        dsimp only at h ht ⊢
        by_cases hi : stringMax < l1.index
        · rw [if_pos hi]
          exact ht
        · rw [if_neg hi, Lexer.abort_raised] at h
          simp at h

/-- A call of `get_token` after which the current token has another type has
returned. -/
theorem Lexer.returned_of_type (A : Arith α) (l : Lexer α)
    (h : (l.get_token A).token.type ≠ l.token.type) : (l.get_token A).raised = false := by
  cases hq : (l.get_token A).raised with
  | false => rfl
  | true => rw [Lexer.get_token_raised A l hq] at h; exact absurd rfl h

/-! ## Well-formed trees -/

theorem Expr.tokens_paren (e : Expr α) :
    (Expr.paren e).tokens = .tok .LPAREN :: (e.tokens ++ [.tok .RPAREN]) := rfl

theorem Expr.tokens_bin (op : BinOp) (a b : Expr α) :
    (Expr.bin op a b).tokens = a.tokens ++ (.tok op.type :: b.tokens) := by
  simp [Expr.tokens]

theorem Expr.wf_mul {op : BinOp} {l r : Expr α} (h : (Expr.bin op l r).wf = true)
    (hop : op.multiplicative = true) :
    l.wf = true ∧ l.rank ≤ 1 ∧ r.wf = true ∧ r.rank = 0 := by
  simpa [Expr.wf, hop, and_assoc] using h

theorem Expr.wf_add {op : BinOp} {l r : Expr α} (h : (Expr.bin op l r).wf = true)
    (hop : op.multiplicative = false) :
    (l = .zero ∨ l.wf = true) ∧ r.wf = true ∧ r.rank ≤ 1 := by
  cases l <;> simpa [Expr.wf, hop, and_assoc] using h

theorem BinOp.type_of_multiplicative {op : BinOp} (hop : op.multiplicative = true) :
    op.type = .MUL ∨ op.type = .DIV := by
  cases op <;> simp_all [BinOp.type, BinOp.multiplicative]

theorem BinOp.type_of_additive {op : BinOp} (hop : op.multiplicative = false) :
    op.type = .ADD ∨ op.type = .SUB := by
  cases op <;> simp_all [BinOp.type, BinOp.multiplicative]

theorem BinOp.apply_mul (A : Arith α) {op : BinOp} (hop : op.multiplicative = true) (x y : α) :
    (if op.type = .MUL then A.mul x y else A.div x y) = op.apply A x y := by
  cases op <;> simp_all [BinOp.type, BinOp.multiplicative, BinOp.apply]

theorem BinOp.apply_add (A : Arith α) {op : BinOp} (hop : op.multiplicative = false) (x y : α) :
    (if op.type = .ADD then A.add x y else A.sub x y) = op.apply A x y := by
  cases op <;> simp_all [BinOp.type, BinOp.multiplicative, BinOp.apply]

/-- The first token of a well-formed tree is a number or `(`, or a sign when
the tree is a sum or difference. -/
theorem Expr.head_type (A : Arith α) (e : Expr α) :
    ∀ l : Lexer α, e.wf = true → l.reads A e.tokens →
      l.token.type = .NUM ∨ l.token.type = .LPAREN ∨
        (e.rank = 2 ∧ (l.token.type = .ADD ∨ l.token.type = .SUB)) := by
  induction e with
  | zero => intro l h; simp [Expr.wf] at h
  | num v =>
    intro l _ hr
    left; rw [hr.1.1]; rfl
  | paren e _ =>
    intro l _ hr
    rw [Expr.tokens_paren] at hr
    right; left; rw [hr.1.1]; rfl
  | bin op a b iha _ =>
    intro l h hr
    rw [Expr.tokens_bin, Lexer.reads_append] at hr
    cases hop : op.multiplicative with
    | true =>
      obtain ⟨ha, hra, _, _⟩ := Expr.wf_mul h hop
      rcases iha l ha hr.1 with h1 | h1 | ⟨h1, _⟩
      · exact Or.inl h1
      · exact Or.inr (Or.inl h1)
      · omega
    | false =>
      obtain ⟨ha, _, _⟩ := Expr.wf_add h hop
      have hrank : (Expr.bin op a b).rank = 2 := by simp [Expr.rank, hop]
      rcases ha with ha | ha
      · subst ha
        have h2 : l.token = .tok op.type := hr.2.1.1
        right; right
        refine ⟨hrank, ?_⟩
        rw [h2]
        exact BinOp.type_of_additive hop
      · rcases iha l ha hr.1 with h1 | h1 | ⟨_, h1⟩
        · exact Or.inl h1
        · exact Or.inr (Or.inl h1)
        · exact Or.inr (Or.inr ⟨hrank, h1⟩)

/-- The first token of a well-formed tree is not `End`. -/
theorem Expr.head_ne_end (A : Arith α) (e : Expr α) (l : Lexer α) (h : e.wf = true)
    (hr : l.reads A e.tokens) : l.token.type ≠ .END := by
  rcases Expr.head_type A e l h hr with h1 | h1 | ⟨_, h1 | h1⟩ <;> simp [h1]

/-- The first token of a factor or product is a number or `(`. -/
theorem Expr.head_item (A : Arith α) (e : Expr α) (l : Lexer α) (h : e.wf = true)
    (hk : e.rank ≤ 1) (hr : l.reads A e.tokens) :
    l.token.type = .NUM ∨ l.token.type = .LPAREN := by
  rcases Expr.head_type A e l h hr with h1 | h1 | ⟨h1, _⟩
  · exact Or.inl h1
  · exact Or.inr h1
  · omega

/-- No `std::length_error` is in flight at the first token of a well-formed
tree that is read. -/
theorem Expr.head_raised (A : Arith α) (e : Expr α) :
    ∀ l : Lexer α, e.wf = true → l.reads A e.tokens → l.raised = false := by
  induction e with
  | zero => intro l h; simp [Expr.wf] at h
  | num v => intro l _ hr; exact hr.1.2
  | paren e _ =>
    intro l _ hr
    rw [Expr.tokens_paren] at hr
    exact hr.1.2
  | bin op a b iha _ =>
    intro l h hr
    rw [Expr.tokens_bin, Lexer.reads_append] at hr
    have ha : a = .zero ∨ a.wf = true := by
      cases hop : op.multiplicative with
      | true => exact Or.inr (Expr.wf_mul h hop).1
      | false => exact (Expr.wf_add h hop).1
    rcases ha with ha | ha
    · subst ha
      exact hr.2.1.2
    · exact iha l ha hr.1

/-! ## The descent over a well-formed tree -/

theorem itemSpec_of_factor (A : Arith α) (e : Expr α) (h : FactorSpec A e) : ItemSpec A e :=
  fun l ns R hr hq ht => item_of_factor A _ _ R (h l ns hr hq) ht

theorem exprSpec_of_item (A : Arith α) (e : Expr α) (h : ItemSpec A e) : ExprSpec A e := by
  intro l ns R hr hq hty ht
  have h1 := h l ns (.ok () ⟨l.skip A e.tokens.length, e.value A :: ns⟩) hr hq
    (itemtail_stop A _ hty)
  exact expr_of_firstitem A _ _ R (firstitem_of_item A _ _ h1) ht

/-- A parenthesis around a tree that `match_expr` handles is a factor. -/
theorem factorSpec_paren (A : Arith α) (e : Expr α) (hwf : e.wf = true) (h : ExprSpec A e) :
    FactorSpec A (.paren e) := by
  intro l ns hr hq
  rw [Expr.tokens_paren, Lexer.reads_cons, Lexer.reads_append] at hr
  obtain ⟨h0, hre, hrp, _⟩ := hr
  have hlen : (Expr.paren e).tokens.length = (e.tokens.length + 1) + 1 := by
    rw [Expr.tokens_paren]; simp
  rw [hlen, Lexer.skip_succ_last, Lexer.skip_succ] at hq ⊢
  have hne : (l.get_token A).token.type ≠ .END := Expr.head_ne_end A e _ hwf hre
  have hq1 : (l.get_token A).raised = false := Expr.head_raised A e _ hwf hre
  have hty : ((l.get_token A).skip A e.tokens.length).token.type = .RPAREN := by
    rw [hrp.1]; rfl
  have he := h (l.get_token A) ns (.ok () ⟨(l.get_token A).skip A e.tokens.length,
    e.value A :: ns⟩) hre hrp.2 (Or.inr (Or.inr (Or.inl hty))) (exprtail_stop A _ (Or.inl hty))
  exact factor_paren A ⟨l, ns⟩ _ (by show l.token.type = .LPAREN; rw [h0.1]; rfl) hq1 hne he
    hty hq

/-- A product or quotient of a product and a factor is an item. -/
theorem itemSpec_bin (A : Arith α) (op : BinOp) (a b : Expr α)
    (hop : op.multiplicative = true) (hb : b.wf = true) (hbk : b.rank = 0)
    (ha : ItemSpec A a) (hbF : FactorSpec A b) : ItemSpec A (.bin op a b) := by
  intro l ns R hr hq ht
  rw [Expr.tokens_bin, Lexer.reads_append] at hr
  obtain ⟨hra, hopt, hrb⟩ := hr
  have hlen : (Expr.bin op a b).tokens.length = (a.tokens.length + 1) + b.tokens.length := by
    rw [Expr.tokens_bin]; simp; omega
  rw [hlen, Lexer.skip_add, Lexer.skip_succ_last] at ht hq
  refine ha l ns R hra hopt.2 ?_
  have hty : (Calc.mk (l.skip A a.tokens.length) (a.value A :: ns)).type = op.type := by
    show (l.skip A a.tokens.length).token.type = op.type
    rw [hopt.1]; rfl
  refine itemtail_step A _ _ (b.value A) (a.value A) ns R ?_ (Expr.head_raised A b _ hb hrb) ?_
    (hbF ((l.skip A a.tokens.length).get_token A) (a.value A :: ns) hrb hq) rfl ?_
  · rw [hty]; exact BinOp.type_of_multiplicative hop
  · have := Expr.head_item A b _ hb (by omega) hrb
    show ((l.skip A a.tokens.length).get_token A).token.type ≠ .END
    rcases this with h | h <;> simp [h]
  · rw [hty, BinOp.apply_mul A hop]
    exact ht

/-- The turn of the loop of `match_exprtail` over an operator `+` or `-` and
its right operand `b`. -/
theorem exprtail_bin (A : Arith α) (op : BinOp) (b : Expr α) (hop : op.multiplicative = false)
    (hb : b.wf = true) (hbk : b.rank ≤ 1) (hbI : ItemSpec A b)
    (l : Lexer α) (va : α) (ns : List α) (R : Res α Unit)
    (hopt : l.token = .tok op.type) (hrb : (l.get_token A).reads A b.tokens)
    (hq : ((l.get_token A).skip A b.tokens.length).raised = false)
    (hty : ((l.get_token A).skip A b.tokens.length).token.type = .ADD ∨
      ((l.get_token A).skip A b.tokens.length).token.type = .SUB ∨
      ((l.get_token A).skip A b.tokens.length).token.type = .RPAREN ∨
      ((l.get_token A).skip A b.tokens.length).token.type = .END)
    (ht : Returns (Calc.match_exprtail A)
      ⟨(l.get_token A).skip A b.tokens.length, op.apply A va (b.value A) :: ns⟩ R) :
    Returns (Calc.match_exprtail A) ⟨l, va :: ns⟩ R := by
  have hty0 : (Calc.mk l (va :: ns)).type = op.type := by
    show l.token.type = op.type
    rw [hopt]; rfl
  have hi := hbI (l.get_token A) (va :: ns) (.ok () ⟨(l.get_token A).skip A b.tokens.length,
    b.value A :: va :: ns⟩) hrb hq (itemtail_stop A _ hty)
  refine exprtail_step A _ _ (b.value A) va ns R ?_ (Expr.head_raised A b _ hb hrb) ?_ hi rfl ?_
  · rw [hty0]; exact BinOp.type_of_additive hop
  · have := Expr.head_item A b _ hb hbk hrb
    show (l.get_token A).token.type ≠ .END
    rcases this with h | h <;> simp [h]
  · rw [hty0, BinOp.apply_add A hop]
    exact ht

/-- A sum or difference of an expression, or of nothing, and an item is an
expression. -/
theorem exprSpec_bin (A : Arith α) (op : BinOp) (a b : Expr α)
    (hop : op.multiplicative = false) (hb : b.wf = true) (hbk : b.rank ≤ 1)
    (ha : a = .zero ∨ ExprSpec A a) (hbI : ItemSpec A b) : ExprSpec A (.bin op a b) := by
  intro l ns R hr hq hty ht
  rw [Expr.tokens_bin, Lexer.reads_append] at hr
  obtain ⟨hra, hopt, hrb⟩ := hr
  have hlen : (Expr.bin op a b).tokens.length = (a.tokens.length + 1) + b.tokens.length := by
    rw [Expr.tokens_bin]; simp; omega
  rw [hlen, Lexer.skip_add, Lexer.skip_succ_last] at ht hty hq
  have htail := exprtail_bin A op b hop hb hbk hbI (l.skip A a.tokens.length) (a.value A) ns R
    hopt.1 hrb hq hty ht
  rcases ha with ha | ha
  · subst ha
    simp only [Expr.tokens, List.length_nil, Lexer.skip_zero, Expr.value] at htail hopt
    refine expr_of_firstitem A _ _ R (firstitem_sign A ⟨l, ns⟩ ?_) htail
    show l.token.type = .ADD ∨ l.token.type = .SUB
    rw [hopt.1]
    exact BinOp.type_of_additive hop
  · refine ha l ns R hra hopt.2 ?_ htail
    have : (l.skip A a.tokens.length).token.type = op.type := by rw [hopt.1]; rfl
    rw [this]
    rcases BinOp.type_of_additive hop with h | h
    · exact Or.inl h
    · exact Or.inr (Or.inl h)

/-- The descent over a well-formed tree: `match_factor`, `match_item` and
`match_expr` leave its value on the stack. -/
theorem descent (A : Arith α) (e : Expr α) : e.wf = true →
    (e.rank = 0 → FactorSpec A e) ∧ (e.rank ≤ 1 → ItemSpec A e) ∧ ExprSpec A e := by
  induction e with
  | zero => intro h; simp [Expr.wf] at h
  | num v =>
    intro _
    have hF : FactorSpec A (.num v) := by
      intro l ns hr hq
      replace hr : l.token = .num v := hr.1.1
      have := factor_num A ⟨l, ns⟩ (by show l.token.type = .NUM; rw [hr]; rfl) hq
      simpa [Calc.next, hr, Token.val, Expr.tokens, Expr.value, Lexer.skip_succ,
        Lexer.skip_zero] using this
    exact ⟨fun _ => hF, fun _ => itemSpec_of_factor A _ hF,
      exprSpec_of_item A _ (itemSpec_of_factor A _ hF)⟩
  | paren e ih =>
    intro h
    have hwf : e.wf = true := by simpa [Expr.wf] using h
    have hF := factorSpec_paren A e hwf (ih hwf).2.2
    exact ⟨fun _ => hF, fun _ => itemSpec_of_factor A _ hF,
      exprSpec_of_item A _ (itemSpec_of_factor A _ hF)⟩
  | bin op a b iha ihb =>
    intro h
    cases hop : op.multiplicative with
    | true =>
      obtain ⟨ha, hak, hb, hbk⟩ := Expr.wf_mul h hop
      have hI := itemSpec_bin A op a b hop hb hbk ((iha ha).2.1 hak) ((ihb hb).1 hbk)
      refine ⟨fun hk => ?_, fun _ => hI, exprSpec_of_item A _ hI⟩
      simp [Expr.rank, hop] at hk
    | false =>
      obtain ⟨ha, hb, hbk⟩ := Expr.wf_add h hop
      have hE := exprSpec_bin A op a b hop hb hbk (ha.imp id (fun ha => (iha ha).2.2))
        ((ihb hb).2.1 hbk)
      refine ⟨fun hk => ?_, fun hk => ?_, hE⟩
      · simp [Expr.rank, hop] at hk
      · simp [Expr.rank, hop] at hk

/-! ## Evaluation of a line -/

/-- On the tokens of a well-formed tree followed by `End`, `match_expr` leaves
the value of the tree on the stack, above what was there. -/
theorem expr_of_tree (A : Arith α) (e : Expr α) (l : Lexer α) (ns : List α)
    (hwf : e.wf = true) (hr : l.reads A (e.tokens ++ [.tok .END])) :
    Returns (Calc.match_expr A) ⟨l, ns⟩
      (.ok () ⟨l.skip A e.tokens.length, e.value A :: ns⟩) := by
  rw [Lexer.reads_append] at hr
  have hty : (l.skip A e.tokens.length).token.type = .END := by rw [hr.2.1.1]; rfl
  exact (descent A e hwf).2.2 l ns _ hr.1 hr.2.1.2 (Or.inr (Or.inr (Or.inr hty)))
    (exprtail_stop A _ (Or.inr hty))

/-- When `match_expr` leaves one value, `eval` prints it. -/
theorem eval_of_expr (A : Arith α) (c c2 : Calc α) (v : α) (n : Nat) (h0 : c.type ≠ .END)
    (h : Calc.match_expr A n { c with nums := [] } = some (.ok () c2)) (hv : c2.nums = [v]) :
    Calc.eval A n c = some (.ok () (c2.print (.value v)).reset_index) := by
  unfold Calc.eval
  have h1 : (Calc.mk c.lexer ([] : List α)).type ≠ .END := h0
  have h2 : ¬ ((Calc.mk c.lexer ([] : List α)).type = .END ∧
      (Calc.next A (Calc.mk c.lexer ([] : List α))).lexer.raised = true) := fun h => h1 h.1
  simp only [if_neg h1, if_neg h2, h, hv]

/-- The tokens of the tree of a chain. -/
theorem chainTree_tokens (ops : List (BinOp × α)) : ∀ t : Expr α,
    (chainTree t ops).tokens = t.tokens ++ ops.flatMap (fun p => [.tok p.1.type, .num p.2]) := by
  induction ops with
  | nil => intro t; simp [chainTree]
  | cons p ps ih =>
    intro t
    have hstep : chainTree t (p :: ps) = chainTree (.bin p.1 t (.num p.2)) ps := rfl
    rw [hstep, ih, Expr.tokens_bin]
    simp [Expr.tokens]

/-- The value of the tree of a chain is the fold from the left. -/
theorem chainTree_value (A : Arith α) (ops : List (BinOp × α)) : ∀ t : Expr α,
    (chainTree t ops).value A = ops.foldl (fun acc p => p.1.apply A acc p.2) (t.value A) := by
  induction ops with
  | nil => intro t; rfl
  | cons p ps ih =>
    intro t
    have hstep : chainTree t (p :: ps) = chainTree (.bin p.1 t (.num p.2)) ps := rfl
    rw [hstep, ih]
    rfl

/-- The tree of a chain of `+` and `-` is well formed. -/
theorem chainTree_wf_add (ops : List (BinOp × α)) : ∀ t : Expr α, t.wf = true →
    (∀ p ∈ ops, p.1.multiplicative = false) → (chainTree t ops).wf = true := by
  induction ops with
  | nil => intro t ht _; exact ht
  | cons p ps ih =>
    intro t ht h
    have hp := h p (List.mem_cons_self _ _)
    refine ih (.bin p.1 t (.num p.2)) ?_ (fun q hq => h q (List.mem_cons_of_mem _ hq))
    cases t <;> simp_all [Expr.wf, Expr.rank]

/-- The tree of a chain of `*` and `/` is well formed. -/
theorem chainTree_wf_mul (ops : List (BinOp × α)) : ∀ t : Expr α, t.wf = true → t.rank ≤ 1 →
    (∀ p ∈ ops, p.1.multiplicative = true) → (chainTree t ops).wf = true := by
  induction ops with
  | nil => intro t ht _ _; exact ht
  | cons p ps ih =>
    intro t ht hk h
    have hp := h p (List.mem_cons_self _ _)
    refine ih (.bin p.1 t (.num p.2)) ?_ ?_ (fun q hq => h q (List.mem_cons_of_mem _ hq))
    · have hw : (Expr.bin p.1 t (.num p.2)).wf =
          (t.wf && decide (t.rank ≤ 1) &&
            ((Expr.num p.2 : Expr α).wf && decide ((Expr.num p.2 : Expr α).rank = 0))) := by
        cases t <;> simp [Expr.wf, hp]
      rw [hw, ht, decide_eq_true hk]
      rfl
    · simp [Expr.rank, hp]

/-- C1: for every well-formed expression tree (numbers, `+ - * /`, parentheses,
with `*` and `/` binding tighter than `+` and `-`, operators of one precedence
associating to the left and parentheses overriding both), when the calculator
reads the tokens of the tree followed by `End`, `match_expr` as called by
`eval` returns with exactly one value on the stack, the value the reference
evaluator `Expr.value` gives to the tree, and `eval` prints this value. -/
theorem c1_eval_matches_tree (A : Arith α) (e : Expr α) (c : Calc α) (hwf : e.wf = true)
    (hr : c.lexer.reads A (e.tokens ++ [.tok .END])) :
    ∃ n, ∀ m, n ≤ m →
      Calc.match_expr A m { c with nums := [] } =
          some (.ok () ⟨c.lexer.skip A e.tokens.length, [e.value A]⟩) ∧
        Calc.eval A m c =
          some (.ok () (Calc.reset_index (Calc.print
            ⟨c.lexer.skip A e.tokens.length, [e.value A]⟩ (.value (e.value A))))) := by
  obtain ⟨n, hn⟩ := expr_of_tree A e c.lexer [] hwf hr
  refine ⟨n, fun m hm => ?_⟩
  have hm1 := Calc.expr_le A hm hn
  have h0 : c.type ≠ .END := Expr.head_ne_end A e c.lexer hwf ((Lexer.reads_append A _ _ _).1 hr).1
  exact ⟨hm1, eval_of_expr A c _ (e.value A) m h0 hm1 rfl⟩

/-- C2: for every chain `n0 op1 n1 ... opk nk` of number tokens whose
operators are all `*` or `/`, or all `+` or `-`, followed by `End`, `eval`
returns and prints the fold from the left `((n0 op1 n1) op2 n2) ... opk nk`,
the one value left on the stack. -/
theorem c2_chain_folds_left (A : Arith α) (n0 : α) (ops : List (BinOp × α)) (c : Calc α)
    (hops : (∀ p ∈ ops, p.1.multiplicative = true) ∨ (∀ p ∈ ops, p.1.multiplicative = false))
    (hr : c.lexer.reads A (chainTokens n0 ops ++ [.tok .END])) :
    ∃ n, ∀ m, n ≤ m →
      Calc.eval A m c =
        some (.ok () (Calc.reset_index (Calc.print
          ⟨c.lexer.skip A (chainTokens n0 ops).length, [chainFold A n0 ops]⟩
          (.value (chainFold A n0 ops))))) := by
  have htok : (chainTree (.num n0) ops).tokens = chainTokens n0 ops := by
    rw [chainTree_tokens]; rfl
  have hval : (chainTree (.num n0) ops).value A = chainFold A n0 ops := by
    rw [chainTree_value]; rfl
  have hwf : (chainTree (.num n0) ops).wf = true := by
    rcases hops with h | h
    · exact chainTree_wf_mul ops _ rfl (by simp [Expr.rank]) h
    · exact chainTree_wf_add ops _ rfl h
  rw [← htok] at hr
  obtain ⟨n, hn⟩ := expr_of_tree A _ c.lexer [] hwf hr
  refine ⟨n, fun m hm => ?_⟩
  have hm1 := Calc.expr_le A hm hn
  have h0 : c.type ≠ .END :=
    Expr.head_ne_end A _ c.lexer hwf ((Lexer.reads_append A _ _ _).1 hr).1
  have := eval_of_expr A c _ _ m h0 hm1 rfl
  rw [htok, hval] at this
  exact this

/-- C3: when the current token is the number `0` and the next token is a sign
`+` or `-`, `match_expr` and `eval` do with every fuel exactly what they do
from the state in which the sign is the current token: a line, or a
parenthesis, that begins with a sign is evaluated as if `0` stood in front of
the sign. -/
theorem c3_leading_sign (A : Arith α) (l : Lexer α) (ns : List α) (m : Nat)
    (h0 : l.token = .num (A.ofInt 0))
    (hs : (l.get_token A).token.type = .ADD ∨ (l.get_token A).token.type = .SUB) :
    Calc.match_expr A m ⟨l, ns⟩ = Calc.match_expr A m ⟨l.get_token A, ns⟩ ∧
      Calc.eval A m ⟨l, ns⟩ = Calc.eval A m ⟨l.get_token A, ns⟩ := by
  have hfirst : ∀ (k : Nat) (ms : List α), Calc.match_firstitem A k ⟨l, ms⟩ =
      Calc.match_firstitem A k ⟨l.get_token A, ms⟩ := by
    intro k ms
    have hty : (Calc.mk l ms).type = .NUM := by show l.token.type = .NUM; rw [h0]; rfl
    have hty1 : ∀ xs : List α, (Calc.mk (l.get_token A) xs).type = (l.get_token A).token.type :=
      fun _ => rfl
    have hq : (l.get_token A).raised = false := by
      refine Lexer.returned_of_type A l ?_
      have hn : l.token.type = .NUM := by rw [h0]; rfl
      rw [hn]
      rcases hs with hs | hs <;> rw [hs] <;> decide
    match k with
    | 0 => rfl
    | 1 => rfl
    | 2 => rfl
    | k + 3 =>
      have hf : Calc.match_factor A (k + 1) ⟨l, ms⟩ =
          some (.ok true ⟨l.get_token A, A.ofInt 0 :: ms⟩) := by
        rw [Calc.match_factor]
        simp [hty, Calc.next, h0, Token.val, hq]
      have hit : Calc.match_itemtail A (k + 1) ⟨l.get_token A, A.ofInt 0 :: ms⟩ =
          some (.ok () ⟨l.get_token A, A.ofInt 0 :: ms⟩) := by
        rw [Calc.match_itemtail]
        rcases hs with hs | hs <;> simp [hty1, hs]
      have hf1 : Calc.match_factor A (k + 1) ⟨l.get_token A, ms⟩ =
          some (.ok false ⟨l.get_token A, ms⟩) := by
        rw [Calc.match_factor]
        rcases hs with hs | hs <;> simp [hty1, hs]
      rw [Calc.match_firstitem, Calc.match_firstitem, Calc.match_item, Calc.match_item, hf, hf1]
      simp only [hit]
      rcases hs with hs | hs <;> simp [hty1, hs]
  have hexpr : ∀ (k : Nat) (ms : List α), Calc.match_expr A k ⟨l, ms⟩ =
      Calc.match_expr A k ⟨l.get_token A, ms⟩ := by
    intro k ms
    match k with
    | 0 => rfl
    | k + 1 => rw [Calc.match_expr, Calc.match_expr, hfirst]
  refine ⟨hexpr m ns, ?_⟩
  have hty : (Calc.mk l ([] : List α)).type ≠ .END := by
    show l.token.type ≠ .END; rw [h0]; simp [Token.type]
  have hty1 : (Calc.mk (l.get_token A) ([] : List α)).type ≠ .END := by
    show (l.get_token A).token.type ≠ .END
    rcases hs with hs | hs <;> simp [hs]
  have hty2 : ¬ ((Calc.mk l ([] : List α)).type = .END ∧
      (Calc.next A (Calc.mk l ([] : List α))).lexer.raised = true) := fun h => hty h.1
  have hty3 : ¬ ((Calc.mk (l.get_token A) ([] : List α)).type = .END ∧
      (Calc.next A (Calc.mk (l.get_token A) ([] : List α))).lexer.raised = true) :=
    fun h => hty1 h.1
  unfold Calc.eval
  simp only [if_neg hty, if_neg hty1, if_neg hty2, if_neg hty3, hexpr]

/-- Witness of C1: the lines `2 + 3 * 4` and `(2 + 3) * 4` give 14 and 20. -/
theorem c1_eval_matches_tree_witness :
    (treeSumProduct.wf = true ∧
      (Calc.init ratArith "2 + 3 * 4\n".toList).lexer.reads ratArith
        (treeSumProduct.tokens ++ [.tok .END]) ∧
      treeSumProduct.value ratArith = 14 ∧
      ∃ n, ∀ m, n ≤ m →
        Calc.match_expr ratArith m { Calc.init ratArith "2 + 3 * 4\n".toList with nums := [] } =
            some (.ok () ⟨(Calc.init ratArith "2 + 3 * 4\n".toList).lexer.skip ratArith
              treeSumProduct.tokens.length, [treeSumProduct.value ratArith]⟩) ∧
          Calc.eval ratArith m (Calc.init ratArith "2 + 3 * 4\n".toList) =
            some (.ok () (Calc.reset_index (Calc.print
              ⟨(Calc.init ratArith "2 + 3 * 4\n".toList).lexer.skip ratArith
                treeSumProduct.tokens.length, [treeSumProduct.value ratArith]⟩
              (.value (treeSumProduct.value ratArith)))))) ∧
    (treeParenProduct.value ratArith = 20 ∧
      output ratArith 50 "(2 + 3) * 4\n" = some [.value 20]) :=
  ⟨⟨by decide, by decide!, by decide!,
    c1_eval_matches_tree ratArith treeSumProduct (Calc.init ratArith "2 + 3 * 4\n".toList)
      (by decide) (by decide!)⟩, by decide!, by decide!⟩

/-- Witness of C2: the line `10 / 2 / 5` gives 1. -/
theorem c2_chain_folds_left_witness :
    (Calc.init ratArith "10 / 2 / 5\n".toList).lexer.reads ratArith
        (chainTokens 10 [(.div, 2), (.div, 5)] ++ [.tok .END]) ∧
      chainFold ratArith 10 [(.div, 2), (.div, 5)] = 1 ∧
      ∃ n, ∀ m, n ≤ m →
        Calc.eval ratArith m (Calc.init ratArith "10 / 2 / 5\n".toList) =
          some (.ok () (Calc.reset_index (Calc.print
            ⟨(Calc.init ratArith "10 / 2 / 5\n".toList).lexer.skip ratArith
              (chainTokens (10 : ℚ) [(.div, 2), (.div, 5)]).length,
              [chainFold ratArith 10 [(.div, 2), (.div, 5)]]⟩
            (.value (chainFold ratArith 10 [(.div, 2), (.div, 5)]))))) :=
  ⟨by decide!, by decide!,
    c2_chain_folds_left ratArith 10 [(.div, 2), (.div, 5)]
      (Calc.init ratArith "10 / 2 / 5\n".toList) (Or.inl (by decide)) (by decide!)⟩

/-- Witness of C3: the line `0-5 + 2` and its part behind the `0` both give
-3, and so does the line `-5 + 2`. -/
theorem c3_leading_sign_witness :
    ((Lexer.init "0-5 + 2\n".toList).get_token ratArith).token = .num (ratArith.ofInt 0) ∧
    (Calc.match_expr ratArith 50 ⟨(Lexer.init "0-5 + 2\n".toList).get_token ratArith, []⟩ =
        Calc.match_expr ratArith 50
          ⟨((Lexer.init "0-5 + 2\n".toList).get_token ratArith).get_token ratArith, []⟩ ∧
      Calc.eval ratArith 50 ⟨(Lexer.init "0-5 + 2\n".toList).get_token ratArith, []⟩ =
        Calc.eval ratArith 50
          ⟨((Lexer.init "0-5 + 2\n".toList).get_token ratArith).get_token ratArith, []⟩) ∧
    output ratArith 50 "0-5 + 2\n" = some [.value (-3)] ∧
    output ratArith 50 "-5 + 2\n" = some [.value (-3)] :=
  ⟨by decide!, c3_leading_sign ratArith _ [] 50 (by decide!) (by decide!),
    by decide!, by decide!⟩

/-! ## Numeric literals -/

theorem Lexer.adv_zero (l : Lexer α) : l.adv 0 = l := rfl

theorem Lexer.adv_succ (k : Nat) (l : Lexer α) : l.adv (k + 1) = l.get_char.adv k := by
  unfold Lexer.adv
  exact Function.iterate_succ_apply _ _ _

theorem Lexer.adv_add (a b : Nat) (l : Lexer α) : l.adv (a + b) = (l.adv a).adv b := by
  unfold Lexer.adv
  rw [Nat.add_comm]
  exact Function.iterate_add_apply _ _ _ _

theorem Lexer.sees_cons (l : Lexer α) (c : Char) (cs : List Char) :
    l.sees (c :: cs) ↔ l.ch = code c ∧ l.get_char.sees cs := Iff.rfl

/-- Seeing `a ++ b` is seeing `a` and then seeing `b`. -/
theorem Lexer.sees_append (a b : List Char) :
    ∀ l : Lexer α, l.sees (a ++ b) ↔ l.sees a ∧ (l.adv a.length).sees b := by
  induction a with
  | nil => intro l; simp [Lexer.sees, Lexer.adv_zero]
  | cons t ts ih =>
    intro l
    show (l.ch = code t ∧ l.get_char.sees (ts ++ b)) ↔
      (l.ch = code t ∧ l.get_char.sees ts) ∧ (l.adv (ts.length + 1)).sees b
    rw [ih, Lexer.adv_succ, and_assoc]

/-- A digit is not `EOF`. -/
theorem ne_EOF_of_isdigit {z : Int} (h : isdigit z = true) : z ≠ EOF := by
  simp only [isdigit, Bool.and_eq_true, decide_eq_true_eq] at h
  unfold EOF
  omega

/-- The loop of `read_int` never wraps below a final value that fits an `int`. -/
theorem foldl_digit_le (ds : List Char) (hd : ∀ c ∈ ds, isdigit (code c) = true) :
    ∀ v : Int, 0 ≤ v → v ≤ ds.foldl (fun v c => 10 * v + (code c - 48)) v := by
  induction ds with
  | nil => intro v _; exact le_refl v
  | cons c cs ih =>
    intro v hv
    have hc := hd c (List.mem_cons_self _ _)
    simp only [isdigit, Bool.and_eq_true, decide_eq_true_eq] at hc
    have := ih (fun x hx => hd x (List.mem_cons_of_mem _ hx)) (10 * v + (code c - 48))
      (by omega)
    simp only [List.foldl_cons]
    omega

/-- The loop of `read_int` over a run of digits that is followed by another
character. -/
theorem Lexer.read_int_loop_digits (ds : List Char) :
    ∀ (fuel : Nat) (l : Lexer α) (val : Int) (cnt : Nat),
      (∀ c ∈ ds, isdigit (code c) = true) → l.sees ds → isdigit (l.adv ds.length).ch = false →
      ds.length ≤ fuel → 0 ≤ val →
      ds.foldl (fun v c => 10 * v + (code c - 48)) val < 2147483648 →
      cnt < 4294967296 →
      Lexer.read_int_loop fuel l val cnt =
        (l.adv ds.length, ds.foldl (fun v c => 10 * v + (code c - 48)) val,
          (cnt + ds.length) % 4294967296) := by
  induction ds with
  | nil =>
    intro fuel l val cnt _ _ hn _ _ _ hc
    have hcnt : cnt % 4294967296 = cnt := Nat.mod_eq_of_lt hc
    cases fuel with
    | zero => simp [Lexer.read_int_loop, Lexer.adv_zero, hcnt]
    | succ n =>
      rw [Lexer.read_int_loop]
      simp only [List.length_nil, Lexer.adv_zero] at hn
      simp [hn, Lexer.adv_zero, hcnt]
  | cons c cs ih =>
    intro fuel l val cnt hd hs hn hf hv hb hc
    obtain ⟨hch, hs'⟩ := hs
    have hdc := hd c (List.mem_cons_self _ _)
    cases fuel with
    | zero => simp at hf
    | succ n =>
      rw [Lexer.read_int_loop]
      rw [← hch] at hdc
      simp only [hdc, if_true]
      have hdc' := hdc
      simp only [isdigit, Bool.and_eq_true, decide_eq_true_eq] at hdc'
      have hle := foldl_digit_le cs (fun x hx => hd x (List.mem_cons_of_mem _ hx))
        (10 * val + (l.ch - 48)) (by omega)
      simp only [List.foldl_cons, ← hch] at hb
      have hw : wrapInt (10 * val + (l.ch - 48)) = 10 * val + (l.ch - 48) := by
        unfold wrapInt; omega
      simp only [List.length_cons] at hf hn
      rw [hw, ih n l.get_char _ ((cnt + 1) % 4294967296)
        (fun x hx => hd x (List.mem_cons_of_mem _ hx))
        hs' (by rw [← Lexer.adv_succ]; exact hn) (by omega) (by omega) hb
        (Nat.mod_lt _ (by decide))]
      simp only [List.length_cons, Lexer.adv_succ, List.foldl_cons, hch]
      congr 2
      omega

/-- After a character that is not `EOF`, `get_char` has taken it from the input. -/
theorem Lexer.input_of_get_char (l : Lexer α) (h : l.get_char.ch ≠ EOF) :
    l.get_char.input.length + 1 = l.input.length ∧ l.good = true ∧ l.get_char.good = true := by
  unfold Lexer.get_char at h ⊢
  cases hg : l.good <;> cases hi : l.input <;> simp_all

/-- The characters a lexer sees are the current one and unread ones, when none
of them is the byte that is equal to `EOF`. -/
theorem Lexer.sees_length (cs : List Char) :
    ∀ l : Lexer α, (∀ c ∈ cs, code c ≠ EOF) → l.sees cs → cs.length ≤ l.input.length + 1 := by
  induction cs with
  | nil => intro l _ _; simp
  | cons c cs ih =>
    intro l hd hs
    cases cs with
    | nil => simp
    | cons c1 cs1 =>
      have h1 := ih l.get_char (fun x hx => hd x (List.mem_cons_of_mem _ hx)) hs.2
      have hne : l.get_char.ch ≠ EOF := by
        rw [hs.2.1]
        exact hd c1 (List.mem_cons_of_mem _ (List.mem_cons_self _ _))
      have := (Lexer.input_of_get_char l hne).1
      simp only [List.length_cons] at h1 ⊢
      omega

/-- The method `read_int` over a run of digits whose value fits an `int`. -/
theorem Lexer.read_int_digits (l : Lexer α) (ds : List Char)
    (hd : ∀ c ∈ ds, isdigit (code c) = true) (hs : l.sees ds)
    (hn : isdigit (l.adv ds.length).ch = false) (hb : decimal ds < 2147483648) :
    l.read_int 0 = (l.adv ds.length, decimal ds, ds.length % 4294967296) := by
  unfold Lexer.read_int
  have := Lexer.read_int_loop_digits ds (l.input.length + 1) l 0 0 hd hs hn
    (Lexer.sees_length ds l (fun c hc => ne_EOF_of_isdigit (hd c hc)) hs) (le_refl 0) hb
    (by decide)
  simpa [decimal] using this

/-- Without an exponent marker the exponent is 0. -/
theorem Lexer.match_exponent_none (A : Arith α) (l : Lexer α) (val1 val2 : Int) (cnt : Nat)
    (h1 : l.ch ≠ 101) (h2 : l.ch ≠ 69) :
    Lexer.match_exponent A l val1 val2 cnt =
      (.ok (.num (A.mul (A.add (A.ofInt val1) (A.mul (A.ofInt val2) (A.pow A.tenth cnt)))
        (A.pow (A.ofInt 10) 0))), l) := by
  unfold Lexer.match_exponent
  simp [h1, h2]

/-- The exponent part `m s d` of a literal: marker, sign and digits. -/
theorem Lexer.match_exponent_some (A : Arith α) (l : Lexer α) (val1 val2 : Int) (cnt : Nat)
    (m : Char) (s d : List Char) (hm : m = 'e' ∨ m = 'E')
    (hsg : s = [] ∨ s = ['+'] ∨ s = ['-']) (hd0 : d ≠ [])
    (hd : ∀ c ∈ d, isdigit (code c) = true) (hs : l.sees (m :: (s ++ d)))
    (hn : isdigit (l.adv (m :: (s ++ d)).length).ch = false)
    (hb : decimal d < 2147483648) :
    Lexer.match_exponent A l val1 val2 cnt =
      (.ok (.num (A.mul (A.add (A.ofInt val1) (A.mul (A.ofInt val2) (A.pow A.tenth cnt)))
        (A.pow (A.ofInt 10) (if s = ['-'] then -decimal d else decimal d)))),
        l.adv (m :: (s ++ d)).length) := by
  obtain ⟨hm0, hs1⟩ := hs
  have hmark : (l.ch == 101 || l.ch == 69) = true := by
    rcases hm with rfl | rfl <;> simp [hm0, code]
  obtain ⟨d0, ds, rfl⟩ := List.exists_cons_of_ne_nil hd0
  have hd0' := hd d0 (List.mem_cons_self _ _)
  have hd0r := hd0'
  simp only [isdigit, Bool.and_eq_true, decide_eq_true_eq] at hd0r
  have hdec0 : 0 ≤ decimal (d0 :: ds) := by
    unfold decimal
    exact foldl_digit_le _ hd 0 (le_refl 0)
  unfold Lexer.match_exponent
  simp only [hmark, if_true]
  rcases hsg with rfl | rfl | rfl
  · -- no sign
    simp only [List.nil_append] at hs1 hn ⊢
    have hc : l.get_char.ch = code d0 := hs1.1
    have h43 : ¬ code d0 = 43 := by omega
    have h45 : ¬ code d0 = 45 := by omega
    simp only [List.length_cons, Lexer.adv_succ] at hn
    have hr := Lexer.read_int_digits l.get_char (d0 :: ds) hd hs1 hn hb
    simp [h43, h45, hc, hd0', hr, Lexer.adv_succ]
  · -- the sign `+`
    simp only [List.singleton_append] at hs1 hn ⊢
    obtain ⟨hc, hs2⟩ := hs1
    have h43 : (l.get_char.ch == 43) = true := by simp [hc, code]
    have h45 : (l.get_char.ch == 45) = false := by simp [hc, code]
    have hc2 : l.get_char.get_char.ch = code d0 := hs2.1
    simp only [List.length_cons, Lexer.adv_succ] at hn
    have hr := Lexer.read_int_digits l.get_char.get_char (d0 :: ds) hd hs2 hn hb
    simp only [h43, h45, Bool.false_eq_true, if_false, if_true, hc2, hd0', Bool.not_true, hr,
      List.length_cons, Lexer.adv_succ]
    simp
  · -- the sign `-`
    simp only [List.singleton_append] at hs1 hn ⊢
    obtain ⟨hc, hs2⟩ := hs1
    have h43 : (l.get_char.ch == 43) = false := by simp [hc, code]
    have h45 : (l.get_char.ch == 45) = true := by simp [hc, code]
    have hc2 : l.get_char.get_char.ch = code d0 := hs2.1
    simp only [List.length_cons, Lexer.adv_succ] at hn
    have hr := Lexer.read_int_digits l.get_char.get_char (d0 :: ds) hd hs2 hn hb
    have hw : wrapInt (-decimal (d0 :: ds)) = -decimal (d0 :: ds) := by
      unfold wrapInt; omega
    simp only [h43, h45, Bool.false_eq_true, if_false, if_true, hc2, hd0', Bool.not_true, hr,
      List.length_cons, Lexer.adv_succ, hw]

/-- The exponent part of a well-formed literal. -/
theorem Lexer.match_exponent_spec (A : Arith α) (l : Lexer α) (val1 val2 : Int) (cnt : Nat)
    (ep : Option (Char × List Char × List Char)) (hwf : Literal.expOK ep = true)
    (hs : l.sees (Literal.expText ep))
    (hn : isdigit (l.adv (Literal.expText ep).length).ch = false)
    (hne : ep = none → l.ch ≠ 101 ∧ l.ch ≠ 69)
    (hb : decimal (Literal.expDigits ep) < 2147483648) :
    Lexer.match_exponent A l val1 val2 cnt =
      (.ok (.num (A.mul (A.add (A.ofInt val1) (A.mul (A.ofInt val2) (A.pow A.tenth cnt)))
        (A.pow (A.ofInt 10) (Literal.exponentOf ep)))), l.adv (Literal.expText ep).length) := by
  cases ep with
  | none =>
    obtain ⟨h1, h2⟩ := hne rfl
    rw [Lexer.match_exponent_none A l val1 val2 cnt h1 h2]
    rfl
  | some x =>
    obtain ⟨m, s, d⟩ := x
    simp only [Literal.expOK, Bool.and_eq_true, Bool.or_eq_true, beq_iff_eq, Bool.not_eq_true',
      List.isEmpty_eq_false, List.all_eq_true] at hwf
    obtain ⟨⟨hm, hsg⟩, hd0, hd⟩ := hwf
    exact Lexer.match_exponent_some A l val1 val2 cnt m s d hm (or_assoc.1 hsg)
      (by intro h; simp [h] at hd0) hd hs hn hb

theorem Lexer.adv_append (a b : List Char) (l : Lexer α) :
    l.adv (a ++ b).length = (l.adv a.length).adv b.length := by
  rw [List.length_append, Lexer.adv_add]

theorem Lexer.adv_cons (c : Char) (b : List Char) (l : Lexer α) :
    l.adv (c :: b).length = l.get_char.adv b.length := by
  rw [List.length_cons, Lexer.adv_succ]

/-- The character behind the digits in front of an exponent part is no digit. -/
theorem Literal.exp_head_not_digit (ep : Option (Char × List Char × List Char))
    (l : Lexer α) (hwf : Literal.expOK ep = true) (hs : l.sees (Literal.expText ep))
    (hn : isdigit (l.adv (Literal.expText ep).length).ch = false) :
    isdigit l.ch = false := by
  cases ep with
  | none => exact hn
  | some x =>
    obtain ⟨m, s, d⟩ := x
    simp only [Literal.expOK, Bool.and_eq_true, Bool.or_eq_true, beq_iff_eq] at hwf
    have hm : l.ch = code m := hs.1
    rcases hwf.1.1 with rfl | rfl <;> rw [hm] <;> decide

/-- The character behind the integer digits is no dot when the literal has no
fraction. -/
theorem Literal.exp_head_not_dot (ep : Option (Char × List Char × List Char))
    (l : Lexer α) (hwf : Literal.expOK ep = true) (hs : l.sees (Literal.expText ep))
    (hnd : ep = none → l.ch ≠ 46) : (l.ch == 46) = false := by
  cases ep with
  | none => simpa using hnd rfl
  | some x =>
    obtain ⟨m, s, d⟩ := x
    simp only [Literal.expOK, Bool.and_eq_true, Bool.or_eq_true, beq_iff_eq] at hwf
    have hm : l.ch = code m := hs.1
    rcases hwf.1.1 with rfl | rfl <;> rw [hm] <;> decide

/-- The number branch of `match` on a well-formed literal whose runs fit. -/
theorem Lexer.match_number_spec (A : Arith α) (t : Literal) (l : Lexer α)
    (hz : ∀ k : Nat, A.mul (A.ofInt 0) (A.pow A.tenth k) = A.mul (A.ofInt 0) (A.pow A.tenth 0))
    (hwf : t.wellFormed = true) (hs : l.sees t.text)
    (hn : isdigit (l.adv t.text.length).ch = false)
    (hne : t.expPart = none → (l.adv t.text.length).ch ≠ 101 ∧ (l.adv t.text.length).ch ≠ 69)
    (hnd : t.fracPart = none → t.expPart = none → (l.adv t.text.length).ch ≠ 46)
    (hb1 : decimal t.intPart < 2147483648) (hb2 : t.fracValue < 2147483648)
    (hb3 : decimal (Literal.expDigits t.expPart) < 2147483648)
    (hl2 : t.fracDigits < 4294967296) :
    Lexer.match_number A l = (.ok (.num (t.value A)), l.adv t.text.length) := by
  obtain ⟨ip, fp, ep⟩ := t
  simp only [Literal.wellFormed, Bool.and_eq_true, List.all_eq_true] at hwf
  obtain ⟨⟨⟨hip, hfp⟩, hep⟩, _⟩ := hwf
  simp only [Literal.text] at hs hn hne hnd ⊢
  rw [Lexer.adv_append] at hn hne hnd ⊢
  rw [Lexer.sees_append] at hs
  obtain ⟨hs1, hs2⟩ := hs
  cases fp with
  | none =>
    simp only [Literal.fracText, List.nil_append] at hs2 hn hne hnd ⊢
    have hnip := Literal.exp_head_not_digit ep _ hep hs2 hn
    have hdot := Literal.exp_head_not_dot ep (l.adv ip.length) hep hs2 (by
      intro h; subst h; exact hnd trivial rfl)
    have hr := Lexer.read_int_digits l ip hip hs1 hnip hb1
    unfold Lexer.match_number
    simp only [hr, hdot, Bool.false_eq_true, if_false]
    rw [Lexer.match_exponent_spec A _ _ 0 0 ep hep hs2 hn (by
      intro h; subst h; exact hne rfl) hb3]
    rfl
  | some f =>
    simp only [Literal.fracText] at hs2 hn hne ⊢
    simp only [Literal.fracOK, Bool.and_eq_true, Bool.not_eq_true', List.isEmpty_eq_false,
      List.all_eq_true] at hfp
    obtain ⟨hf0, hf⟩ := hfp
    rw [List.cons_append, Lexer.sees_cons, Lexer.sees_append] at hs2
    obtain ⟨hdotc, hs3, hs4⟩ := hs2
    rw [List.cons_append, Lexer.adv_cons, Lexer.adv_append] at hn hne ⊢
    have hdot : ((l.adv ip.length).ch == 46) = true := by rw [hdotc]; decide
    have hnip : isdigit (l.adv ip.length).ch = false := by rw [hdotc]; decide
    have hr := Lexer.read_int_digits l ip hip hs1 hnip hb1
    obtain ⟨f0, fs, rfl⟩ := List.exists_cons_of_ne_nil (by intro h; simp [h] at hf0 : f ≠ [])
    have hfd : isdigit (l.adv ip.length).get_char.ch = true := by
      rw [hs3.1]; exact hf f0 (List.mem_cons_self _ _)
    have hnf := Literal.exp_head_not_digit ep _ hep hs4 hn
    have hr2 := Lexer.read_int_digits (l.adv ip.length).get_char (f0 :: fs) hf hs3 hnf hb2
    have hlen : (f0 :: fs).length % 4294967296 = (f0 :: fs).length := Nat.mod_eq_of_lt hl2
    unfold Lexer.match_number
    simp only [hr, hdot, if_true, hfd, Bool.not_true, Bool.false_eq_true, if_false, hr2, hlen]
    rw [Lexer.match_exponent_spec A _ _ _ _ ep hep hs4 hn (by
      intro h; subst h; exact hne rfl) hb3]
    by_cases h0 : decimal (f0 :: fs) = 0
    · simp only [h0, beq_self_eq_true, if_true, Literal.value, Literal.fracValue,
        Literal.fracDigits, Literal.exponent]
      rw [hz (f0 :: fs).length]
      rfl
    · have : (decimal (f0 :: fs) == 0) = false := by simpa using h0
      simp only [this, Bool.false_eq_true, if_false]
      rfl

/-- The first character of a well-formed literal is a digit or a dot. -/
theorem Literal.head_char (t : Literal) (l : Lexer α) (hwf : t.wellFormed = true)
    (hs : l.sees t.text) : (isdigit l.ch || l.ch == 46) = true := by
  obtain ⟨ip, fp, ep⟩ := t
  simp only [Literal.wellFormed, Bool.and_eq_true, List.all_eq_true, Bool.or_eq_true,
    Bool.not_eq_true', List.isEmpty_eq_false, Option.isSome_iff_exists] at hwf
  obtain ⟨⟨⟨hip, _⟩, _⟩, hstart⟩ := hwf
  simp only [Literal.text] at hs
  cases ip with
  | cons c cs =>
    have : l.ch = code c := hs.1
    rw [this, hip c (List.mem_cons_self _ _)]
    rfl
  | nil =>
    rcases hstart with h | ⟨f, rfl⟩
    · simp at h
    · have : l.ch = code '.' := hs.1
      rw [this]
      decide

/-- The lexer on a well-formed numeric literal whose digit runs fit: when the
integer, fractional and exponent digits have decimal values below `2^31` and
there are fewer than `2^32` fractional digits, `match` and `get_token` yield the
`Num` token of value `(intPart + fracPart * 0.1^fracDigits) * 10^exponent` and
stop behind the literal. -/
theorem Lexer.literal_of_fit (A : Arith α) (t : Literal) (l : Lexer α)
    (hz : ∀ k : Nat, A.mul (A.ofInt 0) (A.pow A.tenth k) = A.mul (A.ofInt 0) (A.pow A.tenth 0))
    (hwf : t.wellFormed = true) (hg : l.good = true) (hs : l.sees t.text)
    (hn : isdigit (l.adv t.text.length).ch = false)
    (hne : t.expPart = none → (l.adv t.text.length).ch ≠ 101 ∧ (l.adv t.text.length).ch ≠ 69)
    (hnd : t.fracPart = none → t.expPart = none → (l.adv t.text.length).ch ≠ 46)
    (hb1 : decimal t.intPart < 2147483648) (hb2 : t.fracValue < 2147483648)
    (hb3 : decimal (Literal.expDigits t.expPart) < 2147483648)
    (hl2 : t.fracDigits < 4294967296) :
    l.match_ A = (.ok (.num (t.value A)), l.adv t.text.length) ∧
      l.get_token A =
        { l.adv t.text.length with token := .num (t.value A), raised := false } := by
  have hhead := Literal.head_char t l hwf hs
  have h10 : (l.ch == 10) = false := by
    rcases Bool.or_eq_true _ _ ▸ hhead with h | h
    · simp only [isdigit, Bool.and_eq_true, decide_eq_true_eq] at h
      simp; omega
    · simp only [beq_iff_eq] at h
      simp [h]
  have hsp : isspace l.ch = false := by
    rcases Bool.or_eq_true _ _ ▸ hhead with h | h
    · simp only [isdigit, Bool.and_eq_true, decide_eq_true_eq] at h
      simp [isspace]; omega
    · simp only [beq_iff_eq] at h
      simp [h, isspace]
  have hm : l.match_ A = (.ok (.num (t.value A)), l.adv t.text.length) := by
    unfold Lexer.match_
    simp only [h10, Bool.false_eq_true, if_false, Lexer.skip_space, hsp, hhead, if_true]
    exact Lexer.match_number_spec A t l hz hwf hs hn hne hnd hb1 hb2 hb3 hl2
  refine ⟨hm, ?_⟩
  unfold Lexer.get_token
  rw [if_pos hg, hm]

/-! ## Lines that go wrong -/

/-- C4: the digit runs of a literal are accumulated in an `int`.  The literal
`4294967296` is lexed as the number 0, and `3.14159265358979` as
2.99998758184067, neither of which is the value of the literal; the literals
`1.5e2` and `150`, whose runs fit an `int`, both give 150. -/
theorem c4_long_digit_run_overflows :
    ((Lexer.init "4294967296\n".toList).get_token ratArith).token = .num 0 ∧
    literalTwoPow32.wellFormed = true ∧
    literalTwoPow32.value ratArith = 4294967296 ∧
    ((Lexer.init "3.14159265358979\n".toList).get_token ratArith).token =
      .num (299998758184067 / 100000000000000) ∧
    literalPi.value ratArith = 314159265358979 / 100000000000000 ∧
    ((Lexer.init "1.5e2\n".toList).get_token ratArith).token = .num 150 ∧
    ((Lexer.init "150\n".toList).get_token ratArith).token = .num 150 := by
  refine ⟨?_, ?_, ?_, ?_, ?_, ?_, ?_⟩ <;> decide!

/-- The literal `1.5e2` fits, and its token has the value 150. -/
theorem literal_of_fit_example :
    ((Lexer.init "1.5e2\n".toList : Lexer ℚ).get_token ratArith).token =
        .num (literalExample.value ratArith) ∧
      literalExample.value ratArith = 150 :=
  ⟨by
    rw [(Lexer.literal_of_fit ratArith literalExample (Lexer.init "1.5e2\n".toList)
      (by intro k; simp [ratArith]) (by decide) (by decide) (by decide) (by decide)
      (by decide) (by decide) (by decide) (by decide) (by decide) (by decide)).2],
    by decide!⟩

/-- C5: in `"3 \n4\n"`, behind the `3` the unread characters are a space and a
newline.  The next `get_token` does not return `End`: it skips the newline with
the space, returns the number 4 of the next line and reads that line to its
end; the program prints a diagnostic and 4 instead of 3 and 4. -/
theorem c5_newline_skipped_as_space :
    ((Lexer.init "3 \n4\n".toList).get_token ratArith).ch = 32 ∧
    ((Lexer.init "3 \n4\n".toList).get_token ratArith).input = ['\n', '4', '\n'] ∧
    (((Lexer.init "3 \n4\n".toList).get_token ratArith).get_token ratArith).token = .num 4 ∧
    (((Lexer.init "3 \n4\n".toList).get_token ratArith).get_token ratArith).input = [] ∧
    output ratArith 50 "3 \n4\n" = some [.syntactic 4 .missingOperator, .value 4] := by
  refine ⟨?_, ?_, ?_, ?_, ?_⟩ <;> decide!

/-- C7: on `"3 4\n"` the first `eval` reports `missing operator` and returns
with the number 4 as the current token, and the next `eval` prints 4. -/
theorem c7_leftover_token_evaluated :
    ((Calc.eval ratArith 50 (Calc.init ratArith "3 4\n".toList)).bind Res.state).map
        (fun c => (c.lexer.token, c.lexer.cout)) =
      some (.num 4, [.syntactic 3 .missingOperator]) ∧
    output ratArith 50 "3 4\n" = some [.syntactic 3 .missingOperator, .value 4] := by
  refine ⟨?_, ?_⟩ <;> decide!

/-- The state `nulState` is a fixed point of `eval`. -/
theorem eval_nulState (n : Nat) (hn : 4 ≤ n) :
    Calc.eval ratArith n nulState = some (.ok () nulState) := by
  have h4 : Calc.match_expr ratArith 4 (Calc.next ratArith { nulState with nums := [] }) =
      some (.ok () (Calc.next ratArith { nulState with nums := [] })) := by decide!
  have hty : (Calc.mk nulState.lexer ([] : List ℚ)).type = .END := by decide!
  have hnums : (Calc.next ratArith { nulState with nums := [] }).nums = [] := by decide!
  have hfix : (Calc.next ratArith { nulState with nums := [] }).reset_index = nulState := by
    decide!
  have hq : ¬ ((Calc.mk nulState.lexer ([] : List ℚ)).type = .END ∧
      (Calc.next ratArith (Calc.mk nulState.lexer ([] : List ℚ))).lexer.raised = true) := by
    decide!
  unfold Calc.eval
  simp only [if_neg hq]
  simp only [hty, if_true, Calc.expr_le ratArith hn h4, hnums, hfix]

/-- The first `eval` on a NUL character leads to `nulState`. -/
theorem eval_nul_init (n : Nat) (hn : 4 ≤ n) :
    Calc.eval ratArith n (Calc.init ratArith [Char.ofNat 0]) = some (.ok () nulState) := by
  have h4 : Calc.match_expr ratArith 4
      (Calc.next ratArith { Calc.init ratArith [Char.ofNat 0] with nums := [] }) =
      some (.ok () (Calc.next ratArith { Calc.init ratArith [Char.ofNat 0] with nums := [] })) := by
    decide!
  have hty : (Calc.mk (Calc.init ratArith [Char.ofNat 0]).lexer ([] : List ℚ)).type = .END := by
    decide!
  have hnums :
      (Calc.next ratArith { Calc.init ratArith [Char.ofNat 0] with nums := [] }).nums = [] := by
    decide!
  have hfix : (Calc.next ratArith
      { Calc.init ratArith [Char.ofNat 0] with nums := [] }).reset_index = nulState := by
    decide!
  have hq : ¬ ((Calc.mk (Calc.init ratArith [Char.ofNat 0]).lexer ([] : List ℚ)).type = .END ∧
      (Calc.next ratArith
        (Calc.mk (Calc.init ratArith [Char.ofNat 0]).lexer ([] : List ℚ))).lexer.raised =
          true) := by
    decide!
  unfold Calc.eval
  simp only [if_neg hq]
  simp only [hty, if_true, Calc.expr_le ratArith hn h4, hnums, hfix]

/-- With too little fuel `eval` gives nothing, when its call of `get_token`
returns. -/
theorem eval_small_fuel (A : Arith α) (n : Nat) (hn : n < 4) (c : Calc α)
    (h : c.type = .END) (hq : (c.lexer.get_token A).raised = false) :
    Calc.eval A n c = none := by
  have hty : (Calc.mk c.lexer ([] : List α)).type = .END := h
  have hq1 : ¬ ((Calc.mk c.lexer ([] : List α)).type = .END ∧
      (Calc.next A (Calc.mk c.lexer ([] : List α))).lexer.raised = true) := by
    intro h1
    rw [show (Calc.next A (Calc.mk c.lexer ([] : List α))).lexer.raised = false from hq] at h1
    exact absurd h1.2 (by decide)
  have hf : ∀ k, k < 4 → Calc.match_expr A k (Calc.next A { c with nums := [] }) = none := by
    intro k hk
    match k with
    | 0 => rfl
    | 1 => rfl
    | 2 => rfl
    | 3 => rfl
  unfold Calc.eval
  simp only [if_neg hq1]
  simp only [hty, if_true, hf n hn]

/-- The loop of `run` never leaves `nulState`. -/
theorem run_nulState (n : Nat) : Calc.run ratArith n nulState = none := by
  induction n with
  | zero => rfl
  | succ n ih =>
    have hg : nulState.lexer.good = true := by decide!
    rw [Calc.run, if_pos hg]
    by_cases hn : 4 ≤ n
    · rw [eval_nulState n hn]
      exact ih
    · rw [eval_small_fuel ratArith n (by omega) nulState (by decide!) (by decide!)]

/-- C8: on the input that is one NUL character, `match` returns `End` without
reading, so `eval` maps the state `nulState` to itself and the stream stays
good: the loop of `run` does not end, whatever the fuel. -/
theorem c8_nul_input_never_ends :
    nulState.lexer.good = true ∧
    nulState.lexer.get_token ratArith = nulState.lexer ∧
    Calc.eval ratArith 4 nulState = some (.ok () nulState) ∧
    ∀ n, Calc.run ratArith n (Calc.init ratArith [Char.ofNat 0]) = none := by
  refine ⟨by decide!, by decide!, eval_nulState 4 (le_refl 4), ?_⟩
  intro n
  cases n with
  | zero => rfl
  | succ n =>
    have hg : (Calc.init ratArith [Char.ofNat 0]).lexer.good = true := by decide!
    rw [Calc.run, if_pos hg]
    by_cases hn : 4 ≤ n
    · rw [eval_nul_init n hn]
      exact run_nulState n
    · rw [eval_small_fuel ratArith n (by omega) _ (by decide!) (by decide!)]

/-- C9: the line `3 ` (with a space at its end) prints 3 when it is fed once,
and a diagnostic and 3 when it is fed twice. -/
theorem c9_repeated_line_differs :
    output ratArith 50 "3 \n" = some [.value 3] ∧
    output ratArith 50 "3 \n3 \n" = some [.syntactic 4 .missingOperator, .value 3] := by
  refine ⟨?_, ?_⟩ <;> decide!

/-! ## A line that ends in an operator -/

/-- When `match_expr` throws, `eval` prints the diagnostic, unless the caret
line is too long to be built: then `std::length_error` leaves `eval`. -/
theorem eval_of_throw (A : Arith α) (c c2 : Calc α) (e : SyntaxError) (n : Nat)
    (h0 : c.type ≠ .END)
    (h : Calc.match_expr A n { c with nums := [] } = some (.throw e c2)) :
    Calc.eval A n c =
      if stringMax < c2.lexer.index then some (.raise c2)
      else some (.ok () (c2.print (.syntactic c2.lexer.index e)).reset_index) := by
  unfold Calc.eval
  have h1 : (Calc.mk c.lexer ([] : List α)).type ≠ .END := h0
  have h2 : ¬ ((Calc.mk c.lexer ([] : List α)).type = .END ∧
      (Calc.next A (Calc.mk c.lexer ([] : List α))).lexer.raised = true) := fun h => h1 h.1
  simp only [if_neg h1, if_neg h2, h]

/-- Behind a product that is followed by `*` or `/` and `End`, `match_item`
throws `missing operand`. -/
theorem item_operand (A : Arith α) (e : Expr α) (op : BinOp) (l : Lexer α) (ns : List α)
    (hwf : e.wf = true) (hk : e.rank ≤ 1) (hop : op.multiplicative = true)
    (hr : l.reads A e.tokens)
    (ho : (l.skip A e.tokens.length).token = .tok op.type ∧
      (l.skip A e.tokens.length).raised = false)
    (he : ((l.skip A e.tokens.length).get_token A).token = .tok .END ∧
      ((l.skip A e.tokens.length).get_token A).raised = false) :
    Returns (Calc.match_item A) ⟨l, ns⟩
      (.throw .missingOperand ⟨l.skip A (e.tokens.length + 1), e.value A :: ns⟩) := by
  have hty : (Calc.mk (l.skip A e.tokens.length) (e.value A :: ns)).type = op.type := by
    show (l.skip A e.tokens.length).token.type = op.type
    rw [ho.1]; rfl
  have ht := itemtail_operand A ⟨l.skip A e.tokens.length, e.value A :: ns⟩
    (by rw [hty]; exact BinOp.type_of_multiplicative hop) he.2
    (by show ((l.skip A e.tokens.length).get_token A).token.type = .END; rw [he.1]; rfl)
  have := (descent A e hwf).2.1 hk l ns _ hr ho.2 ht
  rw [Lexer.skip_succ_last]
  exact this

/-- On the tokens of a well-formed tree followed by an operator and `End`,
`match_expr` throws `missing operand` behind the operator. -/
theorem expr_operand (A : Arith α) (e : Expr α) (op : BinOp) (l : Lexer α) (ns : List α)
    (hwf : e.wf = true) (hr : l.reads A (e.tokens ++ [.tok op.type, .tok .END])) :
    ∃ ms, Returns (Calc.match_expr A) ⟨l, ns⟩
      (.throw .missingOperand ⟨l.skip A (e.tokens.length + 1), ms⟩) := by
  rw [Lexer.reads_append] at hr
  obtain ⟨hre, ho, he, _⟩ := hr
  cases hop : op.multiplicative with
  | false =>
    have hty : (Calc.mk (l.skip A e.tokens.length) (e.value A :: ns)).type = op.type := by
      show (l.skip A e.tokens.length).token.type = op.type
      rw [ho.1]; rfl
    have hadd := BinOp.type_of_additive hop
    have ht := exprtail_operand A ⟨l.skip A e.tokens.length, e.value A :: ns⟩
      (by rw [hty]; exact hadd) he.2
      (by show ((l.skip A e.tokens.length).get_token A).token.type = .END; rw [he.1]; rfl)
    refine ⟨e.value A :: ns, ?_⟩
    rw [Lexer.skip_succ_last]
    refine (descent A e hwf).2.2 l ns _ hre ho.2 ?_ ht
    have : (l.skip A e.tokens.length).token.type = op.type := by rw [ho.1]; rfl
    rw [this]
    rcases hadd with h | h
    · exact Or.inl h
    · exact Or.inr (Or.inl h)
  | true =>
    by_cases hk : e.rank ≤ 1
    · exact ⟨_, expr_throw A _ _ _ (firstitem_throw A _ _ _
        (item_operand A e op l ns hwf hk hop hre ho he))⟩
    · cases e with
      | zero => simp [Expr.wf] at hwf
      | num v => simp [Expr.rank] at hk
      | paren e1 => simp [Expr.rank] at hk
      | bin op1 a b =>
        cases hop1 : op1.multiplicative with
        | true => simp [Expr.rank, hop1] at hk
        | false =>
          obtain ⟨ha, hb, hbk⟩ := Expr.wf_add hwf hop1
          rw [Expr.tokens_bin, Lexer.reads_append] at hre
          obtain ⟨hra, hopt, hrb⟩ := hre
          have hlen : (Expr.bin op1 a b).tokens.length =
              (a.tokens.length + 1) + b.tokens.length := by
            rw [Expr.tokens_bin]; simp; omega
          rw [hlen, Lexer.skip_add, Lexer.skip_succ_last] at ho he
          have hi := item_operand A b op ((l.skip A a.tokens.length).get_token A)
            (a.value A :: ns) hb hbk hop hrb ho he
          have hty : (Calc.mk (l.skip A a.tokens.length) (a.value A :: ns)).type = op1.type := by
            show (l.skip A a.tokens.length).token.type = op1.type
            rw [hopt.1]; rfl
          have hadd := BinOp.type_of_additive hop1
          have htail := exprtail_throw A ⟨l.skip A a.tokens.length, a.value A :: ns⟩ _ _
            (by rw [hty]; exact hadd) (Expr.head_raised A b _ hb hrb)
            (by
              have := Expr.head_item A b _ hb hbk hrb
              show ((l.skip A a.tokens.length).get_token A).token.type ≠ .END
              rcases this with h | h <;> simp [h]) hi
          refine ⟨b.value A :: a.value A :: ns, ?_⟩
          have hskip : l.skip A ((Expr.bin op1 a b).tokens.length + 1) =
              ((l.skip A a.tokens.length).get_token A).skip A (b.tokens.length + 1) := by
            rw [hlen, Lexer.skip_succ_last, Lexer.skip_add, Lexer.skip_succ_last,
              Lexer.skip_succ_last]
          rw [hskip]
          rcases ha with ha | ha
          · subst ha
            simp only [Expr.tokens, List.length_nil, Lexer.skip_zero, Expr.value] at htail hopt ⊢
            refine expr_of_firstitem A _ _ _ (firstitem_sign A ⟨l, ns⟩ ?_) htail
            show l.token.type = .ADD ∨ l.token.type = .SUB
            rw [hopt.1]
            exact hadd
          · refine (descent A a ha).2.2 l ns _ hra hopt.2 ?_ htail
            have : (l.skip A a.tokens.length).token.type = op1.type := by rw [hopt.1]; rfl
            rw [this]
            rcases hadd with h | h
            · exact Or.inl h
            · exact Or.inr (Or.inl h)

/-- On the tokens of a well-formed tree `e`, an operator and `End`,
`match_expr` throws `missing operand` behind the operator, and `eval` prints
the diagnostic of this error and no value, unless the caret line is too long
to be built. -/
theorem operand_missing_at_end (A : Arith α) (e : Expr α) (op : BinOp) (c : Calc α)
    (hwf : e.wf = true) (hr : c.lexer.reads A (e.tokens ++ [.tok op.type, .tok .END])) :
    ∃ ns n, ∀ m, n ≤ m →
      Calc.match_expr A m { c with nums := [] } =
          some (.throw .missingOperand ⟨c.lexer.skip A (e.tokens.length + 1), ns⟩) ∧
        Calc.eval A m c =
          if stringMax < (c.lexer.skip A (e.tokens.length + 1)).index then
            some (.raise ⟨c.lexer.skip A (e.tokens.length + 1), ns⟩)
          else
            some (.ok () (Calc.reset_index (Calc.print
              ⟨c.lexer.skip A (e.tokens.length + 1), ns⟩
              (.syntactic (c.lexer.skip A (e.tokens.length + 1)).index .missingOperand)))) := by
  obtain ⟨ns, n, hn⟩ := expr_operand A e op c.lexer [] hwf hr
  refine ⟨ns, n, fun m hm => ?_⟩
  have hm1 := Calc.expr_le A hm hn
  have h0 : c.type ≠ .END :=
    Expr.head_ne_end A e c.lexer hwf ((Lexer.reads_append A _ _ _).1 hr).1
  exact ⟨hm1, eval_of_throw A c _ _ m h0 hm1⟩

/-- C10: the line `3 + ` is the expression `3`, the operator `+`, a space and
the end of the line.  In `"3 + \n4\n"` the lexer skips the newline behind the
space as white space (the slip of C5), so the tokens behind `+` are the number
4 of the next line and then `End`, not `End`: no `missing operand` is raised
and the program prints 7.  Without the space the line gives the diagnostic. -/
theorem c10_operand_from_next_line :
    (Expr.num 3 : Expr ℚ).wf = true ∧
    (Calc.init ratArith "3 + \n4\n".toList).lexer.reads ratArith
      [.num 3, .tok .ADD, .num 4, .tok .END] ∧
    output ratArith 50 "3 + \n4\n" = some [.value 7] ∧
    output ratArith 50 "2 * \n3\n" = some [.value 6] ∧
    output ratArith 50 "3 +\n4\n" = some [.syntactic 3 .missingOperand, .value 4] := by
  refine ⟨?_, ?_, ?_, ?_, ?_⟩ <;> decide!

/-! ## What one `eval` writes -/

theorem Lexer.get_char_cout (l : Lexer α) : l.get_char.cout = l.cout := by
  unfold Lexer.get_char
  split <;> rfl

theorem Lexer.skip_space_cout (n : Nat) : ∀ l : Lexer α, (Lexer.skip_space n l).cout = l.cout := by
  induction n with
  | zero => intro l; rfl
  | succ n ih =>
    intro l
    rw [Lexer.skip_space]
    split
    · rw [ih, Lexer.get_char_cout]
    · rfl

theorem Lexer.read_int_loop_cout (n : Nat) : ∀ (l : Lexer α) (val : Int) (cnt : Nat),
    (Lexer.read_int_loop n l val cnt).1.cout = l.cout := by
  induction n with
  | zero => intro l val cnt; rfl
  | succ n ih =>
    intro l val cnt
    rw [Lexer.read_int_loop]
    split
    · rw [ih, Lexer.get_char_cout]
    · rfl

theorem Lexer.read_int_cout (l : Lexer α) (val : Int) : (l.read_int val).1.cout = l.cout :=
  Lexer.read_int_loop_cout _ l val 0

theorem Lexer.match_exponent_cout (A : Arith α) (l : Lexer α) (val1 val2 : Int) (cnt : Nat) :
    (Lexer.match_exponent A l val1 val2 cnt).2.cout = l.cout := by
  unfold Lexer.match_exponent
  dsimp only
  split_ifs <;> simp [Lexer.get_char_cout, Lexer.read_int_cout]

theorem Lexer.match_number_cout (A : Arith α) (l : Lexer α) :
    (Lexer.match_number A l).2.cout = l.cout := by
  unfold Lexer.match_number
  dsimp only
  split_ifs <;> simp [Lexer.match_exponent_cout, Lexer.get_char_cout, Lexer.read_int_cout]

theorem Lexer.match_cout (A : Arith α) (l : Lexer α) : (l.match_ A).2.cout = l.cout := by
  unfold Lexer.match_
  dsimp only
  split
  · rfl
  · split_ifs <;> simp [Lexer.match_number_cout, Lexer.get_char_cout, Lexer.skip_space_cout]

theorem Lexer.abort_loop_cout (n : Nat) : ∀ l : Lexer α, (Lexer.abort_loop n l).cout = l.cout := by
  induction n with
  | zero => intro l; rfl
  | succ n ih =>
    intro l
    rw [Lexer.abort_loop]
    split
    · split <;> rw [ih]
    · rfl

theorem Lexer.abort_cout (l : Lexer α) (b : Bool) : (l.abort b).cout = l.cout := by
  unfold Lexer.abort
  exact Lexer.abort_loop_cout _ l

theorem Lexer.abort_token (l : Lexer α) (b : Bool) : (l.abort b).token = .tok .END := rfl

/-- A call of `get_token` writes nothing, or one lexical diagnostic and then
returns `End`. -/
theorem Lexer.get_token_cout (A : Arith α) (l : Lexer α) :
    (l.get_token A).cout = l.cout ∨
      ∃ i e, (l.get_token A).cout = l.cout ++ [.lexical i e] ∧
        (l.get_token A).token.type = .END := by
  unfold Lexer.get_token
  split
  · have hc := Lexer.match_cout A l
    split
    · rename_i t l1 heq
      left
      rw [heq] at hc
      exact hc
    · rename_i e l1 heq
      rw [heq] at hc
      split
      · left
        exact hc
      · right
        refine ⟨l1.index, e, ?_, ?_⟩
        · rw [Lexer.abort_cout]
          show l1.cout ++ _ = _
          rw [show l1.cout = l.cout from hc]
        · rw [Lexer.abort_token]; rfl
  · left; rfl

theorem quiet_refl (c : Calc α) : Quiet c c := ⟨fun h => ⟨rfl, h⟩, Or.inl rfl⟩

theorem quiet_trans {a b c : Calc α} (hab : Quiet a b) (hbc : Quiet b c) : Quiet a c := by
  refine ⟨fun h => ?_, ?_⟩
  · obtain ⟨h1, h2⟩ := hab.1 h
    obtain ⟨h3, h4⟩ := hbc.1 h2
    exact ⟨h3.trans h1, h4⟩
  · rcases hab.2 with h1 | ⟨i, e, h1, h2⟩
    · rcases hbc.2 with h3 | ⟨i, e, h3, h4⟩
      · exact Or.inl (h3.trans h1)
      · exact Or.inr ⟨i, e, by rw [h3, h1], h4⟩
    · obtain ⟨h3, h4⟩ := hbc.1 h2
      exact Or.inr ⟨i, e, by rw [h3, h1], h4⟩

theorem quiet_of_lexer {c c2 : Calc α} (h : c2.lexer = c.lexer) : Quiet c c2 := by
  have ht : c2.type = c.type := by unfold Calc.type; rw [h]
  exact ⟨fun h1 => ⟨by rw [h], by rw [ht]; exact h1⟩, Or.inl (by rw [h])⟩

theorem quiet_next (A : Arith α) (c : Calc α) (h : c.type ≠ .END) : Quiet c (c.next A) :=
  ⟨fun h1 => absurd h1 h, Lexer.get_token_cout A c.lexer⟩

theorem quiet_abort (c : Calc α) : Quiet c c.abort :=
  ⟨fun _ => ⟨Lexer.abort_cout _ _, rfl⟩, Or.inl (Lexer.abort_cout _ _)⟩

theorem resQuiet_trans {β : Type} {a b : Calc α} {r : Res α β} (hab : Quiet a b)
    (hbr : ResQuiet b r) : ResQuiet a r :=
  fun c2 h => quiet_trans hab (hbr c2 h)

theorem resQuiet_ok {β : Type} {c c2 : Calc α} (b : β) (h : Quiet c c2) :
    ResQuiet c (Res.ok b c2) := by
  intro c3 h3
  simp only [Res.state, Option.some.injEq] at h3
  rw [← h3]; exact h

theorem resQuiet_throw {β : Type} {c c2 : Calc α} (e : SyntaxError) (h : Quiet c c2) :
    ResQuiet c (Res.throw e c2 : Res α β) := by
  intro c3 h3
  simp only [Res.state, Option.some.injEq] at h3
  rw [← h3]; exact h

theorem resQuiet_undefined {β : Type} (c : Calc α) : ResQuiet c (Res.undefined : Res α β) := by
  intro c3 h3
  simp [Res.state] at h3

theorem resQuiet_raise {β : Type} (c c2 : Calc α) : ResQuiet c (Res.raise c2 : Res α β) := by
  intro c3 h3
  simp [Res.state] at h3

theorem resQuiet_state {β : Type} {c c2 : Calc α} {r : Res α β} (h : ResQuiet c r)
    (hs : r.state = some c2) : Quiet c c2 := h c2 hs

/-- Every method of the descent writes at most one lexical diagnostic, after
which the current token is `End`, and writes nothing when it starts at `End`. -/
theorem Calc.descent_quiet (A : Arith α) : ∀ n : Nat,
    (∀ c r, Calc.match_expr A n c = some r → ResQuiet c r) ∧
    (∀ c r, Calc.match_exprtail A n c = some r → ResQuiet c r) ∧
    (∀ c r, Calc.match_firstitem A n c = some r → ResQuiet c r) ∧
    (∀ c r, Calc.match_item A n c = some r → ResQuiet c r) ∧
    (∀ c r, Calc.match_itemtail A n c = some r → ResQuiet c r) ∧
    (∀ c r, Calc.match_factor A n c = some r → ResQuiet c r) := by
  intro n
  induction n with
  | zero =>
    refine ⟨?_, ?_, ?_, ?_, ?_, ?_⟩ <;> intro c r h <;> simp [Calc.match_expr, Calc.match_exprtail,
      Calc.match_firstitem, Calc.match_item, Calc.match_itemtail, Calc.match_factor] at h
  | succ n ih =>
    obtain ⟨ihE, ihET, ihFI, ihI, ihIT, ihF⟩ := ih
    refine ⟨?_, ?_, ?_, ?_, ?_, ?_⟩
    · intro c r h
      rw [Calc.match_expr] at h
      cases hfi : Calc.match_firstitem A n c with
      | none => simp [hfi] at h
      | some x =>
        rw [hfi] at h
        have hx := ihFI c x hfi
        cases x with
        | ok b c1 => exact resQuiet_trans (hx c1 rfl) (ihET c1 r h)
        | throw e c1 =>
          simp only [Option.some.injEq] at h
          rw [← h]; exact hx
        | undefined =>
          simp only [Option.some.injEq] at h
          rw [← h]; exact hx
        | raise cr =>
          simp only [Option.some.injEq] at h
          rw [← h]; exact hx
    · intro c r h
      rw [Calc.match_exprtail] at h
      dsimp only at h
      by_cases h1 : c.type = .ADD ∨ c.type = .SUB
      · rw [if_pos h1] at h
        have hne : c.type ≠ .END := by rcases h1 with h1 | h1 <;> simp [h1]
        have hq := quiet_next A c hne
        by_cases hr : (c.next A).lexer.raised = true
        · rw [if_pos hr] at h
          simp only [Option.some.injEq] at h
          rw [← h]; exact resQuiet_raise c _
        rw [if_neg hr] at h
        by_cases h2 : (c.next A).type = .END
        · rw [if_pos h2] at h
          simp only [Option.some.injEq] at h
          rw [← h]; exact resQuiet_throw _ hq
        · rw [if_neg h2] at h
          cases hi : Calc.match_item A n (c.next A) with
          | none => simp [hi] at h
          | some x =>
            rw [hi] at h
            have hx := ihI _ x hi
            cases x with
            | ok b c2 =>
              have hq2 := quiet_trans hq (hx c2 rfl)
              cases b with
              | false =>
                simp only [Option.some.injEq] at h
                rw [← h]; exact resQuiet_throw _ (quiet_trans hq2 (quiet_abort c2))
              | true =>
                dsimp only at h
                split at h
                · refine resQuiet_trans ?_ (ihET _ r h)
                  exact quiet_trans hq2 (quiet_of_lexer rfl)
                · simp only [Option.some.injEq] at h
                  rw [← h]; exact resQuiet_undefined c
            | throw e c2 =>
              simp only [Option.some.injEq] at h
              rw [← h]; exact resQuiet_throw _ (quiet_trans hq (hx c2 rfl))
            | undefined =>
              simp only [Option.some.injEq] at h
              rw [← h]; exact resQuiet_undefined c
            | raise cr =>
              simp only [Option.some.injEq] at h
              rw [← h]; exact resQuiet_raise c cr
      · rw [if_neg h1] at h
        split at h <;> simp only [Option.some.injEq] at h <;> rw [← h]
        · exact resQuiet_throw _ (quiet_refl c)
        · exact resQuiet_ok _ (quiet_refl c)
    · intro c r h
      rw [Calc.match_firstitem] at h
      cases hi : Calc.match_item A n c with
      | none => simp [hi] at h
      | some x =>
        rw [hi] at h
        have hx := ihI _ x hi
        cases x with
        | ok b c1 =>
          cases b with
          | true =>
            simp only [Option.some.injEq] at h
            rw [← h]; exact resQuiet_ok _ (hx c1 rfl)
          | false =>
            dsimp only at h
            split at h
            · simp only [Option.some.injEq] at h
              rw [← h]; exact resQuiet_ok _ (quiet_trans (hx c1 rfl) (quiet_of_lexer rfl))
            · split at h <;> simp only [Option.some.injEq] at h <;> rw [← h]
              · exact resQuiet_ok _ (hx c1 rfl)
              · exact resQuiet_throw _ (quiet_trans (hx c1 rfl) (quiet_abort c1))
        | throw e c1 =>
          simp only [Option.some.injEq] at h
          rw [← h]; exact resQuiet_throw _ (hx c1 rfl)
        | undefined =>
          simp only [Option.some.injEq] at h
          rw [← h]; exact resQuiet_undefined c
        | raise cr =>
          simp only [Option.some.injEq] at h
          rw [← h]; exact resQuiet_raise c cr
    · intro c r h
      rw [Calc.match_item] at h
      cases hf : Calc.match_factor A n c with
      | none => simp [hf] at h
      | some x =>
        rw [hf] at h
        have hx := ihF _ x hf
        cases x with
        | ok b c1 =>
          cases b with
          | false =>
            simp only [Option.some.injEq] at h
            rw [← h]; exact hx
          | true =>
            dsimp only at h
            cases hit : Calc.match_itemtail A n c1 with
            | none => simp [hit] at h
            | some y =>
              rw [hit] at h
              have hy := ihIT _ y hit
              cases y with
              | ok b2 c2 =>
                simp only [Option.some.injEq] at h
                rw [← h]; exact resQuiet_ok _ (quiet_trans (hx c1 rfl) (hy c2 rfl))
              | throw e c2 =>
                simp only [Option.some.injEq] at h
                rw [← h]; exact resQuiet_throw _ (quiet_trans (hx c1 rfl) (hy c2 rfl))
              | undefined =>
                simp only [Option.some.injEq] at h
                rw [← h]; exact resQuiet_undefined c
              | raise cr =>
                simp only [Option.some.injEq] at h
                rw [← h]; exact resQuiet_raise c cr
        | throw e c1 =>
          simp only [Option.some.injEq] at h
          rw [← h]; exact hx
        | undefined =>
          simp only [Option.some.injEq] at h
          rw [← h]; exact hx
        | raise cr =>
          simp only [Option.some.injEq] at h
          rw [← h]; exact hx
    · intro c r h
      rw [Calc.match_itemtail] at h
      dsimp only at h
      by_cases h1 : c.type = .MUL ∨ c.type = .DIV
      · rw [if_pos h1] at h
        have hne : c.type ≠ .END := by rcases h1 with h1 | h1 <;> simp [h1]
        have hq := quiet_next A c hne
        by_cases hr : (c.next A).lexer.raised = true
        · rw [if_pos hr] at h
          simp only [Option.some.injEq] at h
          rw [← h]; exact resQuiet_raise c _
        rw [if_neg hr] at h
        by_cases h2 : (c.next A).type = .END
        · rw [if_pos h2] at h
          simp only [Option.some.injEq] at h
          rw [← h]; exact resQuiet_throw _ hq
        · rw [if_neg h2] at h
          cases hi : Calc.match_factor A n (c.next A) with
          | none => simp [hi] at h
          | some x =>
            rw [hi] at h
            have hx := ihF _ x hi
            cases x with
            | ok b c2 =>
              have hq2 := quiet_trans hq (hx c2 rfl)
              cases b with
              | false =>
                simp only [Option.some.injEq] at h
                rw [← h]; exact resQuiet_throw _ (quiet_trans hq2 (quiet_abort c2))
              | true =>
                dsimp only at h
                split at h
                · refine resQuiet_trans ?_ (ihIT _ r h)
                  exact quiet_trans hq2 (quiet_of_lexer rfl)
                · simp only [Option.some.injEq] at h
                  rw [← h]; exact resQuiet_undefined c
            | throw e c2 =>
              simp only [Option.some.injEq] at h
              rw [← h]; exact resQuiet_throw _ (quiet_trans hq (hx c2 rfl))
            | undefined =>
              simp only [Option.some.injEq] at h
              rw [← h]; exact resQuiet_undefined c
            | raise cr =>
              simp only [Option.some.injEq] at h
              rw [← h]; exact resQuiet_raise c cr
      · rw [if_neg h1] at h
        split at h <;> simp only [Option.some.injEq] at h <;> rw [← h]
        · exact resQuiet_throw _ (quiet_refl c)
        · exact resQuiet_ok _ (quiet_refl c)
    · intro c r h
      rw [Calc.match_factor] at h
      dsimp only at h
      by_cases h1 : c.type = .LPAREN
      · rw [if_pos h1] at h
        have hq := quiet_next A c (by simp [h1])
        by_cases hr : (c.next A).lexer.raised = true
        · rw [if_pos hr] at h
          simp only [Option.some.injEq] at h
          rw [← h]; exact resQuiet_raise c _
        rw [if_neg hr] at h
        by_cases h2 : (c.next A).type = .END
        · rw [if_pos h2] at h
          simp only [Option.some.injEq] at h
          rw [← h]; exact resQuiet_throw _ hq
        · rw [if_neg h2] at h
          cases he : Calc.match_expr A n (c.next A) with
          | none => simp [he] at h
          | some x =>
            rw [he] at h
            have hx := ihE _ x he
            cases x with
            | ok b c2 =>
              have hq2 := quiet_trans hq (hx c2 rfl)
              dsimp only at h
              by_cases h3 : c2.type = .END
              · rw [if_pos h3] at h
                simp only [Option.some.injEq] at h
                rw [← h]; exact resQuiet_throw _ hq2
              · rw [if_neg h3] at h
                by_cases hr2 : (c2.next A).lexer.raised = true
                · have hr3 : r = .raise (c2.next A) := by
                    split at h <;> simp only [Option.some.injEq] at h <;> exact h.symm
                  rw [hr3]; exact resQuiet_raise c _
                · split at h <;> simp only [Option.some.injEq] at h <;> rw [← h]
                  · exact resQuiet_ok _ (quiet_trans hq2 (quiet_next A c2 h3))
                  · exact resQuiet_throw _ (quiet_trans hq2 (quiet_next A c2 h3))
            | throw e c2 =>
              simp only [Option.some.injEq] at h
              rw [← h]; exact resQuiet_throw _ (quiet_trans hq (hx c2 rfl))
            | undefined =>
              simp only [Option.some.injEq] at h
              rw [← h]; exact resQuiet_undefined c
            | raise cr =>
              simp only [Option.some.injEq] at h
              rw [← h]; exact resQuiet_raise c cr
      · rw [if_neg h1] at h
        by_cases h2 : c.type = .NUM
        · rw [if_pos h2] at h
          by_cases hr : (Calc.next A { c with nums := c.lexer.token.val A :: c.nums }).lexer.raised
              = true
          · rw [if_pos hr] at h
            simp only [Option.some.injEq] at h
            rw [← h]; exact resQuiet_raise c _
          rw [if_neg hr] at h
          simp only [Option.some.injEq] at h
          rw [← h]
          refine resQuiet_ok _ (quiet_trans (quiet_of_lexer rfl)
            (quiet_next A { c with nums := c.lexer.token.val A :: c.nums } ?_))
          show c.type ≠ .END
          simp [h2]
        · rw [if_neg h2] at h
          simp only [Option.some.injEq] at h
          rw [← h]; exact resQuiet_ok _ (quiet_refl c)

/-- From the start of `eval` to the end of its `match_expr` at most one lexical
diagnostic is written. -/
theorem eval_lexical (A : Arith α) (c c1 c3 : Calc α)
    (h1 : c1 = if (Calc.mk c.lexer ([] : List α)).type = .END
      then Calc.next A (Calc.mk c.lexer []) else Calc.mk c.lexer [])
    (h3 : Quiet c1 c3) :
    ∃ lex : List (Output α), c3.lexer.cout = c.lexer.cout ++ lex ∧ lex.length ≤ 1 ∧
      ∀ o ∈ lex, ∃ i e, o = .lexical i e := by
  have hgrow : c1.lexer.cout = c.lexer.cout ∨
      ∃ i e, c1.lexer.cout = c.lexer.cout ++ [.lexical i e] ∧ c1.type = .END := by
    by_cases h : (Calc.mk c.lexer ([] : List α)).type = .END
    · rw [if_pos h] at h1
      rw [h1]
      exact Lexer.get_token_cout A c.lexer
    · rw [if_neg h] at h1
      rw [h1]
      exact Or.inl rfl
  rcases hgrow with hg | ⟨i, e, hg, hty⟩
  · rcases h3.2 with h | ⟨i, e, h, _⟩
    · exact ⟨[], by rw [h, hg]; simp, by simp, by simp⟩
    · exact ⟨[.lexical i e], by rw [h, hg], by simp, by simp⟩
  · obtain ⟨h, _⟩ := h3.1 hty
    exact ⟨[.lexical i e], by rw [h, hg], by simp, by simp⟩

/-- C6, as amended: every call of `eval` that returns has appended to the
output at most one lexical diagnostic, and after it at most one value line or
one syntax diagnostic, never both. -/
theorem c6_one_eval_output (A : Arith α) (n : Nat) (c c2 : Calc α)
    (h : Calc.eval A n c = some (.ok () c2)) :
    ∃ lex out : List (Output α), c2.lexer.cout = c.lexer.cout ++ lex ++ out ∧
      lex.length ≤ 1 ∧ (∀ o ∈ lex, ∃ i e, o = .lexical i e) ∧
      out.length ≤ 1 ∧ (∀ o ∈ out, (∃ v, o = .value v) ∨ ∃ i e, o = .syntactic i e) := by
  unfold Calc.eval at h
  dsimp only at h
  by_cases hcond : (Calc.mk c.lexer ([] : List α)).type = .END ∧
      (Calc.next A (Calc.mk c.lexer ([] : List α))).lexer.raised = true
  · rw [if_pos hcond] at h
    simp at h
  rw [if_neg hcond] at h
  cases hm : Calc.match_expr A n (if (Calc.mk c.lexer ([] : List α)).type = .END
      then Calc.next A (Calc.mk c.lexer []) else Calc.mk c.lexer []) with
  | none => simp [hm] at h
  | some r =>
    rw [hm] at h
    have hq := (Calc.descent_quiet A n).1 _ r hm
    cases r with
    | undefined => simp at h
    | raise c3 => simp at h
    | ok b c3 =>
      obtain ⟨lex, hlex, hlen, hall⟩ := eval_lexical A c _ c3 rfl (hq c3 rfl)
      dsimp only at h
      split at h <;> simp only [Option.some.injEq, Res.ok.injEq, true_and] at h <;> rw [← h]
      · exact ⟨lex, [], by simp [Calc.reset_index, hlex], hlen, hall, by simp, by simp⟩
      · rename_i top _ _
        exact ⟨lex, [.value top], by simp [Calc.reset_index, Calc.print, hlex], hlen, hall,
          by simp, by simp⟩
    | throw e c3 =>
      obtain ⟨lex, hlex, hlen, hall⟩ := eval_lexical A c _ c3 rfl (hq c3 rfl)
      dsimp only at h
      by_cases hi : stringMax < c3.lexer.index
      · rw [if_pos hi] at h
        simp at h
      rw [if_neg hi] at h
      simp only [Option.some.injEq, Res.ok.injEq, true_and] at h
      rw [← h]
      exact ⟨lex, [.syntactic c3.lexer.index e], by simp [Calc.reset_index, Calc.print, hlex],
        hlen, hall, by simp, by simp⟩

/-- Counterexample to C6: the one line `3 + $` yields two diagnostics, a
lexical one for `$` and the syntax error `missing operand`; the one line
`2 + 3 $` yields a diagnostic and a value. -/
theorem c6_two_diagnostics :
    output ratArith 50 "3 + $\n" =
        some [.lexical 4 (.invalidToken 36), .syntactic 4 .missingOperand] ∧
      output ratArith 50 "2 + 3 $\n" = some [.lexical 6 (.invalidToken 36), .value 5] := by
  refine ⟨?_, ?_⟩ <;> decide!

/-- Witness of C6: the `eval` of the line `3 + $` writes one lexical and one
syntax diagnostic. -/
theorem c6_one_eval_output_witness :
    Calc.eval ratArith 50 (Calc.init ratArith "3 + $\n".toList) =
        some (.ok () (evalState ratArith 50 (Calc.init ratArith "3 + $\n".toList))) ∧
      (evalState ratArith 50 (Calc.init ratArith "3 + $\n".toList)).lexer.cout =
        [.lexical 4 (.invalidToken 36), .syntactic 4 .missingOperand] ∧
      ∃ lex out : List (Output ℚ),
        (evalState ratArith 50 (Calc.init ratArith "3 + $\n".toList)).lexer.cout =
          (Calc.init ratArith "3 + $\n".toList).lexer.cout ++ lex ++ out ∧
        lex.length ≤ 1 ∧ (∀ o ∈ lex, ∃ i e, o = .lexical i e) ∧
        out.length ≤ 1 ∧ (∀ o ∈ out, (∃ v, o = .value v) ∨ ∃ i e, o = .syntactic i e) :=
  ⟨by decide!, by decide!,
    c6_one_eval_output ratArith 50 (Calc.init ratArith "3 + $\n".toList)
      (evalState ratArith 50 (Calc.init ratArith "3 + $\n".toList)) (by decide!)⟩

/-! ## The stack and the token at the end of a method -/

theorem rparenAtEnd_throw {β : Type} (e : SyntaxError) (c2 : Calc α)
    (h : e = .missingRParen → c2.type = .END) : (Res.throw e c2 : Res α β).rparenAtEnd := by
  intro c3 h3
  simp only [Res.throw.injEq] at h3
  rw [← h3.2]
  exact h h3.1

theorem rparenAtEnd_cast {β γ : Type} {e : SyntaxError} {c2 : Calc α}
    (h : (Res.throw e c2 : Res α β).rparenAtEnd) : (Res.throw e c2 : Res α γ).rparenAtEnd :=
  rparenAtEnd_throw e c2 (fun he => h c2 (by rw [he]))

theorem rparenAtEnd_ok {β : Type} (b : β) (c2 : Calc α) : (Res.ok b c2 : Res α β).rparenAtEnd := by
  intro c3 h3
  simp at h3

theorem pushes_throw (c : Calc α) {e : SyntaxError} {c2 : Calc α}
    (h : e = .missingRParen → c2.type = .END) : (Res.throw e c2 : Res α Bool).pushes c :=
  ⟨by simp, rparenAtEnd_throw e c2 h, by simp, by simp⟩

theorem folds_throw (c : Calc α) {e : SyntaxError} {c2 : Calc α}
    (h : e = .missingRParen → c2.type = .END) : (Res.throw e c2 : Res α Unit).folds c :=
  ⟨by simp, rparenAtEnd_throw e c2 h, by simp⟩

theorem folds_ok (c : Calc α) : (Res.ok () c : Res α Unit).folds c :=
  ⟨by simp, rparenAtEnd_ok _ _, by
    intro c2 h
    simp only [Res.ok.injEq, true_and] at h
    rw [h]
    exact ⟨rfl, rfl⟩⟩

theorem first_throw (c : Calc α) {e : SyntaxError} {c2 : Calc α}
    (h : e = .missingRParen → c2.type = .END) : (Res.throw e c2 : Res α Unit).first c :=
  ⟨by simp, rparenAtEnd_throw e c2 h, by simp⟩

theorem whole_throw (c : Calc α) {e : SyntaxError} {c2 : Calc α}
    (h : e = .missingRParen → c2.type = .END) : (Res.throw e c2 : Res α Unit).whole c :=
  ⟨by simp, rparenAtEnd_throw e c2 h, by simp⟩

theorem pushes_raise (c c2 : Calc α) : (Res.raise c2 : Res α Bool).pushes c :=
  ⟨by simp, by intro c3 h3; simp at h3, by simp, by simp⟩

theorem folds_raise (c c2 : Calc α) : (Res.raise c2 : Res α Unit).folds c :=
  ⟨by simp, by intro c3 h3; simp at h3, by simp⟩

theorem first_raise (c c2 : Calc α) : (Res.raise c2 : Res α Unit).first c :=
  ⟨by simp, by intro c3 h3; simp at h3, by simp⟩

theorem whole_raise (c c2 : Calc α) : (Res.raise c2 : Res α Unit).whole c :=
  ⟨by simp, by intro c3 h3; simp at h3, by simp⟩

/-- A list of a given positive length and tail is a head in front of the tail. -/
theorem list_of_tail {xs t : List α} (hl : xs.length = t.length + 1) (ht : xs.tail = t) :
    ∃ v, xs = v :: t := by
  cases xs with
  | nil => simp at hl
  | cons v ys => exact ⟨v, by simp only [List.tail_cons] at ht; rw [ht]⟩

/-- The stack discipline of the descent, for every token stream: no method
reads or pops an empty stack, `match_factor` and `match_item` push one value
when they return `true`, the loops keep the depth, `match_expr` returns only at
`)` or `End`, and `missing ')'` is thrown only at `End`. -/
theorem Calc.descent_stack (A : Arith α) : ∀ n : Nat,
    (∀ c r, Calc.match_expr A n c = some r → r.whole c) ∧
    (∀ c r, Calc.match_exprtail A n c = some r →
      (c.nums ≠ [] ∨ (c.type ≠ .ADD ∧ c.type ≠ .SUB)) →
      r.folds c ∧ ∀ c2, r = .ok () c2 →
        (c2.type = .RPAREN ∨ c2.type = .END) ∧ (c.type ≠ .ADD ∧ c.type ≠ .SUB → c2 = c)) ∧
    (∀ c r, Calc.match_firstitem A n c = some r → r.first c) ∧
    (∀ c r, Calc.match_item A n c = some r → r.pushes c) ∧
    (∀ c r, Calc.match_itemtail A n c = some r → c.nums ≠ [] → r.folds c) ∧
    (∀ c r, Calc.match_factor A n c = some r → r.pushes c) := by
  intro n
  induction n with
  | zero =>
    refine ⟨?_, ?_, ?_, ?_, ?_, ?_⟩ <;> intro c r h <;> simp [Calc.match_expr, Calc.match_exprtail,
      Calc.match_firstitem, Calc.match_item, Calc.match_itemtail, Calc.match_factor] at h
  | succ n ih =>
    obtain ⟨ihE, ihET, ihFI, ihI, ihIT, ihF⟩ := ih
    refine ⟨?_, ?_, ?_, ?_, ?_, ?_⟩
    · -- match_expr
      intro c r h
      rw [Calc.match_expr] at h
      cases hfi : Calc.match_firstitem A n c with
      | none => simp [hfi] at h
      | some x =>
        rw [hfi] at h
        obtain ⟨hx1, hx2, hx3⟩ := ihFI c x hfi
        cases x with
        | undefined => exact absurd rfl hx1
        | raise cr =>
          simp only [Option.some.injEq] at h
          subst h
          exact whole_raise c cr
        | throw e c1 =>
          simp only [Option.some.injEq] at h
          subst h
          exact whole_throw c (fun he => hx2 c1 (by rw [he]))
        | ok b c1 =>
          have hpre : c1.nums ≠ [] ∨ (c1.type ≠ .ADD ∧ c1.type ≠ .SUB) := by
            rcases hx3 c1 rfl with ⟨h1, h2⟩ | ⟨_, v, h2⟩
            · right; rw [h2, h1]; simp
            · left; rw [h2]; simp
          obtain ⟨⟨hr1, hr2, hr3⟩, hr4⟩ := ihET c1 r h hpre
          refine ⟨hr1, hr2, fun c2 hc2 => ⟨(hr4 c2 hc2).1, ?_⟩⟩
          obtain ⟨hl, ht⟩ := hr3 c2 hc2
          rcases hx3 c1 rfl with ⟨h1, h2⟩ | ⟨h1, v, h2⟩
          · left
            refine ⟨h1, ?_⟩
            subst h2
            rw [(hr4 c2 hc2).2 (by rw [h1]; simp)]
          · right
            refine ⟨h1, ?_⟩
            rw [h2] at hl ht
            exact list_of_tail (by simpa using hl) (by simpa using ht)
    · -- match_exprtail
      intro c r h hpre
      rw [Calc.match_exprtail] at h
      dsimp only at h
      by_cases h1 : c.type = .ADD ∨ c.type = .SUB
      · rw [if_pos h1] at h
        have hnums : c.nums ≠ [] := by
          rcases hpre with hp | ⟨hp1, hp2⟩
          · exact hp
          · rcases h1 with h1 | h1
            · exact absurd h1 hp1
            · exact absurd h1 hp2
        have hno : ¬ (c.type ≠ .ADD ∧ c.type ≠ .SUB) := by
          rintro ⟨hp1, hp2⟩
          rcases h1 with h1 | h1
          · exact hp1 h1
          · exact hp2 h1
        by_cases hq : (c.next A).lexer.raised = true
        · rw [if_pos hq] at h
          simp only [Option.some.injEq] at h
          subst h
          exact ⟨folds_raise c _, by simp⟩
        rw [if_neg hq] at h
        by_cases h2 : (c.next A).type = .END
        · rw [if_pos h2] at h
          simp only [Option.some.injEq] at h
          subst h
          exact ⟨folds_throw c (by simp), by simp⟩
        · rw [if_neg h2] at h
          cases hi : Calc.match_item A n (c.next A) with
          | none => simp [hi] at h
          | some x =>
            rw [hi] at h
            obtain ⟨hx1, hx2, hx3, hx4⟩ := ihI _ x hi
            cases x with
            | undefined => exact absurd rfl hx1
            | raise cr =>
              simp only [Option.some.injEq] at h
              subst h
              exact ⟨folds_raise c cr, by simp⟩
            | throw e c2 =>
              simp only [Option.some.injEq] at h
              subst h
              exact ⟨folds_throw c (fun he => hx2 c2 (by rw [he])), by simp⟩
            | ok b c2 =>
              cases b with
              | false =>
                simp only [Option.some.injEq] at h
                subst h
                exact ⟨folds_throw c (by simp), by simp⟩
              | true =>
                obtain ⟨_, v, hv⟩ := hx3 c2 rfl
                obtain ⟨top, rest, htop⟩ := List.exists_cons_of_ne_nil hnums
                have hc2 : c2.nums = v :: top :: rest := by
                  rw [hv]; show v :: c.nums = _; rw [htop]
                dsimp only at h
                rw [hc2] at h
                dsimp only at h
                obtain ⟨⟨hr1, hr2, hr3⟩, hr4⟩ := ihET _ r h (Or.inl (by simp))
                refine ⟨⟨hr1, hr2, fun c3 hc3 => ?_⟩, fun c3 hc3 => ⟨(hr4 c3 hc3).1,
                  fun hp => absurd hp hno⟩⟩
                obtain ⟨hl, ht⟩ := hr3 c3 hc3
                rw [htop]
                exact ⟨by simpa using hl, by simpa using ht⟩
      · rw [if_neg h1] at h
        split at h <;> simp only [Option.some.injEq] at h <;> subst h
        · exact ⟨folds_throw c (by simp), by simp⟩
        · rename_i hstop
          refine ⟨folds_ok c, fun c2 hc2 => ?_⟩
          simp only [Res.ok.injEq, true_and] at hc2
          subst hc2
          refine ⟨?_, fun _ => rfl⟩
          by_contra hcon
          exact hstop ⟨fun h => hcon (Or.inl h), fun h => hcon (Or.inr h)⟩
    · -- match_firstitem
      intro c r h
      rw [Calc.match_firstitem] at h
      cases hi : Calc.match_item A n c with
      | none => simp [hi] at h
      | some x =>
        rw [hi] at h
        obtain ⟨hx1, hx2, hx3, hx4⟩ := ihI _ x hi
        cases x with
        | undefined => exact absurd rfl hx1
        | raise cr =>
          simp only [Option.some.injEq] at h
          subst h
          exact first_raise c cr
        | throw e c1 =>
          simp only [Option.some.injEq] at h
          subst h
          exact first_throw c (fun he => hx2 c1 (by rw [he]))
        | ok b c1 =>
          cases b with
          | true =>
            simp only [Option.some.injEq] at h
            subst h
            refine ⟨by simp, rparenAtEnd_ok _ _, fun c2 hc2 => ?_⟩
            simp only [Res.ok.injEq, true_and] at hc2
            subst hc2
            exact Or.inr (hx3 c1 rfl)
          | false =>
            have hc1 := hx4 c1 rfl
            subst hc1
            dsimp only at h
            split at h
            · rename_i hsign
              simp only [Option.some.injEq] at h
              subst h
              refine ⟨by simp, rparenAtEnd_ok _ _, fun c2 hc2 => ?_⟩
              simp only [Res.ok.injEq, true_and] at hc2
              subst hc2
              right
              refine ⟨?_, A.ofInt 0, rfl⟩
              rcases hsign with hs | hs <;> simp [hs]
            · split at h <;> simp only [Option.some.injEq] at h <;> subst h
              · rename_i hend
                refine ⟨by simp, rparenAtEnd_ok _ _, fun c2 hc2 => ?_⟩
                simp only [Res.ok.injEq, true_and] at hc2
                exact Or.inl ⟨hend, hc2.symm⟩
              · exact first_throw _ (by simp)
    · -- match_item
      intro c r h
      rw [Calc.match_item] at h
      cases hf : Calc.match_factor A n c with
      | none => simp [hf] at h
      | some x =>
        rw [hf] at h
        have hx := ihF _ x hf
        obtain ⟨hx1, hx2, hx3, hx4⟩ := hx
        cases x with
        | undefined => exact absurd rfl hx1
        | raise cr =>
          simp only [Option.some.injEq] at h
          subst h
          exact pushes_raise c cr
        | throw e c1 =>
          simp only [Option.some.injEq] at h
          subst h
          exact pushes_throw c (fun he => hx2 c1 (by rw [he]))
        | ok b c1 =>
          cases b with
          | false =>
            simp only [Option.some.injEq] at h
            subst h
            exact ⟨hx1, hx2, hx3, hx4⟩
          | true =>
            obtain ⟨hne, v, hv⟩ := hx3 c1 rfl
            dsimp only at h
            cases hit : Calc.match_itemtail A n c1 with
            | none => simp [hit] at h
            | some y =>
              rw [hit] at h
              obtain ⟨hy1, hy2, hy3⟩ := ihIT _ y hit (by rw [hv]; simp)
              cases y with
              | undefined => exact absurd rfl hy1
              | raise cr =>
                simp only [Option.some.injEq] at h
                subst h
                exact pushes_raise c cr
              | throw e c2 =>
                simp only [Option.some.injEq] at h
                subst h
                exact pushes_throw c (fun he => hy2 c2 (by rw [he]))
              | ok b2 c2 =>
                simp only [Option.some.injEq] at h
                subst h
                refine ⟨by simp, rparenAtEnd_ok _ _, fun c3 hc3 => ?_, by simp⟩
                simp only [Res.ok.injEq, true_and] at hc3
                subst hc3
                obtain ⟨hl, ht⟩ := hy3 c2 rfl
                rw [hv] at hl ht
                exact ⟨hne, list_of_tail (by simpa using hl) (by simpa using ht)⟩
    · -- match_itemtail
      intro c r h hnums
      rw [Calc.match_itemtail] at h
      dsimp only at h
      by_cases h1 : c.type = .MUL ∨ c.type = .DIV
      · rw [if_pos h1] at h
        by_cases hq : (c.next A).lexer.raised = true
        · rw [if_pos hq] at h
          simp only [Option.some.injEq] at h
          subst h
          exact folds_raise c _
        rw [if_neg hq] at h
        by_cases h2 : (c.next A).type = .END
        · rw [if_pos h2] at h
          simp only [Option.some.injEq] at h
          subst h
          exact folds_throw c (by simp)
        · rw [if_neg h2] at h
          cases hi : Calc.match_factor A n (c.next A) with
          | none => simp [hi] at h
          | some x =>
            rw [hi] at h
            obtain ⟨hx1, hx2, hx3, hx4⟩ := ihF _ x hi
            cases x with
            | undefined => exact absurd rfl hx1
            | raise cr =>
              simp only [Option.some.injEq] at h
              subst h
              exact folds_raise c cr
            | throw e c2 =>
              simp only [Option.some.injEq] at h
              subst h
              exact folds_throw c (fun he => hx2 c2 (by rw [he]))
            | ok b c2 =>
              cases b with
              | false =>
                simp only [Option.some.injEq] at h
                subst h
                exact folds_throw c (by simp)
              | true =>
                obtain ⟨_, v, hv⟩ := hx3 c2 rfl
                obtain ⟨top, rest, htop⟩ := List.exists_cons_of_ne_nil hnums
                have hc2 : c2.nums = v :: top :: rest := by
                  rw [hv]; show v :: c.nums = _; rw [htop]
                dsimp only at h
                rw [hc2] at h
                dsimp only at h
                obtain ⟨hr1, hr2, hr3⟩ := ihIT _ r h (by simp)
                refine ⟨hr1, hr2, fun c3 hc3 => ?_⟩
                obtain ⟨hl, ht⟩ := hr3 c3 hc3
                rw [htop]
                exact ⟨by simpa using hl, by simpa using ht⟩
      · rw [if_neg h1] at h
        split at h <;> simp only [Option.some.injEq] at h <;> subst h
        · exact folds_throw c (by simp)
        · exact folds_ok c
    · -- match_factor
      intro c r h
      rw [Calc.match_factor] at h
      dsimp only at h
      by_cases h1 : c.type = .LPAREN
      · rw [if_pos h1] at h
        by_cases hq : (c.next A).lexer.raised = true
        · rw [if_pos hq] at h
          simp only [Option.some.injEq] at h
          subst h
          exact pushes_raise c _
        rw [if_neg hq] at h
        by_cases h2 : (c.next A).type = .END
        · rw [if_pos h2] at h
          simp only [Option.some.injEq] at h
          subst h
          exact pushes_throw c (fun _ => h2)
        · rw [if_neg h2] at h
          cases he : Calc.match_expr A n (c.next A) with
          | none => simp [he] at h
          | some x =>
            rw [he] at h
            obtain ⟨hx1, hx2, hx3⟩ := ihE _ x he
            cases x with
            | undefined => exact absurd rfl hx1
            | raise cr =>
              simp only [Option.some.injEq] at h
              subst h
              exact pushes_raise c cr
            | throw e c2 =>
              simp only [Option.some.injEq] at h
              subst h
              exact pushes_throw c (fun he => hx2 c2 (by rw [he]))
            | ok b c2 =>
              obtain ⟨hty, hst⟩ := hx3 c2 rfl
              dsimp only at h
              by_cases h3 : c2.type = .END
              · rw [if_pos h3] at h
                simp only [Option.some.injEq] at h
                subst h
                exact pushes_throw c (fun _ => h3)
              · rw [if_neg h3] at h
                have h4 : c2.type = .RPAREN := by
                  rcases hty with h | h
                  · exact h
                  · exact absurd h h3
                rw [if_pos h4] at h
                by_cases hq2 : (c2.next A).lexer.raised = true
                · rw [if_pos hq2] at h
                  simp only [Option.some.injEq] at h
                  subst h
                  exact pushes_raise c _
                rw [if_neg hq2] at h
                simp only [Option.some.injEq] at h
                subst h
                refine ⟨by simp, rparenAtEnd_ok _ _, fun c3 hc3 => ?_, by simp⟩
                simp only [Res.ok.injEq, true_and] at hc3
                subst hc3
                refine ⟨by rw [h1]; simp, ?_⟩
                rcases hst with ⟨h5, _⟩ | ⟨_, v, hv⟩
                · exact absurd h5 h2
                · exact ⟨v, hv⟩
      · rw [if_neg h1] at h
        by_cases h2 : c.type = .NUM
        · rw [if_pos h2] at h
          by_cases hq : (Calc.next A { c with nums := c.lexer.token.val A :: c.nums }).lexer.raised
              = true
          · rw [if_pos hq] at h
            simp only [Option.some.injEq] at h
            subst h
            exact pushes_raise c _
          rw [if_neg hq] at h
          simp only [Option.some.injEq] at h
          subst h
          refine ⟨by simp, rparenAtEnd_ok _ _, fun c3 hc3 => ?_, by simp⟩
          simp only [Res.ok.injEq, true_and] at hc3
          subst hc3
          exact ⟨by rw [h2]; simp, c.lexer.token.val A, rfl⟩
        · rw [if_neg h2] at h
          simp only [Option.some.injEq] at h
          subst h
          refine ⟨by simp, rparenAtEnd_ok _ _, by simp, fun c3 hc3 => ?_⟩
          simp only [Res.ok.injEq, true_and] at hc3
          exact hc3.symm

/-- The method `eval`, written with `Calc.start`. -/
theorem Calc.eval_start (A : Arith α) (n : Nat) (c : Calc α) :
    Calc.eval A n c =
      if (Calc.mk c.lexer ([] : List α)).type = .END ∧
          (Calc.next A (Calc.mk c.lexer ([] : List α))).lexer.raised = true then
        some (.raise (Calc.next A (Calc.mk c.lexer ([] : List α))))
      else
        match Calc.match_expr A n (Calc.start A c) with
        | none => none
        | some .undefined => some .undefined
        | some (.raise c2) => some (.raise c2)
        | some (.ok _ c2) =>
          match c2.nums with
          | [] => some (.ok () c2.reset_index)
          | top :: _ => some (.ok () (c2.print (.value top)).reset_index)
        | some (.throw e c2) =>
          if stringMax < c2.lexer.index then some (.raise c2)
          else some (.ok () (c2.print (.syntactic c2.lexer.index e)).reset_index) := rfl

theorem Calc.start_nums (A : Arith α) (c : Calc α) : (Calc.start A c).nums = [] := by
  unfold Calc.start
  split <;> rfl

/-- C18: whenever the `match_expr` called by `eval` returns without throwing,
the stack, emptied at the start of `eval`, holds no value if the first token of
the line was `End` and exactly one value otherwise.  Every application of a
binary operator in `match_itemtail` and `match_exprtail` (behind a call of
`get_token` that returned) replaces the two topmost values by one, so it lowers
the depth by exactly one, and each loop returns with the depth at which it was
entered. -/
theorem c18_stack_depth (A : Arith α) (n : Nat) (c c2 : Calc α)
    (h : Calc.match_expr A n (Calc.start A c) = some (.ok () c2)) :
    c2.nums.length = (if (Calc.start A c).type = .END then 0 else 1) ∧
    (∀ (k : Nat) (d d2 : Calc α) (tmp top : α) (rest : List α),
      (d.type = .MUL ∨ d.type = .DIV) → (d.next A).lexer.raised = false →
      (d.next A).type ≠ .END →
      Calc.match_factor A k (d.next A) = some (.ok true d2) → d2.nums = tmp :: top :: rest →
      Calc.match_itemtail A (k + 1) d = Calc.match_itemtail A k
          { d2 with nums := (if d.type = .MUL then A.mul top tmp else A.div top tmp) :: rest } ∧
        ((if d.type = .MUL then A.mul top tmp else A.div top tmp) :: rest).length + 1 =
          d2.nums.length) ∧
    (∀ (k : Nat) (d d2 : Calc α) (tmp top : α) (rest : List α),
      (d.type = .ADD ∨ d.type = .SUB) → (d.next A).lexer.raised = false →
      (d.next A).type ≠ .END →
      Calc.match_item A k (d.next A) = some (.ok true d2) → d2.nums = tmp :: top :: rest →
      Calc.match_exprtail A (k + 1) d = Calc.match_exprtail A k
          { d2 with nums := (if d.type = .ADD then A.add top tmp else A.sub top tmp) :: rest } ∧
        ((if d.type = .ADD then A.add top tmp else A.sub top tmp) :: rest).length + 1 =
          d2.nums.length) ∧
    (∀ (k : Nat) (d d2 : Calc α), d.nums ≠ [] →
      (Calc.match_itemtail A k d = some (.ok () d2) ∨
        Calc.match_exprtail A k d = some (.ok () d2)) →
      d2.nums.length = d.nums.length) := by
  refine ⟨?_, ?_, ?_, ?_⟩
  · obtain ⟨_, _, h3⟩ := (Calc.descent_stack A n).1 _ _ h
    rcases (h3 c2 rfl).2 with ⟨h1, h2⟩ | ⟨h1, v, h2⟩
    · rw [if_pos h1, h2, Calc.start_nums]; rfl
    · rw [if_neg h1, h2, Calc.start_nums]; rfl
  · intro k d d2 tmp top rest h1 hq h2 hf hs
    have hq1 : ¬ (d.next A).lexer.raised = true := by rw [hq]; simp
    refine ⟨?_, by rw [hs]; rfl⟩
    rw [Calc.match_itemtail]
    dsimp only
    rw [if_pos h1, if_neg hq1, if_neg h2, hf]
    dsimp only
    rw [hs]
  · intro k d d2 tmp top rest h1 hq h2 hf hs
    have hq1 : ¬ (d.next A).lexer.raised = true := by rw [hq]; simp
    refine ⟨?_, by rw [hs]; rfl⟩
    rw [Calc.match_exprtail]
    dsimp only
    rw [if_pos h1, if_neg hq1, if_neg h2, hf]
    dsimp only
    rw [hs]
  · intro k d d2 hd hr
    rcases hr with hr | hr
    · exact ((Calc.descent_stack A k).2.2.2.2.1 d _ hr hd).2.2 d2 rfl |>.1
    · exact (((Calc.descent_stack A k).2.1 d _ hr (Or.inl hd)).1.2.2 d2 rfl).1

/-- Witness of C18: on the line `2 + 3 * 4` the `match_expr` of `eval` returns
with one value on the stack, and on an empty line with none. -/
theorem c18_stack_depth_witness :
    (Calc.match_expr ratArith 50 (Calc.start ratArith (Calc.init ratArith "2 + 3 * 4\n".toList)) =
      some (.ok () (exprState ratArith 50
        (Calc.start ratArith (Calc.init ratArith "2 + 3 * 4\n".toList)))) ∧
    (exprState ratArith 50
      (Calc.start ratArith (Calc.init ratArith "2 + 3 * 4\n".toList))).nums = [14] ∧
    (exprState ratArith 50 (Calc.start ratArith (Calc.init ratArith "\n".toList))).nums = []) ∧
    ((exprState ratArith 50
        (Calc.start ratArith (Calc.init ratArith "2 + 3 * 4\n".toList))).nums.length =
      (if (Calc.start ratArith (Calc.init ratArith "2 + 3 * 4\n".toList)).type = .END
        then 0 else 1)) :=
  ⟨⟨by decide!, by decide!, by decide!⟩,
    (c18_stack_depth ratArith 50 (Calc.init ratArith "2 + 3 * 4\n".toList) _ (by decide!)).1⟩

/-- C19: for every state and so for every token stream, `eval`, `match_expr`,
`match_firstitem`, `match_item` and `match_factor` never call `top()` or
`pop()` on an empty stack, and neither do the loops of `match_itemtail` and
`match_exprtail` when they are entered with a value on the stack, as they are
behind a matched factor or item; when such a loop comes to its
`top(); pop(); top()` the stack holds at least two values; and `match_factor`
and `match_item`, when they return `true`, have pushed exactly one value. -/
theorem c19_stack_never_empty (A : Arith α) (n : Nat) (c : Calc α) :
    Calc.eval A n c ≠ some .undefined ∧
    Calc.match_expr A n c ≠ some .undefined ∧
    Calc.match_firstitem A n c ≠ some .undefined ∧
    Calc.match_item A n c ≠ some .undefined ∧
    Calc.match_factor A n c ≠ some .undefined ∧
    (c.nums ≠ [] → Calc.match_itemtail A n c ≠ some .undefined ∧
      Calc.match_exprtail A n c ≠ some .undefined) ∧
    (∀ c2, c.nums ≠ [] →
      (Calc.match_factor A n (c.next A) = some (.ok true c2) ∨
        Calc.match_item A n (c.next A) = some (.ok true c2)) →
      ∃ tmp top rest, c2.nums = tmp :: top :: rest) ∧
    (∀ c2, Calc.match_factor A n c = some (.ok true c2) → ∃ v, c2.nums = v :: c.nums) ∧
    (∀ c2, Calc.match_item A n c = some (.ok true c2) → ∃ v, c2.nums = v :: c.nums) := by
  obtain ⟨hE, hET, hFI, hI, hIT, hF⟩ := Calc.descent_stack A n
  refine ⟨?_, fun h => (hE c _ h).1 rfl, fun h => (hFI c _ h).1 rfl, fun h => (hI c _ h).1 rfl,
    fun h => (hF c _ h).1 rfl, fun hc => ⟨fun h => (hIT c _ h hc).1 rfl,
      fun h => (hET c _ h (Or.inl hc)).1.1 rfl⟩, ?_, fun c2 h => ((hF c _ h).2.2.1 c2 rfl).2,
    fun c2 h => ((hI c _ h).2.2.1 c2 rfl).2⟩
  · rw [Calc.eval_start]
    intro h
    split at h
    · simp at h
    cases hm : Calc.match_expr A n (Calc.start A c) with
    | none => rw [hm] at h; simp at h
    | some r =>
      rw [hm] at h
      have hr := ((Calc.descent_stack A n).1 _ _ hm).1
      cases r with
      | undefined => exact hr rfl
      | raise c2 => simp at h
      | throw e c2 =>
        dsimp only at h
        split at h <;> simp at h
      | ok b c2 =>
        dsimp only at h
        split at h <;> simp at h
  · intro c2 hc hr
    obtain ⟨top, rest, htop⟩ := List.exists_cons_of_ne_nil hc
    have hv : ∃ v, c2.nums = v :: (c.next A).nums := by
      rcases hr with hr | hr
      · exact ((Calc.descent_stack A n).2.2.2.2.2 _ _ hr).2.2.1 c2 rfl |>.2
      · exact ((Calc.descent_stack A n).2.2.2.1 _ _ hr).2.2.1 c2 rfl |>.2
    obtain ⟨v, hv⟩ := hv
    exact ⟨v, top, rest, by rw [hv]; show v :: c.nums = _; rw [htop]⟩

/-- C20: for every state and so for every token stream, `match_expr` returns
without throwing only when the current token is `)` or `End`.  Hence the result
of `match_factor` at a parenthesis is fixed by its first two tests behind
`match_expr`, its final `else` is never taken (behind the `)` it returns
`true`, unless `std::length_error` leaves the call of `get_token`), and every
`missing ')'` thrown by `match_factor` or `match_expr`, and reported by `eval`
(where the caret line can be built), is thrown with `End` as the current
token. -/
theorem c20_expr_ends_at_rparen_or_end (A : Arith α) (n : Nat) (c : Calc α) :
    (∀ c2, Calc.match_expr A n c = some (.ok () c2) → c2.type = .RPAREN ∨ c2.type = .END) ∧
    (∀ c2, c.type = .LPAREN → (c.next A).lexer.raised = false → (c.next A).type ≠ .END →
      Calc.match_expr A n (c.next A) = some (.ok () c2) →
      Calc.match_factor A (n + 1) c =
        some (if c2.type = .END then .throw .missingRParen c2
          else if (c2.next A).lexer.raised = true then .raise (c2.next A)
          else .ok true (c2.next A))) ∧
    (∀ c2, Calc.match_factor A n c = some (.throw .missingRParen c2) → c2.type = .END) ∧
    (∀ c2, Calc.match_expr A n c = some (.throw .missingRParen c2) → c2.type = .END) ∧
    (∀ c2, Calc.match_expr A n (Calc.start A c) = some (.throw .missingRParen c2) →
      c2.type = .END ∧
        (¬ ((Calc.mk c.lexer ([] : List α)).type = .END ∧
            (Calc.next A (Calc.mk c.lexer ([] : List α))).lexer.raised = true) →
          Calc.eval A n c =
            if stringMax < c2.lexer.index then some (.raise c2)
            else
              some (.ok ()
                (c2.print (.syntactic c2.lexer.index .missingRParen)).reset_index))) := by
  obtain ⟨hE, _, _, _, _, hF⟩ := Calc.descent_stack A n
  refine ⟨fun c2 h => ((hE c _ h).2.2 c2 rfl).1, ?_, fun c2 h => (hF c _ h).2.1 c2 rfl,
    fun c2 h => (hE c _ h).2.1 c2 rfl, ?_⟩
  · intro c2 h1 hq h2 he
    have hq1 : ¬ (c.next A).lexer.raised = true := by rw [hq]; simp
    have hty := (((Calc.descent_stack A n).1 _ _ he).2.2 c2 rfl).1
    rw [Calc.match_factor]
    dsimp only
    rw [if_pos h1, if_neg hq1, if_neg h2, he]
    dsimp only
    by_cases h3 : c2.type = .END
    · rw [if_pos h3, if_pos h3]
    · have h4 : c2.type = .RPAREN := by
        rcases hty with h | h
        · exact h
        · exact absurd h h3
      rw [if_neg h3, if_pos h4, if_neg h3]
      by_cases h5 : (c2.next A).lexer.raised = true
      · rw [if_pos h5, if_pos h5]
      · rw [if_neg h5, if_neg h5]
  · intro c2 h
    refine ⟨((Calc.descent_stack A n).1 _ _ h).2.1 c2 rfl, fun hq => ?_⟩
    rw [Calc.eval_start, if_neg hq, h]

/-! ## More ways a line goes wrong -/

/-- A `SyntaxError` thrown by `match_factor` leaves `match_item`. -/
theorem item_throw (A : Arith α) (c c1 : Calc α) (e : SyntaxError)
    (h : Returns (Calc.match_factor A) c (.throw e c1)) :
    Returns (Calc.match_item A) c (.throw e c1) := by
  obtain ⟨n, hn⟩ := h
  refine ⟨n + 1, ?_⟩
  rw [Calc.match_item, hn]

/-- A `SyntaxError` thrown by the operand of `*` or `/` leaves `match_itemtail`. -/
theorem itemtail_throw (A : Arith α) (c c2 : Calc α) (e : SyntaxError)
    (h : c.type = .MUL ∨ c.type = .DIV) (hq : (c.lexer.get_token A).raised = false)
    (h1 : (c.next A).type ≠ .END)
    (hf : Returns (Calc.match_factor A) (c.next A) (.throw e c2)) :
    Returns (Calc.match_itemtail A) c (.throw e c2) := by
  have hq1 : ¬ (c.next A).lexer.raised = true := by
    rw [show (c.next A).lexer.raised = false from hq]; simp
  obtain ⟨n, hn⟩ := hf
  refine ⟨n + 1, ?_⟩
  rw [Calc.match_itemtail]
  dsimp only
  rw [if_pos h, if_neg hq1, if_neg h1, hn]

/-- A parenthesis followed by `End` misses its `)`. -/
theorem factor_open_end (A : Arith α) (c : Calc α) (h : c.type = .LPAREN)
    (hq : (c.lexer.get_token A).raised = false) (h1 : (c.next A).type = .END) :
    Returns (Calc.match_factor A) c (.throw .missingRParen (c.next A)) := by
  have hq1 : (c.next A).lexer.raised = false := hq
  refine ⟨1, ?_⟩
  rw [Calc.match_factor]
  simp [h, hq1, h1]

/-- A parenthesis whose expression ends at `End` misses its `)`. -/
theorem factor_paren_end (A : Arith α) (c c2 : Calc α) (h : c.type = .LPAREN)
    (hq : (c.lexer.get_token A).raised = false) (h1 : (c.next A).type ≠ .END)
    (he : Returns (Calc.match_expr A) (c.next A) (.ok () c2)) (h2 : c2.type = .END) :
    Returns (Calc.match_factor A) c (.throw .missingRParen c2) := by
  have hq1 : (c.next A).lexer.raised = false := hq
  obtain ⟨n, hn⟩ := he
  refine ⟨n + 1, ?_⟩
  rw [Calc.match_factor]
  simp [h, hq1, h1, hn, h2]

/-- A `SyntaxError` thrown inside a parenthesis leaves `match_factor`. -/
theorem factor_paren_throw (A : Arith α) (c c2 : Calc α) (e : SyntaxError)
    (h : c.type = .LPAREN) (hq : (c.lexer.get_token A).raised = false)
    (h1 : (c.next A).type ≠ .END)
    (he : Returns (Calc.match_expr A) (c.next A) (.throw e c2)) :
    Returns (Calc.match_factor A) c (.throw e c2) := by
  have hq1 : (c.next A).lexer.raised = false := hq
  obtain ⟨n, hn⟩ := he
  refine ⟨n + 1, ?_⟩
  rw [Calc.match_factor]
  simp [h, hq1, h1, hn]

/-- On `(`, the tokens of a well-formed tree or nothing, and `End`,
`match_expr` throws `missing ')'` at the `End`. -/
theorem expr_unclosed (A : Arith α) (e : Option (Expr α)) (l : Lexer α) (ns : List α)
    (hwf : ∀ t, e = some t → t.wf = true)
    (hr : l.reads A (.tok .LPAREN :: (e.elim [] Expr.tokens ++ [.tok .END]))) :
    Returns (Calc.match_expr A) ⟨l, ns⟩
      (.throw .missingRParen
        ⟨l.skip A ((e.elim [] Expr.tokens).length + 1), e.elim ns (fun t => t.value A :: ns)⟩) := by
  obtain ⟨h0, hr⟩ := hr
  have hty : (Calc.mk l ns).type = .LPAREN := by show l.token.type = .LPAREN; rw [h0.1]; rfl
  refine expr_throw A _ _ _ (firstitem_throw A _ _ _ (item_throw A _ _ _ ?_))
  cases e with
  | none =>
    have h1 : (l.get_token A).token = .tok .END := hr.1.1
    have := factor_open_end A ⟨l, ns⟩ hty hr.1.2 (by
      show (l.get_token A).token.type = .END
      rw [h1]; rfl)
    simpa [Lexer.skip_succ, Lexer.skip_zero] using this
  | some t =>
    have hw := hwf t rfl
    simp only [Option.elim] at hr ⊢
    have hne : (l.get_token A).token.type ≠ .END :=
      Expr.head_ne_end A t _ hw ((Lexer.reads_append A _ _ _).1 hr).1
    have hq : (l.get_token A).raised = false :=
      Expr.head_raised A t _ hw ((Lexer.reads_append A _ _ _).1 hr).1
    have he := expr_of_tree A t (l.get_token A) ns hw hr
    have hend : ((l.get_token A).skip A t.tokens.length).token.type = .END := by
      rw [((Lexer.reads_append A _ _ _).1 hr).2.1.1]; rfl
    have := factor_paren_end A ⟨l, ns⟩ _ hty hq hne he hend
    rw [Lexer.skip_succ]
    exact this

/-- On `(`, the tokens of a well-formed tree or nothing, and `End`, `match_expr`
throws `missing ')'` at the `End`, and `eval` prints the diagnostic of this
error and no value, unless the caret line is too long to be built. -/
theorem rparen_missing_at_end (A : Arith α) (e : Option (Expr α)) (c : Calc α)
    (hwf : ∀ t, e = some t → t.wf = true)
    (hr : c.lexer.reads A (.tok .LPAREN :: (e.elim [] Expr.tokens ++ [.tok .END]))) :
    ∃ n, ∀ m, n ≤ m →
      Calc.match_expr A m { c with nums := [] } =
          some (.throw .missingRParen
            ⟨c.lexer.skip A ((e.elim [] Expr.tokens).length + 1),
              e.elim [] (fun t => [t.value A])⟩) ∧
        Calc.eval A m c =
          if stringMax < (c.lexer.skip A ((e.elim [] Expr.tokens).length + 1)).index then
            some (.raise ⟨c.lexer.skip A ((e.elim [] Expr.tokens).length + 1),
              e.elim [] (fun t => [t.value A])⟩)
          else
            some (.ok () (Calc.reset_index (Calc.print
              ⟨c.lexer.skip A ((e.elim [] Expr.tokens).length + 1),
                e.elim [] (fun t => [t.value A])⟩
              (.syntactic (c.lexer.skip A ((e.elim [] Expr.tokens).length + 1)).index
                .missingRParen)))) := by
  obtain ⟨n, hn⟩ := expr_unclosed A e c.lexer [] hwf hr
  refine ⟨n, fun m hm => ?_⟩
  have hm1 := Calc.expr_le A hm hn
  have h0 : c.type ≠ .END := by
    show c.lexer.token.type ≠ .END
    rw [hr.1.1]; simp [Token.type]
  have hm2 : Calc.match_expr A m { c with nums := [] } =
      some (.throw .missingRParen
        ⟨c.lexer.skip A ((e.elim [] Expr.tokens).length + 1),
          e.elim [] (fun t => [t.value A])⟩) := by
    rw [hm1]
  exact ⟨hm2, eval_of_throw A c _ _ m h0 hm2⟩

/-- C12: the line `(1 + 2 ` is `(`, the expression `1 + 2`, a space and the end
of the line.  In `"(1 + 2 \n)\n"` the lexer skips the newline behind the space
as white space (the slip of C5), so the token behind `2` is the `)` of the next
line, not `End`: no `missing ')'` is raised and the program prints 3.  In the
same way the line `( ` followed by the line `1)` prints 1.  Without the space
the lines give the diagnostic. -/
theorem c12_rparen_from_next_line :
    (Expr.bin .add (.num 1) (.num 2) : Expr ℚ).wf = true ∧
    (Calc.init ratArith "(1 + 2 \n)\n".toList).lexer.reads ratArith
      [.tok .LPAREN, .num 1, .tok .ADD, .num 2, .tok .RPAREN, .tok .END] ∧
    output ratArith 50 "(1 + 2 \n)\n" = some [.value 3] ∧
    output ratArith 50 "( \n1)\n" = some [.value 1] ∧
    output ratArith 50 "(1 + 2\n" = some [.syntactic 6 .missingRParen] ∧
    output ratArith 50 "(\n" = some [.syntactic 1 .missingRParen] ∧
    output ratArith 50 "(1 + 2\n)\n" =
      some [.syntactic 6 .missingRParen, .syntactic 0 .missingExpr] := by
  refine ⟨?_, ?_, ?_, ?_, ?_, ?_, ?_⟩ <;> decide!

/-- Behind `+` or `-`, a token that is neither `End` nor the start of a factor
makes `match_exprtail` throw `redudant operator` with the text of that token. -/
theorem exprtail_redundant (A : Arith α) (c : Calc α) (h : c.type = .ADD ∨ c.type = .SUB)
    (hq : (c.next A).lexer.raised = false)
    (h1 : (c.next A).type ≠ .END) (h2 : (c.next A).type ≠ .LPAREN)
    (h3 : (c.next A).type ≠ .NUM) :
    Returns (Calc.match_exprtail A) c
      (.throw (.redundantOperator ((c.next A).lexer.token.to_str A)) (c.next A).abort) := by
  have hq1 : ¬ (c.next A).lexer.raised = true := by rw [hq]; simp
  obtain ⟨n, hn⟩ := item_none A (c.next A) h2 h3
  refine ⟨n + 1, ?_⟩
  rw [Calc.match_exprtail]
  dsimp only
  rw [if_pos h, if_neg hq1, if_neg h1, hn]

/-- Behind `*` or `/`, a token that is neither `End` nor the start of a factor
makes `match_itemtail` throw `redudant operator` with the text of that token. -/
theorem itemtail_redundant (A : Arith α) (c : Calc α) (h : c.type = .MUL ∨ c.type = .DIV)
    (hq : (c.next A).lexer.raised = false)
    (h1 : (c.next A).type ≠ .END) (h2 : (c.next A).type ≠ .LPAREN)
    (h3 : (c.next A).type ≠ .NUM) :
    Returns (Calc.match_itemtail A) c
      (.throw (.redundantOperator ((c.next A).lexer.token.to_str A)) (c.next A).abort) := by
  have hq1 : ¬ (c.next A).lexer.raised = true := by rw [hq]; simp
  obtain ⟨n, hn⟩ := factor_none A (c.next A) h2 h3
  refine ⟨n + 1, ?_⟩
  rw [Calc.match_itemtail]
  dsimp only
  rw [if_pos h, if_neg hq1, if_neg h1, hn]

/-- C13: the detail of the error thrown for an operator that is followed by
`+ - * /` or `)` is spelled `redudant operator '<text>'` in the program, not
`redundant operator '<text>'`: the line `3 + * 4` gives `redudant operator '*'`.
Apart from the spelling the error is as claimed: `match_exprtail` and
`match_itemtail` throw it with the text of the token behind the operator, when
the call of `get_token` behind the operator returns. -/
theorem c13_redundant_misspelled (A : Arith α) :
    output ratArith 50 "3 + * 4\n" = some [.syntactic 4 (.redundantOperator "*")] ∧
    (SyntaxError.redundantOperator "*").detail = "redudant operator '*'" ∧
    (SyntaxError.redundantOperator "*").detail ≠ "redundant operator '*'" ∧
    (Output.lines ratArith (.syntactic 4 (.redundantOperator "*") : Output ℚ)) =
      ["    ^", "syntax error: redudant operator '*'"] ∧
    (∀ c : Calc α, (c.type = .ADD ∨ c.type = .SUB) → (c.next A).lexer.raised = false →
      (c.next A).type ≠ .END → (c.next A).type ≠ .LPAREN → (c.next A).type ≠ .NUM →
      Returns (Calc.match_exprtail A) c
        (.throw (.redundantOperator ((c.next A).lexer.token.to_str A)) (c.next A).abort)) ∧
    (∀ c : Calc α, (c.type = .MUL ∨ c.type = .DIV) → (c.next A).lexer.raised = false →
      (c.next A).type ≠ .END → (c.next A).type ≠ .LPAREN → (c.next A).type ≠ .NUM →
      Returns (Calc.match_itemtail A) c
        (.throw (.redundantOperator ((c.next A).lexer.token.to_str A)) (c.next A).abort)) :=
  ⟨by decide!, by decide, by decide, by decide, exprtail_redundant A, itemtail_redundant A⟩

/-- At `*` or `/` the method `match_firstitem` takes its final `else`. -/
theorem firstitem_at_mul (A : Arith α) (c : Calc α) (h : c.type = .MUL ∨ c.type = .DIV) :
    Returns (Calc.match_firstitem A) c (.throw .missingExpr c.abort) := by
  have h1 : c.type ≠ .LPAREN := by rcases h with h | h <;> simp [h]
  have h2 : c.type ≠ .NUM := by rcases h with h | h <;> simp [h]
  obtain ⟨n, hn⟩ := item_none A c h1 h2
  refine ⟨n + 1, ?_⟩
  rw [Calc.match_firstitem, hn]
  rcases h with h | h <;> simp [h]

/-- At `)` the method `match_firstitem` takes its final `else`. -/
theorem firstitem_at_rparen (A : Arith α) (c : Calc α) (h : c.type = .RPAREN) :
    Returns (Calc.match_firstitem A) c (.throw .missingExpr c.abort) := by
  obtain ⟨n, hn⟩ := item_none A c (by simp [h]) (by simp [h])
  refine ⟨n + 1, ?_⟩
  rw [Calc.match_firstitem, hn]
  simp [h]

/-- C14: the final `else` of `match_firstitem`, which throws `missing expr` and
carries the comment `token->type == RPAREN`, is also taken when the current
token is `*` or `/`: the lines `* 3` and `(/ 3)` give `missing expr`.  The empty
parentheses `()` give it too. -/
theorem c14_missing_expr_at_operator (A : Arith α) :
    output ratArith 50 "* 3\n" = some [.syntactic 0 .missingExpr] ∧
    output ratArith 50 "(/ 3)\n" = some [.syntactic 1 .missingExpr] ∧
    output ratArith 50 "()\n" = some [.syntactic 1 .missingExpr] ∧
    (Calc.init ratArith "* 3\n".toList).type = .MUL ∧
    (∀ c : Calc α, (c.type = .MUL ∨ c.type = .DIV) →
      Returns (Calc.match_firstitem A) c (.throw .missingExpr c.abort)) ∧
    (∀ c : Calc α, c.type = .RPAREN →
      Returns (Calc.match_firstitem A) c (.throw .missingExpr c.abort)) :=
  ⟨by decide!, by decide!, by decide!, by decide!, firstitem_at_mul A, firstitem_at_rparen A⟩

/-- C17: on the line `3 4` the diagnostic `missing operator` is printed with
three spaces before the caret, the column behind the offending token `4`, which
two characters precede; on `3 + * 4`, where the program calls `abort()` before
it throws, the caret stands under the offending `*`.  After an empty first line
the columns of the next line are counted one too far. -/
theorem c17_caret_behind_token :
    output ratArith 50 "3 4\n" = some [.syntactic 3 .missingOperator, .value 4] ∧
    (Output.lines ratArith (.syntactic 3 .missingOperator : Output ℚ)) =
      ["   ^", "syntax error: missing operator"] ∧
    "3 ".length = 2 ∧
    output ratArith 50 "3 + * 4\n" = some [.syntactic 4 (.redundantOperator "*")] ∧
    "3 + ".length = 4 ∧
    output ratArith 50 "\n3 4\n" = some [.syntactic 4 .missingOperator, .value 4] := by
  refine ⟨by decide!, by decide, by decide, by decide!, by decide, by decide!⟩

/-! ## A character that starts no token -/

theorem Lexer.views_ch {l : Lexer α} {cs : List Int} (h : l.views cs) : l.ch = cs.headD EOF := by
  rcases h with h | ⟨h, h1, _⟩
  · rw [h]; rfl
  · rw [h, h1]; rfl

theorem Lexer.views_nil {l : Lexer α} (h : l.views []) : l.ch = EOF := Lexer.views_ch h

theorem Lexer.views_cons {l : Lexer α} {c : Int} {cs : List Int} (h : l.views (c :: cs)) :
    l.ch = c := Lexer.views_ch h

/-- Reading a character moves the view by one. -/
theorem Lexer.views_get_char {l : Lexer α} {c : Int} {cs : List Int} (h : l.views (c :: cs)) :
    l.get_char.views cs := by
  rcases h with h | ⟨h, _, _⟩
  · simp only [List.cons.injEq] at h
    obtain ⟨_, h2⟩ := h
    unfold Lexer.views Lexer.ahead Lexer.get_char at *
    cases hg : l.good <;> cases hi : l.input <;> simp_all
  · simp at h

theorem Lexer.views_length {l : Lexer α} {cs : List Int} (h : l.views cs) :
    cs.length ≤ l.input.length + 1 := by
  rcases h with h | ⟨h, _, _⟩
  · rw [h]
    unfold Lexer.ahead
    split <;> simp
  · rw [h]; simp

/-- The loop of `read_int` stops behind the digits in front of the lexer. -/
theorem Lexer.read_int_loop_views (cs : List Int) :
    ∀ (fuel : Nat) (l : Lexer α) (val : Int) (cnt : Nat), l.views cs → cs.length ≤ fuel →
      (Lexer.read_int_loop fuel l val cnt).1.views (cs.dropWhile isdigit) := by
  induction cs with
  | nil =>
    intro fuel l val cnt h _
    have hch := Lexer.views_nil h
    rw [Lexer.read_int_loop_stop _ _ _ _ (by rw [hch]; exact isdigit_EOF)]
    exact h
  | cons c cs ih =>
    intro fuel l val cnt h hf
    have hch := Lexer.views_cons h
    by_cases hd : isdigit c = true
    · obtain ⟨k, rfl⟩ : ∃ k, fuel = k + 1 := ⟨fuel - 1, by simp at hf; omega⟩
      rw [Lexer.read_int_loop_succ, hch, if_pos hd, List.dropWhile_cons_of_pos hd]
      exact ih k _ _ _ (Lexer.views_get_char h) (by simp at hf; omega)
    · rw [Lexer.read_int_loop_stop _ _ _ _ (by rw [hch]; simpa using hd),
        List.dropWhile_cons_of_neg hd]
      exact h

theorem Lexer.read_int_views {l : Lexer α} {cs : List Int} (h : l.views cs) (val : Int) :
    (l.read_int val).1.views (cs.dropWhile isdigit) :=
  Lexer.read_int_loop_views cs _ l val 0 h (Lexer.views_length h)

/-- The step of `match` over the optional sign of an exponent. -/
theorem Lexer.views_sign {l : Lexer α} {r : List Int} (h : l.views r) :
    (if (l.ch == 43) = true then l.get_char
      else if (l.ch == 45) = true then l.get_char else l).views (stripSign r) := by
  cases r with
  | nil =>
    have hch := Lexer.views_nil h
    have h1 : (l.ch == 43) = false := by rw [hch]; decide
    have h2 : (l.ch == 45) = false := by rw [hch]; decide
    simp only [h1, h2, Bool.false_eq_true, if_false]
    exact h
  | cons s t =>
    have hch := Lexer.views_cons h
    rw [show stripSign (s :: t) = if s = 43 ∨ s = 45 then t else s :: t from rfl]
    by_cases h1 : s = 43
    · have : (l.ch == 43) = true := by rw [hch, h1]; decide
      rw [if_pos this, if_pos (Or.inl h1)]
      exact Lexer.views_get_char h
    · by_cases h2 : s = 45
      · have h3 : (l.ch == 43) = false := by rw [hch]; simpa using h1
        have h4 : (l.ch == 45) = true := by rw [hch, h2]; decide
        simp only [h3, h4, Bool.false_eq_true, if_false, if_true]
        rw [if_pos (Or.inr h2)]
        exact Lexer.views_get_char h
      · have h3 : (l.ch == 43) = false := by rw [hch]; simpa using h1
        have h4 : (l.ch == 45) = false := by rw [hch]; simpa using h2
        simp only [h3, h4, Bool.false_eq_true, if_false]
        rw [if_neg (by rintro (h | h) <;> contradiction)]
        exact h

/-- The exponent part: `match` throws exactly the error `exponentError` names,
and gives a number when it names none. -/
theorem Lexer.match_exponent_class (A : Arith α) (l : Lexer α) (val1 val2 : Int) (cnt : Nat)
    (r : List Int) (h : l.views r) :
    (∀ e, exponentError r = some e →
      (Lexer.match_exponent A l val1 val2 cnt).1 = .error e) ∧
    (exponentError r = none →
      ∃ v, (Lexer.match_exponent A l val1 val2 cnt).1 = .ok (.num v)) := by
  cases r with
  | nil =>
    have hch := Lexer.views_nil h
    have hm : (l.ch == 101 || l.ch == 69) = false := by rw [hch]; decide
    unfold Lexer.match_exponent
    simp only [hm, Bool.false_eq_true, if_false]
    exact ⟨fun e he => by simp [exponentError] at he, fun _ => ⟨_, rfl⟩⟩
  | cons m r1 =>
    have hch := Lexer.views_cons h
    by_cases hm : m = 101 ∨ m = 69
    · have hmark : (l.ch == 101 || l.ch == 69) = true := by
        rw [hch]; rcases hm with hm | hm <;> rw [hm] <;> decide
      have hd := Lexer.views_ch (Lexer.views_sign (Lexer.views_get_char h))
      unfold Lexer.match_exponent
      simp only [hmark, if_true]
      simp only [exponentError, if_pos hm]
      generalize (if (l.get_char.ch == 43) = true then l.get_char.get_char
        else if (l.get_char.ch == 45) = true then l.get_char.get_char
        else l.get_char) = l2 at hd ⊢
      rw [← hd]
      cases hdig : isdigit l2.ch with
      | true => simp
      | false => simp
    · have hmark : (l.ch == 101 || l.ch == 69) = false := by
        rw [hch]
        simp only [not_or] at hm
        simp [hm.1, hm.2]
      unfold Lexer.match_exponent
      simp only [hmark, Bool.false_eq_true, if_false]
      exact ⟨fun e he => by simp [exponentError, hm] at he, fun _ => ⟨_, rfl⟩⟩

/-- The number branch of `match` throws exactly the error `literalError` names,
and gives a number when it names none. -/
theorem Lexer.match_number_class (A : Arith α) (l : Lexer α) (cs : List Int)
    (h : l.views cs) :
    (∀ e, literalError cs = some e → (Lexer.match_number A l).1 = .error e) ∧
    (literalError cs = none → ∃ v, (Lexer.match_number A l).1 = .ok (.num v)) := by
  have h1 := Lexer.read_int_views h 0
  have hch := Lexer.views_ch h1
  unfold literalError
  unfold Lexer.match_number
  generalize cs.dropWhile isdigit = d1 at h1 hch
  cases d1 with
  | nil =>
    have h46 : ((l.read_int 0).1.ch == 46) = false := by rw [hch]; decide
    simp only [h46, Bool.false_eq_true, if_false]
    have := Lexer.match_exponent_class A (l.read_int 0).1 (l.read_int 0).2.1 0 0 [] h1
    simpa [exponentError] using this
  | cons c r2 =>
    simp only [List.headD_cons] at hch
    by_cases hc : c = 46
    · have h46 : ((l.read_int 0).1.ch == 46) = true := by rw [hch, hc]; decide
      have h2 := Lexer.views_get_char h1
      have hch2 := Lexer.views_ch h2
      simp only [h46, if_true, if_pos hc]
      rw [← hch2]
      cases hdig : isdigit (l.read_int 0).1.get_char.ch with
      | false => simp
      | true =>
        simp only [Bool.not_true, Bool.false_eq_true, if_false, if_true]
        have h3 := Lexer.read_int_views h2 0
        exact Lexer.match_exponent_class A _ _ _ _ _ h3
    · have h46 : ((l.read_int 0).1.ch == 46) = false := by rw [hch]; simpa using hc
      simp only [h46, Bool.false_eq_true, if_false, if_neg hc]
      exact Lexer.match_exponent_class A _ _ _ _ _ h1

/-- At a digit or a dot `match` takes its number branch. -/
theorem Lexer.match_at_number (A : Arith α) (l : Lexer α) (h : isdigit l.ch = true ∨ l.ch = 46) :
    l.match_ A = Lexer.match_number A l := by
  have h10 : (l.ch == 10) = false := by
    rcases h with h | h
    · simp only [isdigit, Bool.and_eq_true, decide_eq_true_eq] at h
      simp; omega
    · simp [h]
  have hsp : isspace l.ch = false := by
    rcases h with h | h
    · simp only [isdigit, Bool.and_eq_true, decide_eq_true_eq] at h
      simp [isspace]; omega
    · simp [h, isspace]
  have hnum : (isdigit l.ch || l.ch == 46) = true := by
    rcases h with h | h
    · simp [h]
    · simp [h]
  unfold Lexer.match_
  simp only [h10, Bool.false_eq_true, if_false, Lexer.skip_space, hsp, hnum, if_true]

/-- C15: when the current character is a digit or a dot, `match` throws a
`LexError` exactly when the text in front of the lexer has a dot, behind its
integer digits, that is not followed by a digit (`missing value after decimal
dot`), or an exponent marker `e` or `E`, behind its integer and fractional
digits, that is not followed, after an optional sign, by a digit (`missing
value after scientific notation E`); in every other case it returns a `Num`
token, which `get_token` hands on.  After a `LexError`, `get_token` prints the
diagnostic and returns `End`, unless the index is above `stringMax`: then
`std::length_error` leaves it and nothing is printed. -/
theorem c15_literal_errors (A : Arith α) (l : Lexer α) (h : isdigit l.ch = true ∨ l.ch = 46) :
    (∀ e, literalError (l.ch :: l.ahead) = some e → (l.match_ A).1 = .error e) ∧
    (literalError (l.ch :: l.ahead) = none → ∃ v, (l.match_ A).1 = .ok (.num v)) ∧
    (((∃ e, (l.match_ A).1 = .error e) ↔ literalError (l.ch :: l.ahead) ≠ none)) ∧
    (l.good = true → literalError (l.ch :: l.ahead) = none →
      ∃ v, (l.get_token A).token = .num v ∧ (l.get_token A).cout = l.cout) ∧
    (l.good = true → ∀ e, literalError (l.ch :: l.ahead) = some e →
      ((l.match_ A).2.index ≤ stringMax →
        (l.get_token A).token = .tok .END ∧ (l.get_token A).raised = false ∧
          (l.get_token A).cout = l.cout ++ [.lexical (l.match_ A).2.index e]) ∧
      (stringMax < (l.match_ A).2.index →
        (l.get_token A).raised = true ∧ (l.get_token A).cout = l.cout)) := by
  have hv : l.views (l.ch :: l.ahead) := Or.inl rfl
  obtain ⟨h1, h2⟩ := Lexer.match_number_class A l _ hv
  rw [← Lexer.match_at_number A l h] at h1 h2
  refine ⟨h1, h2, ?_, ?_, ?_⟩
  · constructor
    · rintro ⟨e, he⟩ hnone
      obtain ⟨v, hv⟩ := h2 hnone
      rw [hv] at he
      cases he
    · intro hne
      cases hle : literalError (l.ch :: l.ahead) with
      | none => exact absurd hle hne
      | some e => exact ⟨e, h1 e hle⟩
  · intro hg hnone
    obtain ⟨v, hv⟩ := h2 hnone
    refine ⟨v, ?_, ?_⟩
    · unfold Lexer.get_token
      rw [if_pos hg]
      split
      · rename_i t l1 heq
        rw [heq] at hv
        simp only [Except.ok.injEq] at hv
        rw [hv]
      · rename_i e l1 heq
        rw [heq] at hv
        cases hv
    · have hc := Lexer.match_cout A l
      unfold Lexer.get_token
      rw [if_pos hg]
      split
      · rename_i t l1 heq
        rw [heq] at hc
        exact hc
      · rename_i e l1 heq
        rw [heq] at hv
        cases hv
  · intro hg e he
    have hm := h1 e he
    have hc := Lexer.match_cout A l
    unfold Lexer.get_token
    rw [if_pos hg]
    cases hmm : l.match_ A with
    | mk r l1 =>
      rw [hmm] at hm hc
      dsimp only at hm hc ⊢
      subst hm
      dsimp only
      constructor
      · intro hi
        rw [if_neg (by omega)]
        refine ⟨Lexer.abort_token _ _, ?_, ?_⟩
        · rw [Lexer.abort_raised]
        · rw [Lexer.abort_cout]
          show l1.cout ++ _ = _
          rw [hc]
      · intro hi
        rw [if_pos hi]
        exact ⟨rfl, hc⟩

/-- Witness of C15: `2e+` stops at an exponent sign with no digit behind it and
is a lexical error, `1.x` has a dot with no digit behind it, and `1.5e2` is a
number. -/
theorem c15_literal_errors_witness :
    (isdigit (Lexer.init "2e+\n".toList : Lexer ℚ).ch = true ∨
      (Lexer.init "2e+\n".toList : Lexer ℚ).ch = 46) ∧
    literalError ((Lexer.init "2e+\n".toList : Lexer ℚ).ch ::
      (Lexer.init "2e+\n".toList : Lexer ℚ).ahead) = some .missingExponent ∧
    ((Lexer.init "2e+\n".toList : Lexer ℚ).match_ ratArith).1 = .error .missingExponent ∧
    ((Lexer.init "1.x\n".toList : Lexer ℚ).match_ ratArith).1 = .error .missingDecimal ∧
    (∃ v, ((Lexer.init "1.5e2\n".toList : Lexer ℚ).match_ ratArith).1 = .ok (.num v)) :=
  ⟨by decide, by decide,
    (c15_literal_errors ratArith (Lexer.init "2e+\n".toList) (by decide)).1 _ (by decide),
    (c15_literal_errors ratArith (Lexer.init "1.x\n".toList) (by decide)).1 _ (by decide),
    (c15_literal_errors ratArith (Lexer.init "1.5e2\n".toList) (by decide)).2.1 (by decide)⟩

/-! ## Juxtaposed factors -/

/-- At a number or `(` the loop of `match_itemtail` throws `missing operator`. -/
theorem itemtail_juxtaposed (A : Arith α) (c : Calc α)
    (h : c.type = .NUM ∨ c.type = .LPAREN) :
    Returns (Calc.match_itemtail A) c (.throw .missingOperator c) := by
  refine ⟨1, ?_⟩
  rw [Calc.match_itemtail]
  rcases h with h | h <;> simp [h]

/-- A `SyntaxError` that `match_itemtail` throws behind a well-formed tree
leaves `match_expr`. -/
theorem expr_then_itemtail (A : Arith α) (a : Expr α) (l L : Lexer α) (ns : List α)
    (E : SyntaxError) (hwf : a.wf = true) (hr : l.reads A a.tokens)
    (hq : (l.skip A a.tokens.length).raised = false)
    (ht : ∀ (v : α) (ms : List α), ∃ ks,
      Returns (Calc.match_itemtail A) ⟨l.skip A a.tokens.length, v :: ms⟩ (.throw E ⟨L, ks⟩)) :
    ∃ ks, Returns (Calc.match_expr A) ⟨l, ns⟩ (.throw E ⟨L, ks⟩) := by
  by_cases hk : a.rank ≤ 1
  · obtain ⟨ks, hks⟩ := ht (a.value A) ns
    exact ⟨ks, expr_throw A _ _ _ (firstitem_throw A _ _ _
      ((descent A a hwf).2.1 hk l ns _ hr hq hks))⟩
  · cases a with
    | zero => simp [Expr.wf] at hwf
    | num v => simp [Expr.rank] at hk
    | paren e1 => simp [Expr.rank] at hk
    | bin op1 x y =>
      cases hop1 : op1.multiplicative with
      | true => simp [Expr.rank, hop1] at hk
      | false =>
        obtain ⟨hx, hy, hyk⟩ := Expr.wf_add hwf hop1
        rw [Expr.tokens_bin, Lexer.reads_append] at hr
        obtain ⟨hrx, hopt, hry⟩ := hr
        have hlen : (Expr.bin op1 x y).tokens.length =
            (x.tokens.length + 1) + y.tokens.length := by
          rw [Expr.tokens_bin]; simp; omega
        rw [hlen] at ht hq
        obtain ⟨ks, hks⟩ := ht (y.value A) (x.value A :: ns)
        rw [Lexer.skip_add, Lexer.skip_succ_last] at hks hq
        have hi := (descent A y hy).2.1 hyk ((l.skip A x.tokens.length).get_token A)
          (x.value A :: ns) _ hry hq hks
        have hty : (Calc.mk (l.skip A x.tokens.length) (x.value A :: ns)).type = op1.type := by
          show (l.skip A x.tokens.length).token.type = op1.type
          rw [hopt.1]; rfl
        have hadd := BinOp.type_of_additive hop1
        have htail := exprtail_throw A ⟨l.skip A x.tokens.length, x.value A :: ns⟩ _ _
          (by rw [hty]; exact hadd) (Expr.head_raised A y _ hy hry)
          (by
            have := Expr.head_item A y _ hy hyk hry
            show ((l.skip A x.tokens.length).get_token A).token.type ≠ .END
            rcases this with h | h <;> simp [h]) hi
        refine ⟨ks, ?_⟩
        rcases hx with hx | hx
        · subst hx
          simp only [Expr.tokens, List.length_nil, Lexer.skip_zero, Expr.value] at htail hopt
          refine expr_of_firstitem A _ _ _ (firstitem_sign A ⟨l, ns⟩ ?_) htail
          show l.token.type = .ADD ∨ l.token.type = .SUB
          rw [hopt.1]
          exact hadd
        · refine (descent A x hx).2.2 l ns _ hrx hopt.2 ?_ htail
          have : (l.skip A x.tokens.length).token.type = op1.type := by rw [hopt.1]; rfl
          rw [this]
          rcases hadd with h | h
          · exact Or.inl h
          · exact Or.inr (Or.inl h)

/-- What stands before an open parenthesis in a well-formed nest. -/
theorem Nest.wf_operand {a : Expr α} {op : BinOp} {p : Nest α}
    (h : (Nest.operand a op p).wf = true) :
    ((a = .zero ∧ op.multiplicative = false) ∨ a.wf = true) ∧ p.wf = true := by
  cases a with
  | zero =>
    simp only [Nest.wf, Bool.and_eq_true, Bool.not_eq_true'] at h
    exact ⟨Or.inl ⟨rfl, h.1⟩, h.2⟩
  | num v =>
    simp only [Nest.wf, Bool.and_eq_true] at h
    exact ⟨Or.inr h.1, h.2⟩
  | paren e =>
    simp only [Nest.wf, Bool.and_eq_true] at h
    exact ⟨Or.inr h.1, h.2⟩
  | bin op1 x y =>
    simp only [Nest.wf, Bool.and_eq_true] at h
    exact ⟨Or.inr h.1, h.2⟩

/-- The first token of a well-formed nest is not `End`. -/
theorem Nest.first_ne_end (A : Arith α) (p : Nest α) (l : Lexer α) (h : p.wf = true)
    (hr : l.reads A p.tokens) : l.token.type ≠ .END := by
  cases p with
  | expr e => exact Expr.head_ne_end A e l h hr
  | paren p =>
    have h0 : l.token = .tok .LPAREN := hr.1.1
    rw [h0]; simp [Token.type]
  | operand a op p =>
    simp only [Nest.tokens] at hr
    rw [Lexer.reads_append] at hr
    rcases (Nest.wf_operand h).1 with ⟨ha, _⟩ | ha
    · subst ha
      have h0 : l.token = .tok op.type := hr.2.1.1
      rw [h0]
      cases op <;> simp [Token.type, BinOp.type]
    · exact Expr.head_ne_end A _ l ha hr.1

/-- No `std::length_error` is in flight at the first token of a well-formed
nest that is read. -/
theorem Nest.first_raised (A : Arith α) (p : Nest α) (l : Lexer α) (h : p.wf = true)
    (hr : l.reads A p.tokens) : l.raised = false := by
  cases p with
  | expr e => exact Expr.head_raised A e l h hr
  | paren p => exact hr.1.2
  | operand a op p =>
    simp only [Nest.tokens] at hr
    rw [Lexer.reads_append] at hr
    rcases (Nest.wf_operand h).1 with ⟨ha, _⟩ | ha
    · subst ha
      exact hr.2.1.2
    · exact Expr.head_raised A _ l ha hr.1

/-- On the tokens of a well-formed nest followed by a number or `(`,
`match_expr` throws `missing operator` at this token. -/
theorem nest_juxtaposed (A : Arith α) (p : Nest α) : p.wf = true →
    ∀ (l : Lexer α) (ns : List α), l.reads A p.tokens →
      (l.skip A p.tokens.length).raised = false →
      ((l.skip A p.tokens.length).token.type = .NUM ∨
        (l.skip A p.tokens.length).token.type = .LPAREN) →
      ∃ ks, Returns (Calc.match_expr A) ⟨l, ns⟩
        (.throw .missingOperator ⟨l.skip A p.tokens.length, ks⟩) := by
  induction p with
  | expr e =>
    intro hwf l ns hr hq ht
    exact expr_then_itemtail A e l _ ns _ hwf hr hq
      (fun v ms => ⟨v :: ms, itemtail_juxtaposed A ⟨_, v :: ms⟩ ht⟩)
  | paren p ih =>
    intro hwf l ns hr hq ht
    replace hwf : p.wf = true := hwf
    have h0 : l.token = .tok .LPAREN := hr.1.1
    have hrp : (l.get_token A).reads A p.tokens := hr.2
    have hlen : (Nest.paren p).tokens.length = p.tokens.length + 1 := rfl
    rw [hlen, Lexer.skip_succ] at ht hq ⊢
    obtain ⟨ks, hks⟩ := ih hwf (l.get_token A) ns hrp hq ht
    refine ⟨ks, expr_throw A _ _ _ (firstitem_throw A _ _ _ (item_throw A _ _ _
      (factor_paren_throw A ⟨l, ns⟩ _ _ ?_ (Nest.first_raised A p _ hwf hrp) ?_ hks)))⟩
    · show l.token.type = .LPAREN
      rw [h0]; rfl
    · exact Nest.first_ne_end A p _ hwf hrp
  | operand a op p ih =>
    intro hwf l ns hr hq ht
    obtain ⟨ha, hp⟩ := Nest.wf_operand hwf
    simp only [Nest.tokens] at hr
    rw [Lexer.reads_append] at hr
    obtain ⟨hra, hopt, hlp, hrp⟩ := hr
    have hlen : (Nest.operand a op p).tokens.length =
        ((a.tokens.length + 1) + 1) + p.tokens.length := by
      simp [Nest.tokens]; omega
    rw [hlen, Lexer.skip_add, Lexer.skip_succ_last, Lexer.skip_succ_last] at ht hq ⊢
    have hf : ∀ ms : List α, ∃ ks, Returns (Calc.match_factor A)
        ⟨(l.skip A a.tokens.length).get_token A, ms⟩
        (.throw .missingOperator
          ⟨(((l.skip A a.tokens.length).get_token A).get_token A).skip A p.tokens.length,
            ks⟩) := by
      intro ms
      obtain ⟨ks, hks⟩ := ih hp _ ms hrp hq ht
      refine ⟨ks, factor_paren_throw A ⟨_, ms⟩ _ _ ?_ (Nest.first_raised A p _ hp hrp) ?_ hks⟩
      · show ((l.skip A a.tokens.length).get_token A).token.type = .LPAREN
        rw [hlp.1]; rfl
      · exact Nest.first_ne_end A p _ hp hrp
    have hne : ((l.skip A a.tokens.length).get_token A).token.type ≠ .END := by
      rw [hlp.1]; simp [Token.type]
    have hty : ∀ ms : List α, (Calc.mk (l.skip A a.tokens.length) ms).type = op.type := by
      intro ms
      show (l.skip A a.tokens.length).token.type = op.type
      rw [hopt.1]; rfl
    cases hop : op.multiplicative with
    | true =>
      have hawf : a.wf = true := by
        rcases ha with ⟨_, h⟩ | h
        · rw [hop] at h; cases h
        · exact h
      refine expr_then_itemtail A a l _ ns _ hawf hra hopt.2 (fun v ms => ?_)
      obtain ⟨ks, hks⟩ := hf (v :: ms)
      exact ⟨ks, itemtail_throw A ⟨_, v :: ms⟩ _ _
        (by rw [hty]; exact BinOp.type_of_multiplicative hop) hlp.2 hne hks⟩
    | false =>
      have hadd := BinOp.type_of_additive hop
      have htail : ∀ v : α, ∃ ks, Returns (Calc.match_exprtail A)
          ⟨l.skip A a.tokens.length, v :: ns⟩
          (.throw .missingOperator
            ⟨(((l.skip A a.tokens.length).get_token A).get_token A).skip A p.tokens.length,
              ks⟩) := by
        intro v
        obtain ⟨ks, hks⟩ := hf (v :: ns)
        exact ⟨ks, exprtail_throw A ⟨_, v :: ns⟩ _ _ (by rw [hty]; exact hadd) hlp.2 hne
          (item_throw A _ _ _ hks)⟩
      rcases ha with ⟨ha, _⟩ | ha
      · subst ha
        obtain ⟨ks, hks⟩ := htail (A.ofInt 0)
        simp only [Expr.tokens, List.length_nil, Lexer.skip_zero] at hks hopt ⊢
        refine ⟨ks, expr_of_firstitem A _ _ _ (firstitem_sign A ⟨l, ns⟩ ?_) hks⟩
        show l.token.type = .ADD ∨ l.token.type = .SUB
        rw [hopt.1]
        exact hadd
      · obtain ⟨ks, hks⟩ := htail (a.value A)
        refine ⟨ks, (descent A a ha).2.2 l ns _ hra hopt.2 ?_ hks⟩
        have : (l.skip A a.tokens.length).token.type = op.type := by rw [hopt.1]; rfl
        rw [this]
        rcases hadd with h | h
        · exact Or.inl h
        · exact Or.inr (Or.inl h)

/-- C11: for every well-formed nest `p` (a complete expression, inside any
number of parentheses that are still open, so that its last token ends a
complete factor) and every token `t` that is none of `+ - * / )` and `End`,
when the calculator reads the tokens of `p` and then `t`, `match_expr` throws
the `SyntaxError` with the detail `missing operator` with `t` as the current
token, and `eval` prints the diagnostic of this error (unless the index is
above `stringMax`, where the caret line cannot be built and
`std::length_error` leaves `eval`). -/
theorem c11_missing_operator (A : Arith α) (p : Nest α) (t : Token α) (c : Calc α)
    (hwf : p.wf = true)
    (ht : t.type ≠ .ADD ∧ t.type ≠ .SUB ∧ t.type ≠ .MUL ∧ t.type ≠ .DIV ∧
      t.type ≠ .RPAREN ∧ t.type ≠ .END)
    (hr : c.lexer.reads A (p.tokens ++ [t])) :
    SyntaxError.detail .missingOperator = "missing operator" ∧
    (c.lexer.skip A p.tokens.length).token = t ∧
    ∃ ns n, ∀ m, n ≤ m →
      Calc.match_expr A m { c with nums := [] } =
          some (.throw .missingOperator ⟨c.lexer.skip A p.tokens.length, ns⟩) ∧
        Calc.eval A m c =
          if stringMax < (c.lexer.skip A p.tokens.length).index then
            some (.raise ⟨c.lexer.skip A p.tokens.length, ns⟩)
          else
            some (.ok () (Calc.reset_index (Calc.print
              ⟨c.lexer.skip A p.tokens.length, ns⟩
              (.syntactic (c.lexer.skip A p.tokens.length).index .missingOperator)))) := by
  rw [Lexer.reads_append] at hr
  obtain ⟨hrp, ⟨htok, hq⟩, _⟩ := hr
  have hty : (c.lexer.skip A p.tokens.length).token.type = .NUM ∨
      (c.lexer.skip A p.tokens.length).token.type = .LPAREN := by
    rw [htok]
    obtain ⟨h1, h2, h3, h4, h5, h6⟩ := ht
    cases hT : t.type <;> simp_all
  obtain ⟨ns, n, hn⟩ := nest_juxtaposed A p hwf c.lexer [] hrp hq hty
  refine ⟨rfl, htok, ns, n, fun m hm => ?_⟩
  have hm1 := Calc.expr_le A hm hn
  have h0 : c.type ≠ .END := Nest.first_ne_end A p c.lexer hwf hrp
  exact ⟨hm1, eval_of_throw A c _ _ m h0 hm1⟩

/-- Witness of C11: the line `3 4` gives the diagnostic `missing operator`, and
so do `(2 + 3 4`, where the factor `3` stands in an open parenthesis, and
`2 * (3 (`. -/
theorem c11_missing_operator_witness :
    (Nest.expr (.num 3) : Nest ℚ).wf = true ∧
    (Calc.init ratArith "3 4\n".toList).lexer.reads ratArith
      ((Nest.expr (.num 3) : Nest ℚ).tokens ++ [.num 4]) ∧
    ((Calc.init ratArith "3 4\n".toList).lexer.skip ratArith
      (Nest.expr (.num 3) : Nest ℚ).tokens.length).index ≤ stringMax ∧
    (∃ ns n, ∀ m, n ≤ m →
      Calc.match_expr ratArith m { Calc.init ratArith "3 4\n".toList with nums := [] } =
          some (.throw .missingOperator
            ⟨(Calc.init ratArith "3 4\n".toList).lexer.skip ratArith
              (Nest.expr (.num 3) : Nest ℚ).tokens.length, ns⟩) ∧
        Calc.eval ratArith m (Calc.init ratArith "3 4\n".toList) =
          some (.ok () (Calc.reset_index (Calc.print
            ⟨(Calc.init ratArith "3 4\n".toList).lexer.skip ratArith
              (Nest.expr (.num 3) : Nest ℚ).tokens.length, ns⟩
            (.syntactic ((Calc.init ratArith "3 4\n".toList).lexer.skip ratArith
              (Nest.expr (.num 3) : Nest ℚ).tokens.length).index .missingOperator))))) ∧
    (∃ ns n, ∀ m, n ≤ m →
      Calc.match_expr ratArith m { Calc.init ratArith "(2 + 3 4\n".toList with nums := [] } =
        some (.throw .missingOperator
          ⟨(Calc.init ratArith "(2 + 3 4\n".toList).lexer.skip ratArith
            nestOpenSum.tokens.length, ns⟩)) ∧
    (∃ ns n, ∀ m, n ≤ m →
      Calc.match_expr ratArith m { Calc.init ratArith "2 * (3 (\n".toList with nums := [] } =
        some (.throw .missingOperator
          ⟨(Calc.init ratArith "2 * (3 (\n".toList).lexer.skip ratArith
            nestProduct.tokens.length, ns⟩)) ∧
    (output ratArith 50 "3 4\n").map (List.take 1) = some [.syntactic 3 .missingOperator] ∧
    (output ratArith 50 "(2 + 3 4\n").map (List.take 1) =
      some [.syntactic 8 .missingOperator] :=
  ⟨by decide, by decide!, by decide!,
    (c11_missing_operator ratArith (.expr (.num 3)) (.num 4)
      (Calc.init ratArith "3 4\n".toList) (by decide) (by decide) (by decide!)).2.2.imp
        (fun _ h => h.imp (fun _ h m hm => ⟨(h m hm).1, by
          rw [(h m hm).2, if_neg (by decide!)]⟩)),
    (c11_missing_operator ratArith nestOpenSum (.num 4)
      (Calc.init ratArith "(2 + 3 4\n".toList) (by decide) (by decide) (by decide!)).2.2.imp
        (fun _ h => h.imp (fun _ h m hm => (h m hm).1)),
    (c11_missing_operator ratArith nestProduct (.tok .LPAREN)
      (Calc.init ratArith "2 * (3 (\n".toList) (by decide) (by decide) (by decide!)).2.2.imp
        (fun _ h => h.imp (fun _ h m hm => (h m hm).1)),
    by decide!, by decide!⟩

end ZCalc
